import Mathlib

/-!
# Storage core: value segments, attribute vectors, dictionary segments, chunks and tables

A shallow embedding of `src/lib/types.hpp`, `src/lib/storage/value_segment.cpp`,
`src/lib/storage/fixed_width_integer_vector.cpp`,
`src/lib/storage/dictionary_segment.cpp`, `src/lib/storage/chunk.cpp` and
`src/lib/storage/table.cpp`.

Modelling conventions

* `std::vector<X>` is a `List X`; `size_t` is a `Nat` reduced modulo `2 ^ 64`
  where the source subtracts, `ChunkOffset` and `ValueID` are `Nat`s reduced
  modulo `2 ^ 32` where the source converts into them.
* An operation that can throw returns `Except Failure _`.
* The element type `T` carries a decidable `<`: the source compares elements with
  `operator<` only (inside `std::map`, `std::lower_bound`, `std::upper_bound`).
  `int32_t` and `int64_t` values are `Int`s, which `<` orders totally, as it does
  `std::string` values; `float` and `double` values are `FloatValue`s, a number or NaN,
  which `<` does not order totally.
-/

namespace opossum

/-- The two kinds of exception the modelled code raises: `std::logic_error`, thrown by
a failed `Assert`, and `std::out_of_range`, thrown by `std::vector::at`. -/
inductive Failure where
  | logic_error
  | out_of_range
  deriving DecidableEq, Repr

/-- The constant `INVALID_VALUE_ID` of `types.hpp`: the largest `uint32_t`. -/
def INVALID_VALUE_ID : Nat := 2 ^ 32 - 1

/-- The five element types, under the names `Chunk::append` lists in `data_types`. -/
inductive DataType where
  | int
  | long
  | float
  | double
  | string
  deriving DecidableEq, Repr

/-- A `float` or `double` value as the comparison operators see it: NaN or a number. The
infinities are left out, and the two zeros, which compare equal, are one number. -/
inductive FloatValue where
  | nan
  | number (q : ℚ)
  deriving DecidableEq

/-- `operator<` on `float` and `double`: false whenever an operand is NaN. -/
def FloatValue.lt : FloatValue → FloatValue → Bool
  | .number a, .number b => decide (a < b)
  | _, _ => false

/-- `operator<=` on `float` and `double`: false whenever an operand is NaN. -/
def FloatValue.le : FloatValue → FloatValue → Bool
  | .number a, .number b => decide (a ≤ b)
  | _, _ => false

instance FloatValue.instLT : LT FloatValue := ⟨fun a b => FloatValue.lt a b = true⟩

instance FloatValue.instLE : LE FloatValue := ⟨fun a b => FloatValue.le a b = true⟩

instance FloatValue.decidable_lt (a b : FloatValue) : Decidable (a < b) :=
  inferInstanceAs (Decidable (FloatValue.lt a b = true))

instance FloatValue.decidable_le (a b : FloatValue) : Decidable (a ≤ b) :=
  inferInstanceAs (Decidable (FloatValue.le a b = true))

/-- The C++ type an element type resolves to: `int32_t` and `int64_t` values are `Int`s,
`float` and `double` values are `FloatValue`s, `std::string` values are `String`s. -/
@[reducible]
def DataType.carrier : DataType → Type
  | .int => Int
  | .long => Int
  | .float => FloatValue
  | .double => FloatValue
  | .string => String

/-- Modelled from the spec: the value variant of `all_type_variant.hpp` (not among the
sources), which "carries either a typed value of one of the five element types or a
distinguished null sentinel". -/
inductive AllTypeVariant where
  | NULL_VALUE
  | int (v : Int)
  | long (v : Int)
  | float (v : FloatValue)
  | double (v : FloatValue)
  | string (v : String)

/-- Modelled from the spec: `variant_is_null`, the test for the null sentinel. -/
def variant_is_null : AllTypeVariant → Bool
  | .NULL_VALUE => true
  | _ => false

/-- Modelled from the spec: the variant "constructed from" a value of an element type. -/
def AllTypeVariant.of : (t : DataType) → t.carrier → AllTypeVariant
  | .int, v => .int v
  | .long, v => .long v
  | .float, v => .float v
  | .double, v => .double v
  | .string, v => .string v

/-! ## A counted loop -/

/-- The loop `for (auto index = first; index < first + count; ++index) body`, threading
the state the body updates and stopping at the first exception. -/
def for_loop {σ ε : Type} (body : Nat → σ → Except ε σ) : Nat → Nat → σ → Except ε σ
  | _, 0, st => .ok st
  | index, count + 1, st =>
    match body index st with
    | .ok st' => for_loop body (index + 1) count st'
    | .error e => .error e

/-! ## ValueSegment -/

/-- The data members of `ValueSegment<T>`. -/
structure ValueSegment (T : Type) where
  _values : List T
  _is_null_values : List Bool
  _segment_is_nullable : Bool
  deriving DecidableEq, Repr

namespace ValueSegment

variable {T : Type}

/-- `ValueSegment<T>::is_nullable`. -/
def is_nullable (s : ValueSegment T) : Bool := s._segment_is_nullable

/-- `ValueSegment<T>::size`: the `size_t` length converted to `ChunkOffset`. -/
def size (s : ValueSegment T) : Nat := s._values.length % 2 ^ 32

/-- `ValueSegment<T>::values`. -/
def values (s : ValueSegment T) : List T := s._values

/-- `ValueSegment<T>::is_null`: `is_nullable() && _is_null_values.at(chunk_offset)`; the
right operand is evaluated, and can throw, only on a nullable segment. -/
def is_null (s : ValueSegment T) (chunk_offset : Nat) : Except Failure Bool :=
  if s.is_nullable then
    match s._is_null_values[chunk_offset]? with
    | some flag => .ok flag
    | none => .error .out_of_range
  else .ok false

end ValueSegment

/-! ## FixedWidthIntegerVector -/

/-- The three instantiations of `FixedWidthIntegerVector<uintX_t>`; `bytes` is
`sizeof(uintX_t)`, and each entry of `_values` is below `2 ^ (8 * bytes)`. -/
structure FixedWidthIntegerVector where
  bytes : Nat
  _values : List Nat
  deriving DecidableEq, Repr

namespace FixedWidthIntegerVector

/-- The constructor `FixedWidthIntegerVector(size)`: `size` value-initialised entries. -/
def new (bytes size : Nat) : FixedWidthIntegerVector := ⟨bytes, List.replicate size 0⟩

/-- `FixedWidthIntegerVector::size`. -/
def size (v : FixedWidthIntegerVector) : Nat := v._values.length

/-- `FixedWidthIntegerVector::width`. -/
def width (v : FixedWidthIntegerVector) : Nat := v.bytes

/-- `FixedWidthIntegerVector::get`: `ValueID{_values.at(index)}`. -/
def get (v : FixedWidthIntegerVector) (index : Nat) : Except Failure Nat :=
  match v._values[index]? with
  | some value_id => .ok value_id
  | none => .error .out_of_range

/-- `FixedWidthIntegerVector::set`: `_values.at(index) = value_id`, the assignment
narrowing the 32-bit value id to `uintX_t`. An index out of range throws
(`std::out_of_range` from `at`, a `std::logic_error` from `DebugAssert` in debug builds). -/
def set (v : FixedWidthIntegerVector) (index value_id : Nat) : Except Failure FixedWidthIntegerVector :=
  if index < v.size then
    .ok { v with _values := v._values.set index (value_id % 2 ^ (8 * v.bytes)) }
  else .error .out_of_range

end FixedWidthIntegerVector

/-! ## std::map<T, ValueID> -/

section DictMap

variable {T : Type} [LT T] [∀ a b : T, Decidable (a < b)]

/-- `std::map<T, ValueID>::find` on the key-ordered list of entries of the map: the
value of the entry whose key is equivalent to `k` under `operator<`, that is neither below
nor above `k`. Where `operator<` orders the keys and `k` totally there is at most one such
entry, the one the search in the tree ends at. -/
def dict_map_find : List (T × Nat) → T → Option Nat
  | [], _ => none
  | (k', v) :: rest, k =>
    if k' < k ∨ k < k' then dict_map_find rest k else some v

/-- `std::map<T, ValueID>::insert`: the entry is put at its place in key order unless an
equivalent key is present; the second component is `inserted.second`. -/
def dict_map_insert : List (T × Nat) → T → Nat → List (T × Nat) × Bool
  | [], k, v => ([(k, v)], true)
  | (k', v') :: rest, k, v =>
    if k < k' then ((k, v) :: (k', v') :: rest, true)
    else if k' < k then ((k', v') :: (dict_map_insert rest k v).1, (dict_map_insert rest k v).2)
    else ((k', v') :: rest, false)

/-- `std::map<T, ValueID>::operator[]` as the constructor uses it: the mapped value,
a value-initialised `ValueID` for an absent key. (The entry `operator[]` would add for
an absent key is not modelled: nothing reads the map after the loop that calls it.) -/
def dict_map_index (m : List (T × Nat)) (k : T) : Nat :=
  (dict_map_find m k).getD 0

end DictMap

/-! ## DictionarySegment -/

/-- `std::bit_width` on at most `fuel` binary digits. -/
def bit_width_aux : Nat → Nat → Nat
  | 0, _ => 0
  | fuel + 1, x => if x = 0 then 0 else bit_width_aux fuel (x / 2) + 1

/-- `std::bit_width` on a `size_t`: the number of binary digits of `x`, `0` for `0`. -/
def bit_width (x : Nat) : Nat := bit_width_aux 64 x

/-- The `size_t` subtraction `x - 1`, which wraps around at zero; for `x < 2 ^ 64` this
is `(x + 2 ^ 64 - 1) % 2 ^ 64`. -/
def size_t_pred (x : Nat) : Nat := if x = 0 then 2 ^ 64 - 1 else x - 1

/-- `get_attribute_vector(vector_size, size)`; `vector_size - 1` is computed in `size_t`. -/
def get_attribute_vector (vector_size size : Nat) : Except Failure FixedWidthIntegerVector :=
  if bit_width (size_t_pred vector_size) ≤ 32 then
    if bit_width (size_t_pred vector_size) ≤ 8 then .ok (FixedWidthIntegerVector.new 1 size)
    else if bit_width (size_t_pred vector_size) ≤ 16 then .ok (FixedWidthIntegerVector.new 2 size)
    else .ok (FixedWidthIntegerVector.new 4 size)
  else .error .logic_error

/-- `DictionarySegment<T>::null_value_id`. -/
def null_value_id : Nat := 0

/-- The data members of `DictionarySegment<T>`. -/
structure DictionarySegment (T : Type) where
  _dictionary : List T
  _attribute_vector : FixedWidthIntegerVector
  _is_nullable : Bool
  deriving DecidableEq, Repr

section Construction

variable {T : Type} [LT T] [∀ a b : T, Decidable (a < b)]

/-- The body of the first loop of the constructor (lines 37-47): the state is
`(dict_map, last_index)`. `last_index` is an `int` in the source and is converted to
`ValueID` on insertion; it is a `Nat` here, which gives the same attribute vector,
since `set` narrows every id to at most 32 bits anyway. -/
def collect_step (value_segment : ValueSegment T) (index : Nat)
    (st : List (T × Nat) × Nat) : Except Failure (List (T × Nat) × Nat) :=
  match value_segment.is_null index with
  | .error e => .error e
  | .ok true => .ok st
  | .ok false =>
    match value_segment.values[index]? with
    | none => .error .out_of_range
    | some value =>
      if dict_map_find st.1 value = none then
        if (dict_map_insert st.1 value st.2).2 then
          .ok ((dict_map_insert st.1 value st.2).1, st.2 + 1)
        else .ok ((dict_map_insert st.1 value st.2).1, st.2)
      else .ok st

/-- The body of the second loop of the constructor (lines 54-61). -/
def encode_step (value_segment : ValueSegment T) (dict_map : List (T × Nat)) (index : Nat)
    (attribute_vector : FixedWidthIntegerVector) : Except Failure FixedWidthIntegerVector :=
  match value_segment.is_null index with
  | .error e => .error e
  | .ok true => attribute_vector.set index null_value_id
  | .ok false =>
    match value_segment.values[index]? with
    | none => .error .out_of_range
    | some value => attribute_vector.set index (dict_map_index dict_map value)

/-- The constructor `DictionarySegment<T>::DictionarySegment`, applied to a segment that
is a `ValueSegment<T>` (the `dynamic_pointer_cast` has succeeded). -/
def DictionarySegment.new (value_segment : ValueSegment T) : Except Failure (DictionarySegment T) :=
  match for_loop (collect_step value_segment) 0 value_segment.size
      ([], if value_segment.is_nullable then 1 else 0) with
  | .error e => .error e
  | .ok (dict_map, _) =>
    match get_attribute_vector dict_map.length value_segment.size with
    | .error e => .error e
    | .ok attribute_vector =>
      match for_loop (encode_step value_segment dict_map) 0 value_segment.size
          attribute_vector with
      | .error e => .error e
      | .ok attribute_vector =>
        .ok ⟨dict_map.map Prod.fst, attribute_vector, value_segment.is_nullable⟩

end Construction

namespace DictionarySegment

variable {T : Type}

/-- `DictionarySegment<T>::dictionary`. -/
def dictionary (d : DictionarySegment T) : List T := d._dictionary

/-- `DictionarySegment<T>::attribute_vector`. -/
def attribute_vector (d : DictionarySegment T) : FixedWidthIntegerVector := d._attribute_vector

/-- `DictionarySegment<T>::value_of_value_id`. -/
def value_of_value_id (d : DictionarySegment T) (value_id : Nat) : Except Failure T :=
  if d._is_nullable && value_id == null_value_id then .error .logic_error
  else
    match d.dictionary[value_id - (if d._is_nullable then 1 else 0)]? with
    | some value => .ok value
    | none => .error .out_of_range

/-- `DictionarySegment<T>::get_typed_value`. -/
def get_typed_value (d : DictionarySegment T) (chunk_offset : Nat) : Except Failure (Option T) :=
  match d.attribute_vector.get chunk_offset with
  | .error e => .error e
  | .ok value_id =>
    if value_id = null_value_id then .ok none
    else
      match d.value_of_value_id value_id with
      | .error e => .error e
      | .ok value => .ok (some value)

/-- `DictionarySegment<T>::operator[]`; `to_variant` is the conversion of a `T` into an
`AllTypeVariant` (declared in `all_type_variant.hpp`, not among the sources). -/
def operator_index (to_variant : T → AllTypeVariant) (d : DictionarySegment T)
    (chunk_offset : Nat) : Except Failure AllTypeVariant :=
  match d.get_typed_value chunk_offset with
  | .error e => .error e
  | .ok (some value) => .ok (to_variant value)
  | .ok none => .ok .NULL_VALUE

/-- `DictionarySegment<T>::get`. -/
def get (d : DictionarySegment T) (chunk_offset : Nat) : Except Failure T :=
  match d.get_typed_value chunk_offset with
  | .error e => .error e
  | .ok (some value) => .ok value
  | .ok none => .error .logic_error

/-- `DictionarySegment<T>::unique_values_count`: the length converted to `ChunkOffset`. -/
def unique_values_count (d : DictionarySegment T) : Nat := d._dictionary.length % 2 ^ 32

/-- `DictionarySegment<T>::size`. -/
def size (d : DictionarySegment T) : Nat := d.attribute_vector.size % 2 ^ 32

/-- `DictionarySegment<T>::estimate_memory_usage`, in `size_t` arithmetic; `sizeof_T` is
`sizeof(T)`. -/
def estimate_memory_usage (sizeof_T : Nat) (d : DictionarySegment T) : Nat :=
  let dict_size := (sizeof_T * d.dictionary.length) % 2 ^ 64
  let att_vec_size := (d.attribute_vector.width * d.attribute_vector.size) % 2 ^ 64
  (dict_size + att_vec_size) % 2 ^ 64

end DictionarySegment

section Bounds

variable {T : Type} [LT T] [∀ a b : T, Decidable (a < b)]

/-- The loop of `std::lower_bound` over `[first, first + len)`; every round removes at
least one position, so `fuel = len` rounds are enough. -/
def lower_bound_loop (xs : List T) (value : T) : Nat → Nat → Nat → Nat
  | 0, first, _ => first
  | fuel + 1, first, len =>
    if 0 < len then
      match xs[first + len / 2]? with
      | some middle =>
        if middle < value then
          lower_bound_loop xs value fuel (first + len / 2 + 1) (len - len / 2 - 1)
        else lower_bound_loop xs value fuel first (len / 2)
      | none => first
    else first

/-- `std::lower_bound(xs.begin(), xs.end(), value)`, as the distance from `begin`. -/
def std_lower_bound (xs : List T) (value : T) : Nat :=
  lower_bound_loop xs value xs.length 0 xs.length

/-- `DictionarySegment<T>::lower_bound(const T value)`. -/
def DictionarySegment.lower_bound (d : DictionarySegment T) (value : T) : Nat :=
  if std_lower_bound d._dictionary value = d._dictionary.length then INVALID_VALUE_ID
  else std_lower_bound d._dictionary value % 2 ^ 32

end Bounds

/-! ## Specification-side notions -/

section Invariants

variable {T : Type} [LinearOrder T]

/-- What the first loop of the constructor has established when it reaches position `j`:
the keys of the map are strictly ascending, they are the non-null values at the
positions before `j`, and there are at most `j` of them. -/
def CollectInv (s : ValueSegment T) (j : Nat) (st : List (T × Nat) × Nat) : Prop :=
  (st.1.map Prod.fst).Sorted (· < ·) ∧
  (∀ x, x ∈ st.1.map Prod.fst ↔ ∃ i, i < j ∧ s.is_null i = .ok false ∧ s._values[i]? = some x) ∧
  st.1.length ≤ j

/-- What the second loop of the constructor has established when it reaches position
`j`: the vector keeps its width and length, a null position before `j` holds the null
value id, and a non-null position before `j` holds the narrowed id of its value. -/
def EncodeInv (s : ValueSegment T) (m : List (T × Nat)) (w n j : Nat)
    (av : FixedWidthIntegerVector) : Prop :=
  av.bytes = w ∧ av._values.length = n ∧
  (∀ i, i < j → s.is_null i = .ok true → av._values[i]? = some 0) ∧
  (∀ i x, i < j → s.is_null i = .ok false → s._values[i]? = some x →
    av._values[i]? = some (dict_map_index m x % 2 ^ (8 * w)))

end Invariants

/-- The non-nullable `int32_t` value segment that holds the `n` smallest values of
`int32_t`, in ascending order. -/
def int32_range_segment (n : Nat) : ValueSegment Int :=
  ⟨(List.range n).map (fun (i : Nat) => (i : Int) - 2 ^ 31), List.replicate n false, false⟩

/-- The non-nullable `int32_t` value segment that holds each of the `2 ^ 32` values of
`int32_t` once. -/
def all_int32_segment : ValueSegment Int := int32_range_segment (2 ^ 32)

section IdInvariants

variable {T : Type} [LinearOrder T]

/-- What the first loop of the constructor has established at position `j` of a segment
whose values are pairwise distinct and not null: the value at position `i < j` has the
id `n + i`. -/
def RankInv (s : ValueSegment T) (n j : Nat) (st : List (T × Nat) × Nat) : Prop :=
  st.2 = n + j ∧ ∀ i x, i < j → s._values[i]? = some x → dict_map_find st.1 x = some (n + i)

end IdInvariants

/-- The nullable `int32_t` value segment that holds the values `0, ..., n - 1` and no
null. -/
def nullable_range_segment (n : Nat) : ValueSegment Int :=
  ⟨(List.range n).map Int.ofNat, List.replicate n false, true⟩

/-! ## ValueSegment: construction, append and reads -/

/-- Modelled from the spec: an instance of `type_cast<T>` (`type_cast.hpp` is not among the
sources), for the examples. A variant holding a value of the requested type yields that
value, and a variant holding an `int` is converted to each type, so that `type_cast<T>(0)`,
the dummy `append` stores in a null cell, is defined for every `T`. It rejects every other
conversion, also the numeric coercions of the spec, none of which the examples use. -/
def type_cast_model : (t : DataType) → AllTypeVariant → Except Failure t.carrier
  | .int, .int v => .ok v
  | .long, .long v => .ok v
  | .long, .int v => .ok v
  | .float, .float v => .ok v
  | .float, .int v => .ok (.number v)
  | .double, .double v => .ok v
  | .double, .int v => .ok (.number v)
  | .string, .string v => .ok v
  | .string, .int v => .ok (toString v)
  | _, _ => .error .logic_error

namespace ValueSegment

variable {T : Type}

/-- The constructor `ValueSegment<T>(nullable)`. -/
def new (nullable : Bool) : ValueSegment T := ⟨[], [], nullable⟩

/-- `ValueSegment<T>::append`: the segment after the call, and whether the call returned or
threw. `type_cast` stands for `type_cast<T>` (`type_cast.hpp` is not among the sources); it
is evaluated before the `push_back` that takes its result, so a call that throws leaves
the segment as it was. -/
def append (type_cast : AllTypeVariant → Except Failure T) (s : ValueSegment T)
    (value : AllTypeVariant) : ValueSegment T × Except Failure Unit :=
  if variant_is_null value then
    if s._segment_is_nullable then
      match type_cast (.int 0) with
      | .ok dummy =>
        (⟨s._values ++ [dummy], s._is_null_values ++ [true], s._segment_is_nullable⟩, .ok ())
      | .error e => (s, .error e)
    else (s, .error .logic_error)
  else
    match type_cast value with
    | .ok v =>
      (⟨s._values ++ [v], s._is_null_values ++ [false], s._segment_is_nullable⟩, .ok ())
    | .error _ => (s, .error .logic_error)

/-- A sequence of `append` calls on one segment, the caller catching the exceptions: the
segment after the calls and the number of calls that returned. -/
def append_all (type_cast : AllTypeVariant → Except Failure T) :
    ValueSegment T → List AllTypeVariant → ValueSegment T × Nat
  | s, [] => (s, 0)
  | s, value :: values =>
    match (s.append type_cast value).2 with
    | .ok _ =>
      ((append_all type_cast (s.append type_cast value).1 values).1,
        (append_all type_cast (s.append type_cast value).1 values).2 + 1)
    | .error _ => append_all type_cast (s.append type_cast value).1 values

/-- A sequence of `append` calls on one segment that stops at the first call that throws. -/
def append_list (type_cast : AllTypeVariant → Except Failure T) :
    ValueSegment T → List AllTypeVariant → Except Failure (ValueSegment T)
  | s, [] => .ok s
  | s, value :: values =>
    match (s.append type_cast value).2 with
    | .ok _ => append_list type_cast (s.append type_cast value).1 values
    | .error e => .error e

/-- `ValueSegment<T>::get`. The source reads `_values[chunk_offset]` unchecked; a position
outside the vector is reported as a failure here. -/
def get (s : ValueSegment T) (chunk_offset : Nat) : Except Failure T :=
  match s.is_null chunk_offset with
  | .error e => .error e
  | .ok true => .error .logic_error
  | .ok false =>
    match s._values[chunk_offset]? with
    | some value => .ok value
    | none => .error .out_of_range

/-- `ValueSegment<T>::get_typed_value`. -/
def get_typed_value (s : ValueSegment T) (chunk_offset : Nat) : Except Failure (Option T) :=
  match s.is_null chunk_offset with
  | .error e => .error e
  | .ok true => .ok none
  | .ok false =>
    match s.get chunk_offset with
    | .error e => .error e
    | .ok value => .ok (some value)

/-- `ValueSegment<T>::operator[]`; `to_variant` is the conversion of a `T` into an
`AllTypeVariant` (declared in `all_type_variant.hpp`, not among the sources). -/
def operator_index (to_variant : T → AllTypeVariant) (s : ValueSegment T)
    (chunk_offset : Nat) : Except Failure AllTypeVariant :=
  match s.is_null chunk_offset with
  | .error e => .error e
  | .ok true => .ok .NULL_VALUE
  | .ok false =>
    match s.get chunk_offset with
    | .error e => .error e
    | .ok value => .ok (to_variant value)

end ValueSegment

/-- The variant appended for a cell: the null variant for an absent value, the variant
holding the value otherwise. -/
def variant_of_cell {T : Type} (to_variant : T → AllTypeVariant) : Option T → AllTypeVariant
  | none => .NULL_VALUE
  | some v => to_variant v

/-! ## Chunk -/

/-- A segment as a `Chunk` holds it: a `ValueSegment<DataType>` of one of the five element
types, or a segment of another class (such as a `DictionarySegment`), of which `Chunk` uses
`size()` only: every `dynamic_pointer_cast` of it to a value segment yields null. -/
inductive AbstractSegment where
  | value_segment (data_type : DataType) (segment : ValueSegment data_type.carrier)
  | other (size : Nat)

/-- `AbstractSegment::size`. -/
def AbstractSegment.size : AbstractSegment → Nat
  | .value_segment _ segment => segment.size
  | .other size => size

/-- The data members of `Chunk`. -/
structure Chunk where
  _segments : List AbstractSegment

/-- The loop over the columns in `Chunk::append`, on the segments and values from the
current column on: the segments after the loop, and whether it ran to its end or an
`append` threw. For a value segment exactly one of the five casts succeeds and the value
is appended; for any other segment no cast succeeds and the column is passed over. The
loop counts columns in a `ColumnID`, so it is modelled for fewer than `2 ^ 16` columns. -/
def append_columns (type_cast : (t : DataType) → AllTypeVariant → Except Failure t.carrier) :
    List AbstractSegment → List AllTypeVariant → List AbstractSegment × Except Failure Unit
  | [], _ => ([], .ok ())
  | segment :: segments, [] => (segment :: segments, .error .out_of_range)
  | .value_segment t s :: segments, value :: values =>
    match (s.append (type_cast t) value).2 with
    | .error e => (.value_segment t (s.append (type_cast t) value).1 :: segments, .error e)
    | .ok _ =>
      (.value_segment t (s.append (type_cast t) value).1
          :: (append_columns type_cast segments values).1,
        (append_columns type_cast segments values).2)
  | .other size :: segments, _ :: values =>
    (.other size :: (append_columns type_cast segments values).1,
      (append_columns type_cast segments values).2)

namespace Chunk

/-- The implicit constructor of `Chunk`: no segments. -/
def new : Chunk := ⟨[]⟩

/-- `Chunk::add_segment`. -/
def add_segment (c : Chunk) (segment : AbstractSegment) : Chunk := ⟨c._segments ++ [segment]⟩

/-- `Chunk::column_count`: the number of segments converted to `ColumnCount`. -/
def column_count (c : Chunk) : Nat := c._segments.length % 2 ^ 16

/-- `Chunk::size`. -/
def size (c : Chunk) : Nat :=
  if c.column_count = 0 then 0
  else
    match c._segments[0]? with
    | some segment => segment.size
    | none => 0

/-- `Chunk::get_segment`. -/
def get_segment (c : Chunk) (column_id : Nat) : Except Failure AbstractSegment :=
  match c._segments[column_id]? with
  | some segment => .ok segment
  | none => .error .out_of_range

/-- `Chunk::append`: the chunk after the call, and whether the call returned or threw. -/
def append (type_cast : (t : DataType) → AllTypeVariant → Except Failure t.carrier)
    (c : Chunk) (values : List AllTypeVariant) : Chunk × Except Failure Unit :=
  if values.length = c._segments.length then
    (⟨(append_columns type_cast c._segments values).1⟩,
      (append_columns type_cast c._segments values).2)
  else (c, .error .logic_error)

end Chunk

/-! ## Table -/

/-- The data members of `Table`. A column type is one of the five type names that
`resolve_data_type` (`resolve_type.hpp`, not among the sources) resolves; the name is
identified with the element type it resolves to. -/
structure Table where
  _chunks : List Chunk
  _column_names : List String
  _column_types : List DataType
  _column_nullable : List Bool
  _target_chunk_size : Nat

namespace Table

/-- The chunk `_chunks.back()`; a table always has a chunk, the constructor creates one. -/
def last_chunk (t : Table) : Chunk := t._chunks.getLastD Chunk.new

/-- `Table::create_new_chunk`: a chunk with an empty value segment for each of the
`_column_names.size()` columns, of the type and nullability of the column. -/
def create_new_chunk (t : Table) : Table :=
  { t with _chunks := t._chunks ++
      [⟨(List.zipWith (fun type nullable => AbstractSegment.value_segment type
          (ValueSegment.new nullable)) t._column_types t._column_nullable).take
          t._column_names.length⟩] }

/-- The constructor `Table(target_chunk_size)`. -/
def new (target_chunk_size : Nat) : Table :=
  create_new_chunk ⟨[], [], [], [], target_chunk_size⟩

/-- `Table::row_count`, in `uint64_t` arithmetic. -/
def row_count (t : Table) : Nat :=
  (size_t_pred t._chunks.length * t._target_chunk_size + t.last_chunk.size) % 2 ^ 64

/-- `Table::chunk_count`: the number of chunks converted to `ChunkID`. -/
def chunk_count (t : Table) : Nat := t._chunks.length % 2 ^ 32

/-- `Table::column_count`: the number of columns converted to `ColumnCount`. -/
def column_count (t : Table) : Nat := t._column_names.length % 2 ^ 16

/-- `Table::column_name`. -/
def column_name (t : Table) (column_id : Nat) : Except Failure String :=
  match t._column_names[column_id]? with
  | some name => .ok name
  | none => .error .out_of_range

/-- `Table::column_type`. -/
def column_type (t : Table) (column_id : Nat) : Except Failure DataType :=
  match t._column_types[column_id]? with
  | some type => .ok type
  | none => .error .out_of_range

/-- `Table::column_nullable`. -/
def column_nullable (t : Table) (column_id : Nat) : Except Failure Bool :=
  match t._column_nullable[column_id]? with
  | some nullable => .ok nullable
  | none => .error .out_of_range

/-- `Table::add_column_definition`. -/
def add_column_definition (t : Table) (name : String) (type : DataType) (nullable : Bool) :
    Table :=
  { t with _column_names := t._column_names ++ [name],
           _column_types := t._column_types ++ [type],
           _column_nullable := t._column_nullable ++ [nullable] }

/-- `Table::add_column`: the table after the call, and whether the call returned or threw. -/
def add_column (t : Table) (name : String) (type : DataType) (nullable : Bool) :
    Table × Except Failure Unit :=
  if t.row_count = 0 then
    (add_column_definition
      { t with _chunks := t._chunks.map (fun chunk =>
          chunk.add_segment (.value_segment type (ValueSegment.new nullable))) }
      name type nullable, .ok ())
  else (t, .error .logic_error)

/-- The update `_chunks.back()->append(values)`: the table with its last chunk after the
call of `Chunk::append`, and whether that call returned or threw. -/
def append_to_last_chunk
    (type_cast : (t : DataType) → AllTypeVariant → Except Failure t.carrier)
    (t : Table) (values : List AllTypeVariant) : Table × Except Failure Unit :=
  ({ t with _chunks := t._chunks.dropLast ++ [(t.last_chunk.append type_cast values).1] },
    (t.last_chunk.append type_cast values).2)

/-- `Table::append`: the table after the call, and whether the call returned or threw. An
exception of `Chunk::append` leaves the new chunk and the values appended so far in place. -/
def append (type_cast : (t : DataType) → AllTypeVariant → Except Failure t.carrier)
    (t : Table) (values : List AllTypeVariant) : Table × Except Failure Unit :=
  if values.length = t._column_names.length then
    if t._target_chunk_size ≤ t.last_chunk.size then
      append_to_last_chunk type_cast t.create_new_chunk values
    else append_to_last_chunk type_cast t values
  else (t, .error .logic_error)

/-- The tables reachable from `Table(target_chunk_size)` by calls of `add_column` and
`append`, whether they return or throw. -/
inductive Reachable (type_cast : (t : DataType) → AllTypeVariant → Except Failure t.carrier)
    (target_chunk_size : Nat) : Table → Prop where
  | new : Reachable type_cast target_chunk_size (Table.new target_chunk_size)
  | add_column (t : Table) (name : String) (type : DataType) (nullable : Bool) :
    Reachable type_cast target_chunk_size t →
    Reachable type_cast target_chunk_size (t.add_column name type nullable).1
  | append (t : Table) (values : List AllTypeVariant) :
    Reachable type_cast target_chunk_size t →
    Reachable type_cast target_chunk_size (t.append type_cast values).1

/-- The table `Table(target_chunk_size)` after an `add_column` call for each of the given
columns, in the order of the list. -/
def with_columns (target_chunk_size : Nat) (columns : List (String × DataType × Bool)) :
    Table :=
  columns.foldl (fun t column => (t.add_column column.1 column.2.1 column.2.2).1)
    (Table.new target_chunk_size)

/-- A sequence of `append` calls on one table that stops at the first call that throws. -/
def append_rows (type_cast : (t : DataType) → AllTypeVariant → Except Failure t.carrier) :
    Table → List (List AllTypeVariant) → Except Failure Table
  | t, [] => .ok t
  | t, values :: rows =>
    match (t.append type_cast values).2 with
    | .ok _ => append_rows type_cast (t.append type_cast values).1 rows
    | .error e => .error e

end Table

/-- The chunk has `columns` segments, each a value segment holding `rows` values. -/
def Chunk.HasRows (c : Chunk) (columns rows : Nat) : Prop :=
  c._segments.length = columns ∧
  ∀ segment ∈ c._segments, ∃ (t : DataType) (s : ValueSegment t.carrier),
    segment = .value_segment t s ∧ s._values.length = rows

/-- The shape of a table of `columns` columns and target chunk size `c` that holds `n`
rows: every chunk but the last holds `c` rows in each of its value segments, the last
chunk holds the remaining `r ≤ c` rows, and a last chunk that follows another one holds
at least one row. -/
def Table.RowsInv (c columns : Nat) (t : Table) (n : Nat) : Prop :=
  t._target_chunk_size = c ∧ t._column_names.length = columns ∧
  t._column_types.length = columns ∧ t._column_nullable.length = columns ∧
  ∃ (full : List Chunk) (last : Chunk) (r : Nat),
    t._chunks = full ++ [last] ∧ (∀ chunk ∈ full, chunk.HasRows columns c) ∧
    last.HasRows columns r ∧ r ≤ c ∧ n = full.length * c + r ∧ (full ≠ [] → 1 ≤ r)

/-! ## RowID -/

/-- The constant `INVALID_CHUNK_OFFSET` of `types.hpp`: the largest `ChunkOffset`. -/
def INVALID_CHUNK_OFFSET : Nat := 2 ^ 32 - 1

/-- The constant `INVALID_CHUNK_ID` of `types.hpp`: the largest `ChunkID`. -/
def INVALID_CHUNK_ID : Nat := 2 ^ 32 - 1

/-- The struct `RowID`; both members are 32-bit unsigned integers. -/
structure RowID where
  chunk_id : Nat
  chunk_offset : Nat
  deriving DecidableEq, Repr

/-- `RowID::is_null`: only the chunk offset is compared. -/
def RowID.is_null (r : RowID) : Bool := r.chunk_offset == INVALID_CHUNK_OFFSET

/-- `RowID::operator==`: the comparison of the two `std::tie` tuples. -/
def RowID.operator_eq (r rhs : RowID) : Bool :=
  (r.chunk_id, r.chunk_offset) == (rhs.chunk_id, rhs.chunk_offset)

/-- The constant `NULL_ROW_ID`. -/
def NULL_ROW_ID : RowID := ⟨INVALID_CHUNK_ID, INVALID_CHUNK_OFFSET⟩

/-- The value segment of the images under `f` of the values of a segment, with the same
null flags: how a segment over `U` whose values all lie in the range of `f` is given. -/
def ValueSegment.map {T U : Type} (f : T → U) (s : ValueSegment T) : ValueSegment U :=
  ⟨s._values.map f, s._is_null_values, s._segment_is_nullable⟩

/-- The dictionary segment of the images under `f` of the dictionary entries, with the
same attribute vector. -/
def DictionarySegment.map {T U : Type} (f : T → U) (d : DictionarySegment T) :
    DictionarySegment U :=
  ⟨d._dictionary.map f, d._attribute_vector, d._is_nullable⟩

/-- The non-nullable `int32_t` value segment that holds `n` times the value `0` and then
the value `1`. -/
def overlong_segment (n : Nat) : ValueSegment Int :=
  ⟨List.replicate n 0 ++ [1], List.replicate (n + 1) false, false⟩

/-- The table of `n` non-nullable `int` columns named `a`, target chunk size `1` and no
row: one chunk of `n` empty value segments. -/
def wide_table (n : Nat) : Table :=
  ⟨[⟨List.replicate n (.value_segment .int (ValueSegment.new false))⟩], List.replicate n "a",
    List.replicate n .int, List.replicate n false, 1⟩

/-- The table of one non-nullable `int` column and target chunk size `1` that holds `n`
rows of the value `0`: `n` chunks of one row. -/
def stack_table (n : Nat) : Table :=
  ⟨List.replicate n ⟨[.value_segment .int ⟨[0], [false], false⟩]⟩, ["a"], [.int], [false], 1⟩

/-! # Theorems -/

/-! ## Counted loops -/

theorem for_loop_invariant {σ ε : Type} (body : Nat → σ → Except ε σ) (P : Nat → σ → Prop)
    (last : Nat)
    (hstep : ∀ i st st', i < last → P i st → body i st = .ok st' → P (i + 1) st') :
    ∀ count first st st', first + count = last → P first st →
      for_loop body first count st = .ok st' → P last st' := by
  intro count
  induction count with
  | zero =>
    intro first st st' hlast hP hrun
    simp only [for_loop, Except.ok.injEq] at hrun
    subst hrun
    simpa [← hlast] using hP
  | succ count ih =>
    intro first st st' hlast hP hrun
    simp only [for_loop] at hrun
    cases hb : body first st with
    | error e => simp [hb] at hrun
    | ok st1 =>
      simp only [hb] at hrun
      exact ih (first + 1) st1 st' (by omega) (hstep first st st1 (by omega) hP hb) hrun

theorem for_loop_succeeds {σ ε : Type} (body : Nat → σ → Except ε σ) (P : Nat → σ → Prop)
    (last : Nat)
    (hstep : ∀ i st, i < last → P i st → ∃ st', body i st = .ok st' ∧ P (i + 1) st') :
    ∀ count first st, first + count = last → P first st →
      ∃ st', for_loop body first count st = .ok st' ∧ P last st' := by
  intro count
  induction count with
  | zero =>
    intro first st hlast hP
    refine ⟨st, by simp [for_loop], ?_⟩
    simpa [← hlast] using hP
  | succ count ih =>
    intro first st hlast hP
    obtain ⟨st1, hb, hP1⟩ := hstep first st (by omega) hP
    obtain ⟨st', hrun, hP'⟩ := ih (first + 1) st1 (by omega) hP1
    exact ⟨st', by simp [for_loop, hb, hrun], hP'⟩

/-! ## std::bit_width and the choice of the width -/

theorem bit_width_aux_le (fuel : Nat) :
    ∀ x n : Nat, x < 2 ^ fuel → (bit_width_aux fuel x ≤ n ↔ x < 2 ^ n) := by
  induction fuel with
  | zero =>
    intro x n hx
    have hx0 : x = 0 := by simpa using hx
    subst hx0
    simp [bit_width_aux]
  | succ fuel ih =>
    intro x n hx
    by_cases hx0 : x = 0
    · subst hx0
      simp [bit_width_aux]
    · have hdiv : x / 2 < 2 ^ fuel := by
        rw [Nat.div_lt_iff_lt_mul (by norm_num)]
        simpa [pow_succ] using hx
      cases n with
      | zero =>
        simp [bit_width_aux, hx0]
      | succ m =>
        have h := ih (x / 2) m hdiv
        simp only [bit_width_aux, hx0, if_false, Nat.add_le_add_iff_right]
        rw [h, Nat.div_lt_iff_lt_mul (by norm_num), pow_succ]

theorem bit_width_le (x n : Nat) (hx : x < 2 ^ 64) : bit_width x ≤ n ↔ x < 2 ^ n :=
  bit_width_aux_le 64 x n hx

theorem size_t_pred_eq_mod (x : Nat) (hx : x < 2 ^ 64) :
    size_t_pred x = (x + 2 ^ 64 - 1) % 2 ^ 64 := by
  unfold size_t_pred
  split_ifs with h
  · subst h
    norm_num
  · have : x + 2 ^ 64 - 1 = (x - 1) + 2 ^ 64 := by omega
    rw [this, Nat.add_mod_right, Nat.mod_eq_of_lt (by omega)]

theorem get_attribute_vector_zero (size : Nat) :
    get_attribute_vector 0 size = .error .logic_error := by
  have h : ¬ bit_width (size_t_pred 0) ≤ 32 := by
    rw [bit_width_le _ _ (by norm_num [size_t_pred])]
    norm_num [size_t_pred]
  simp only [get_attribute_vector, h, if_false]

theorem get_attribute_vector_pos (vector_size size : Nat) (h1 : 1 ≤ vector_size)
    (h2 : vector_size ≤ 2 ^ 32) :
    get_attribute_vector vector_size size =
      .ok (FixedWidthIntegerVector.new
        (if vector_size ≤ 2 ^ 8 then 1 else if vector_size ≤ 2 ^ 16 then 2 else 4) size) := by
  have hsub : size_t_pred vector_size = vector_size - 1 := by
    unfold size_t_pred
    rw [if_neg (by omega)]
  have hlt : vector_size - 1 < 2 ^ 64 := by omega
  have h32 : bit_width (vector_size - 1) ≤ 32 := by
    rw [bit_width_le _ _ hlt]; omega
  have h8 : bit_width (vector_size - 1) ≤ 8 ↔ vector_size ≤ 2 ^ 8 := by
    rw [bit_width_le _ _ hlt]; omega
  have h16 : bit_width (vector_size - 1) ≤ 16 ↔ vector_size ≤ 2 ^ 16 := by
    rw [bit_width_le _ _ hlt]; omega
  simp only [get_attribute_vector, hsub, h32, if_true, h8, h16]
  split_ifs <;> rfl

/-! ## The ordered map -/

section DictMapLemmas

variable {T : Type} [LinearOrder T]

theorem dict_map_find_eq_none (m : List (T × Nat)) (k : T) :
    dict_map_find m k = none ↔ k ∉ m.map Prod.fst := by
  induction m with
  | nil => simp [dict_map_find]
  | cons e rest ih =>
    obtain ⟨k', v⟩ := e
    by_cases h : k' < k ∨ k < k'
    · have hne : k ≠ k' := by
        rcases h with h | h
        · exact ne_of_gt h
        · exact ne_of_lt h
      simp [dict_map_find, h, ih, hne]
    · have heq : k = k' := by
        push_neg at h
        exact le_antisymm h.1 h.2
      simp [dict_map_find, h, heq]

theorem dict_map_insert_keys (m : List (T × Nat)) (k : T) (v : Nat) (x : T) :
    x ∈ (dict_map_insert m k v).1.map Prod.fst ↔ x = k ∨ x ∈ m.map Prod.fst := by
  induction m with
  | nil => simp [dict_map_insert]
  | cons e rest ih =>
    obtain ⟨k', v'⟩ := e
    by_cases h1 : k < k'
    · simp [dict_map_insert, h1]
    · by_cases h2 : k' < k
      · simp only [dict_map_insert, h1, h2, if_true, if_false, List.map_cons, List.mem_cons, ih]
        tauto
      · have heq : k = k' := le_antisymm (not_lt.mp h2) (not_lt.mp h1)
        subst heq
        simp only [dict_map_insert, h1, if_false, List.map_cons, List.mem_cons]
        tauto

theorem dict_map_insert_sorted (m : List (T × Nat)) (k : T) (v : Nat)
    (h : (m.map Prod.fst).Sorted (· < ·)) :
    ((dict_map_insert m k v).1.map Prod.fst).Sorted (· < ·) := by
  induction m with
  | nil => simp [dict_map_insert]
  | cons e rest ih =>
    obtain ⟨k', v'⟩ := e
    simp only [List.map_cons, List.sorted_cons] at h
    by_cases h1 : k < k'
    · simp only [dict_map_insert, h1, if_true, List.map_cons, List.sorted_cons, List.mem_cons]
      refine ⟨?_, h⟩
      rintro b (rfl | hb)
      · exact h1
      · exact lt_trans h1 (h.1 b hb)
    · by_cases h2 : k' < k
      · simp only [dict_map_insert, h1, h2, if_true, if_false, List.map_cons, List.sorted_cons]
        refine ⟨?_, ih h.2⟩
        intro b hb
        rcases (dict_map_insert_keys rest k v b).mp hb with rfl | hb
        · exact h2
        · exact h.1 b hb
      · simp only [dict_map_insert, h1, h2, if_false, List.map_cons, List.sorted_cons]
        exact h

theorem dict_map_insert_length_le (m : List (T × Nat)) (k : T) (v : Nat) :
    (dict_map_insert m k v).1.length ≤ m.length + 1 := by
  induction m with
  | nil => simp [dict_map_insert]
  | cons e rest ih =>
    obtain ⟨k', v'⟩ := e
    by_cases h1 : k < k'
    · simp [dict_map_insert, h1]
    · by_cases h2 : k' < k
      · simpa [dict_map_insert, h1, h2] using ih
      · simp [dict_map_insert, h1, h2]

end DictMapLemmas

/-! ## The two loops of the constructor -/

section ConstructionLemmas

variable {T : Type} [LinearOrder T]

theorem collect_step_invariant (s : ValueSegment T) (j : Nat) (st st' : List (T × Nat) × Nat)
    (hinv : CollectInv s j st) (hstep : collect_step s j st = .ok st') :
    CollectInv s (j + 1) st' := by
  obtain ⟨hsorted, hkeys, hlen⟩ := hinv
  unfold collect_step at hstep
  cases hnull : s.is_null j with
  | error e => simp [hnull] at hstep
  | ok flag =>
    cases flag with
    | true =>
      simp only [hnull, Except.ok.injEq] at hstep
      subst hstep
      refine ⟨hsorted, ?_, by omega⟩
      intro x
      rw [hkeys x]
      constructor
      · rintro ⟨i, hi, h1, h2⟩
        exact ⟨i, by omega, h1, h2⟩
      · rintro ⟨i, hi, h1, h2⟩
        have hij : i ≠ j := by
          rintro rfl
          rw [hnull] at h1
          simp at h1
        exact ⟨i, by omega, h1, h2⟩
    | false =>
      simp only [hnull] at hstep
      cases hval : s.values[j]? with
      | none => simp [hval] at hstep
      | some value =>
        simp only [hval] at hstep
        have hval' : s._values[j]? = some value := hval
        have hnew : ∀ x, (x = value ∨ ∃ i, i < j ∧ s.is_null i = .ok false ∧ s._values[i]? = some x)
            ↔ ∃ i, i < j + 1 ∧ s.is_null i = .ok false ∧ s._values[i]? = some x := by
          intro x
          constructor
          · rintro (rfl | ⟨i, hi, h1, h2⟩)
            · exact ⟨j, by omega, hnull, hval'⟩
            · exact ⟨i, by omega, h1, h2⟩
          · rintro ⟨i, hi, h1, h2⟩
            by_cases hij : i = j
            · subst hij
              rw [hval'] at h2
              exact Or.inl (Option.some.inj h2).symm
            · exact Or.inr ⟨i, by omega, h1, h2⟩
        by_cases hfind : dict_map_find st.1 value = none
        · have hins : CollectInv s (j + 1) ((dict_map_insert st.1 value st.2).1, st'.2) := by
            refine ⟨dict_map_insert_sorted _ _ _ hsorted, ?_, ?_⟩
            · intro x
              rw [dict_map_insert_keys, hkeys x, hnew x]
            · have := dict_map_insert_length_le st.1 value st.2
              simp only
              omega
          simp only [hfind, if_true] at hstep
          split_ifs at hstep <;>
          · simp only [Except.ok.injEq] at hstep
            subst hstep
            exact hins
        · simp only [hfind, if_false, Except.ok.injEq] at hstep
          subst hstep
          refine ⟨hsorted, ?_, by omega⟩
          intro x
          rw [← hnew x, hkeys x]
          constructor
          · exact Or.inr
          · rintro (rfl | h)
            · have hmem : x ∈ st.1.map Prod.fst := by
                by_contra hcon
                exact hfind ((dict_map_find_eq_none _ _).mpr hcon)
              exact (hkeys x).mp hmem
            · exact h

theorem collect_loop_invariant (s : ValueSegment T) (n first_index : Nat)
    (st : List (T × Nat) × Nat)
    (h : for_loop (collect_step s) 0 n ([], first_index) = .ok st) : CollectInv s n st := by
  refine for_loop_invariant (collect_step s) (CollectInv s) n ?_ n 0 _ st (by omega) ?_ h
  · intro i st st' _ hinv hstep
    exact collect_step_invariant s i st st' hinv hstep
  · refine ⟨by simp, ?_, by simp⟩
    intro x
    simp

end ConstructionLemmas

section EncodeLemmas

variable {T : Type} [LinearOrder T]

theorem FixedWidthIntegerVector.set_eq_ok (av av' : FixedWidthIntegerVector) (index value_id : Nat)
    (h : av.set index value_id = .ok av') :
    index < av._values.length ∧ av'.bytes = av.bytes ∧
      av'._values = av._values.set index (value_id % 2 ^ (8 * av.bytes)) := by
  unfold FixedWidthIntegerVector.set FixedWidthIntegerVector.size at h
  split_ifs at h with hlt
  simp only [Except.ok.injEq] at h
  subst h
  exact ⟨hlt, rfl, rfl⟩

theorem FixedWidthIntegerVector.set_of_lt (av : FixedWidthIntegerVector) (index value_id : Nat)
    (h : index < av._values.length) :
    av.set index value_id =
      .ok ⟨av.bytes, av._values.set index (value_id % 2 ^ (8 * av.bytes))⟩ := by
  simp [FixedWidthIntegerVector.set, FixedWidthIntegerVector.size, h]

theorem EncodeInv.after_set (s : ValueSegment T) (m : List (T × Nat)) (w n j : Nat)
    (av av' : FixedWidthIntegerVector) (value_id : Nat)
    (hinv : EncodeInv s m w n j av) (hset : av.set j value_id = .ok av')
    (hnull : s.is_null j = .ok true → value_id % 2 ^ (8 * w) = 0)
    (hval : ∀ x, s.is_null j = .ok false → s._values[j]? = some x →
      value_id % 2 ^ (8 * w) = dict_map_index m x % 2 ^ (8 * w)) :
    EncodeInv s m w n (j + 1) av' := by
  obtain ⟨hw, hlen, hnulls, hvals⟩ := hinv
  obtain ⟨hj, hbytes, hvalues⟩ := FixedWidthIntegerVector.set_eq_ok av av' j value_id hset
  refine ⟨by rw [hbytes, hw], by rw [hvalues, List.length_set, hlen], ?_, ?_⟩
  · intro i hi hi_null
    by_cases hij : i = j
    · subst hij
      rw [hvalues, List.getElem?_set_self hj, hw, hnull hi_null]
    · rw [hvalues, List.getElem?_set_ne (Ne.symm hij)]
      exact hnulls i (by omega) hi_null
  · intro i x hi hi_null hx
    by_cases hij : i = j
    · subst hij
      rw [hvalues, List.getElem?_set_self hj, hw, hval x hi_null hx]
    · rw [hvalues, List.getElem?_set_ne (Ne.symm hij)]
      exact hvals i x (by omega) hi_null hx

theorem encode_step_invariant (s : ValueSegment T) (m : List (T × Nat)) (w n j : Nat)
    (av av' : FixedWidthIntegerVector)
    (hinv : EncodeInv s m w n j av) (hstep : encode_step s m j av = .ok av') :
    EncodeInv s m w n (j + 1) av' := by
  unfold encode_step at hstep
  cases hnull : s.is_null j with
  | error e => simp [hnull] at hstep
  | ok flag =>
    cases flag with
    | true =>
      simp only [hnull] at hstep
      refine EncodeInv.after_set s m w n j av av' _ hinv hstep ?_ ?_
      · intro _
        simp [null_value_id]
      · intro x h
        rw [hnull] at h
        simp at h
    | false =>
      simp only [hnull] at hstep
      cases hval : s.values[j]? with
      | none => simp [hval] at hstep
      | some value =>
        simp only [hval] at hstep
        have hval' : s._values[j]? = some value := hval
        refine EncodeInv.after_set s m w n j av av' _ hinv hstep ?_ ?_
        · intro h
          rw [hnull] at h
          simp at h
        · intro x _ hx
          rw [hval'] at hx
          rw [Option.some.inj hx]

theorem encode_loop_invariant (s : ValueSegment T) (m : List (T × Nat)) (w n : Nat)
    (av : FixedWidthIntegerVector)
    (h : for_loop (encode_step s m) 0 n (FixedWidthIntegerVector.new w n) = .ok av) :
    EncodeInv s m w n n av := by
  refine for_loop_invariant (encode_step s m) (EncodeInv s m w n) n ?_ n 0 _ av (by omega) ?_ h
  · intro i st st' _ hinv hstep
    exact encode_step_invariant s m w n i st st' hinv hstep
  · refine ⟨rfl, by simp [FixedWidthIntegerVector.new], ?_, ?_⟩
    · intro i hi
      omega
    · intro i x hi
      omega

end EncodeLemmas

/-! ## The constructor as a whole -/

theorem ValueSegment.size_le_length {T : Type} (s : ValueSegment T) : s.size ≤ s._values.length :=
  Nat.mod_le _ _

theorem ValueSegment.size_lt {T : Type} (s : ValueSegment T) : s.size < 2 ^ 32 :=
  Nat.mod_lt _ (by norm_num)

theorem ValueSegment.size_eq_length {T : Type} (s : ValueSegment T) (h : s._values.length < 2 ^ 32) :
    s.size = s._values.length :=
  Nat.mod_eq_of_lt h

section NewLemmas

variable {T : Type} [LinearOrder T]

/-- The stages of a construction that returns: the first loop, the allocation of the
attribute vector and the second loop all return. -/
theorem DictionarySegment.new_eq_ok (s : ValueSegment T) (d : DictionarySegment T)
    (h : DictionarySegment.new s = .ok d) :
    ∃ m last_index av,
      for_loop (collect_step s) 0 s.size ([], if s.is_nullable then 1 else 0)
        = .ok (m, last_index) ∧
      get_attribute_vector m.length s.size = .ok av ∧
      for_loop (encode_step s m) 0 s.size av = .ok d._attribute_vector ∧
      d._dictionary = m.map Prod.fst ∧ d._is_nullable = s.is_nullable := by
  unfold DictionarySegment.new at h
  cases h1 : for_loop (collect_step s) 0 s.size ([], if s.is_nullable then 1 else 0) with
  | error e => simp [h1] at h
  | ok st =>
    obtain ⟨m, last_index⟩ := st
    simp only [h1] at h
    cases h2 : get_attribute_vector m.length s.size with
    | error e => simp [h2] at h
    | ok av =>
      simp only [h2] at h
      cases h3 : for_loop (encode_step s m) 0 s.size av with
      | error e => simp [h3] at h
      | ok av' =>
        simp only [h3, Except.ok.injEq] at h
        subst h
        exact ⟨m, last_index, av, rfl, h2, h3, rfl, rfl⟩

/-- A summary of what a construction that returns has built. -/
theorem DictionarySegment.new_spec (s : ValueSegment T) (d : DictionarySegment T)
    (h : DictionarySegment.new s = .ok d) :
    ∃ m last_index,
      CollectInv s s.size (m, last_index) ∧
      d._dictionary = m.map Prod.fst ∧
      d._is_nullable = s._segment_is_nullable ∧
      1 ≤ m.length ∧
      EncodeInv s m (if m.length ≤ 2 ^ 8 then 1 else if m.length ≤ 2 ^ 16 then 2 else 4)
        s.size s.size d._attribute_vector := by
  obtain ⟨m, last_index, av, h1, h2, h3, h4, h5⟩ := DictionarySegment.new_eq_ok s d h
  have hinv := collect_loop_invariant s s.size _ _ h1
  have hlen : m.length ≤ s.size := hinv.2.2
  have hpos : 1 ≤ m.length := by
    by_contra hcon
    have h0 : m.length = 0 := by omega
    rw [h0, get_attribute_vector_zero] at h2
    simp at h2
  have hsize := s.size_lt
  rw [get_attribute_vector_pos _ _ hpos (by omega)] at h2
  simp only [Except.ok.injEq] at h2
  subst h2
  exact ⟨m, last_index, hinv, h4, h5, hpos, encode_loop_invariant s m _ _ _ h3⟩

theorem DictionarySegment.new_dictionary_sorted (s : ValueSegment T) (d : DictionarySegment T)
    (h : DictionarySegment.new s = .ok d) : d._dictionary.Sorted (· < ·) := by
  obtain ⟨m, last_index, hinv, hd, -⟩ := DictionarySegment.new_spec s d h
  rw [hd]
  exact hinv.1

theorem DictionarySegment.new_dictionary_mem (s : ValueSegment T) (d : DictionarySegment T)
    (h : DictionarySegment.new s = .ok d) (x : T) :
    x ∈ d._dictionary ↔
      ∃ i, i < s.size ∧ s.is_null i = .ok false ∧ s._values[i]? = some x := by
  obtain ⟨m, last_index, hinv, hd, -⟩ := DictionarySegment.new_spec s d h
  rw [hd]
  exact hinv.2.1 x

theorem DictionarySegment.new_dictionary_length (s : ValueSegment T) (d : DictionarySegment T)
    (h : DictionarySegment.new s = .ok d) :
    1 ≤ d._dictionary.length ∧ d._dictionary.length ≤ s.size := by
  obtain ⟨m, last_index, hinv, hd, -, hpos, -⟩ := DictionarySegment.new_spec s d h
  rw [hd, List.length_map]
  exact ⟨hpos, hinv.2.2⟩

theorem DictionarySegment.new_attribute_vector (s : ValueSegment T) (d : DictionarySegment T)
    (h : DictionarySegment.new s = .ok d) :
    d._attribute_vector._values.length = s.size ∧
    d._attribute_vector.bytes =
      (if d._dictionary.length ≤ 2 ^ 8 then 1
       else if d._dictionary.length ≤ 2 ^ 16 then 2 else 4) := by
  obtain ⟨m, last_index, hinv, hd, -, hpos, henc⟩ := DictionarySegment.new_spec s d h
  rw [hd, List.length_map]
  exact ⟨henc.2.1, henc.1⟩

/-- The constructor returns on a segment that has a null flag for each position (when
nullable) and at least one non-null value. -/
theorem DictionarySegment.new_succeeds (s : ValueSegment T)
    (hflags : s._segment_is_nullable = true → s.size ≤ s._is_null_values.length)
    (hvalue : ∃ i, i < s.size ∧ s.is_null i = .ok false) :
    ∃ d, DictionarySegment.new s = .ok d := by
  have hnull : ∀ i, i < s.size → ∃ flag, s.is_null i = .ok flag := by
    intro i hi
    unfold ValueSegment.is_null ValueSegment.is_nullable
    by_cases hn : s._segment_is_nullable = true
    · have hlt : i < s._is_null_values.length := lt_of_lt_of_le hi (hflags hn)
      simp [hn, List.getElem?_eq_getElem hlt]
    · simp [hn]
  have hval : ∀ i, i < s.size → ∃ x, s.values[i]? = some x := by
    intro i hi
    have hlt : i < s._values.length := lt_of_lt_of_le hi s.size_le_length
    exact ⟨s._values[i], List.getElem?_eq_getElem hlt⟩
  obtain ⟨st, h1, hinv⟩ := for_loop_succeeds (collect_step s) (CollectInv s) s.size
    (by
      intro i st hi hinv
      have hex : ∃ st', collect_step s i st = .ok st' := by
        obtain ⟨flag, hflag⟩ := hnull i hi
        obtain ⟨x, hx⟩ := hval i hi
        unfold collect_step
        cases flag with
        | true => exact ⟨st, by simp [hflag]⟩
        | false =>
          simp only [hflag, hx]
          split_ifs <;> exact ⟨_, rfl⟩
      obtain ⟨st', hst'⟩ := hex
      exact ⟨st', hst', collect_step_invariant s i st st' hinv hst'⟩)
    s.size 0 ([], if s.is_nullable then 1 else 0) (by omega)
    (by
      refine ⟨by simp, ?_, by simp⟩
      intro x
      simp)
  obtain ⟨m, last_index⟩ := st
  have hlen : m.length ≤ s.size := hinv.2.2
  have hpos : 1 ≤ m.length := by
    obtain ⟨i, hi, hnn⟩ := hvalue
    obtain ⟨x, hx⟩ := hval i hi
    have hmem : x ∈ m.map Prod.fst := (hinv.2.1 x).mpr ⟨i, hi, hnn, hx⟩
    have : 0 < (m.map Prod.fst).length := List.length_pos_of_mem hmem
    simpa using this
  have hsize := s.size_lt
  have h2 := get_attribute_vector_pos m.length s.size hpos (by omega)
  obtain ⟨av, h3, -⟩ := for_loop_succeeds (encode_step s m)
    (fun _ av => av._values.length = s.size) s.size
    (by
      intro i av hi hlen
      obtain ⟨flag, hflag⟩ := hnull i hi
      obtain ⟨x, hx⟩ := hval i hi
      have hex : ∃ v, encode_step s m i av = .ok ⟨av.bytes, av._values.set i v⟩ := by
        unfold encode_step
        cases flag with
        | true =>
          simp only [hflag]
          exact ⟨_, FixedWidthIntegerVector.set_of_lt av i _ (by omega)⟩
        | false =>
          simp only [hflag, hx]
          exact ⟨_, FixedWidthIntegerVector.set_of_lt av i _ (by omega)⟩
      obtain ⟨v, hv⟩ := hex
      exact ⟨_, hv, by simp [hlen]⟩)
    s.size 0
    (FixedWidthIntegerVector.new
      (if m.length ≤ 2 ^ 8 then 1 else if m.length ≤ 2 ^ 16 then 2 else 4) s.size)
    (by omega) (by simp [FixedWidthIntegerVector.new])
  exact ⟨⟨m.map Prod.fst, av, s.is_nullable⟩, by
    unfold DictionarySegment.new
    rw [h1]
    simp only
    rw [h2]
    simp only
    rw [h3]⟩

/-- The constructor throws on a segment without a non-null value: the dictionary is
empty and `get_attribute_vector` rejects the size `0`. -/
theorem DictionarySegment.new_fails (s : ValueSegment T)
    (hvalue : ∀ i, i < s.size → s.is_null i = .ok true) :
    DictionarySegment.new s = .error .logic_error := by
  obtain ⟨st, h1, hinv⟩ := for_loop_succeeds (collect_step s) (CollectInv s) s.size
    (by
      intro i st hi hinv
      have hex : ∃ st', collect_step s i st = .ok st' :=
        ⟨st, by unfold collect_step; simp [hvalue i hi]⟩
      obtain ⟨st', hst'⟩ := hex
      exact ⟨st', hst', collect_step_invariant s i st st' hinv hst'⟩)
    s.size 0 ([], if s.is_nullable then 1 else 0) (by omega)
    (by
      refine ⟨by simp, ?_, by simp⟩
      intro x
      simp)
  obtain ⟨m, last_index⟩ := st
  have hm : m.length = 0 := by
    cases m with
    | nil => rfl
    | cons e rest =>
      obtain ⟨i, hi, hnn, -⟩ := (hinv.2.1 e.1).mp (by simp)
      rw [hvalue i hi] at hnn
      simp at hnn
  unfold DictionarySegment.new
  rw [h1]
  simp only
  rw [hm, get_attribute_vector_zero]

end NewLemmas

/-! ## Binary search -/

section BoundsLemmas

variable {T : Type} [LinearOrder T]

theorem sorted_getElem?_lt (xs : List T) (hs : xs.Sorted (· < ·)) (i j : Nat) (a b : T)
    (hij : i < j) (ha : xs[i]? = some a) (hb : xs[j]? = some b) : a < b := by
  obtain ⟨hi, rfl⟩ := List.getElem?_eq_some.mp ha
  obtain ⟨hj, rfl⟩ := List.getElem?_eq_some.mp hb
  exact (List.pairwise_iff_getElem.mp hs) i j hi hj hij

theorem lower_bound_loop_spec (xs : List T) (value : T) (hs : xs.Sorted (· < ·)) :
    ∀ fuel first len, len ≤ fuel → first + len ≤ xs.length →
      (∀ i a, i < first → xs[i]? = some a → a < value) →
      (∀ i a, first + len ≤ i → xs[i]? = some a → ¬ a < value) →
      lower_bound_loop xs value fuel first len ≤ xs.length ∧
      (∀ i a, i < lower_bound_loop xs value fuel first len → xs[i]? = some a → a < value) ∧
      (∀ i a, lower_bound_loop xs value fuel first len ≤ i → xs[i]? = some a → ¬ a < value) := by
  intro fuel
  induction fuel with
  | zero =>
    intro first len hfuel hlen hlow hhigh
    have hlen0 : len = 0 := by omega
    subst hlen0
    exact ⟨by simpa [lower_bound_loop] using hlen, by simpa [lower_bound_loop] using hlow,
      by simpa [lower_bound_loop] using hhigh⟩
  | succ fuel ih =>
    intro first len hfuel hlen hlow hhigh
    by_cases hpos : 0 < len
    · have hmi : first + len / 2 < xs.length := by omega
      have hmid : xs[first + len / 2]? = some xs[first + len / 2] :=
        List.getElem?_eq_getElem hmi
      by_cases hlt : xs[first + len / 2] < value
      · have hrec := ih (first + len / 2 + 1) (len - len / 2 - 1) (by omega) (by omega)
          (by
            intro i a hi ha
            by_cases hieq : i = first + len / 2
            · subst hieq
              rw [hmid] at ha
              rw [← Option.some.inj ha]
              exact hlt
            · exact lt_trans (sorted_getElem?_lt xs hs i _ a _ (by omega) ha hmid) hlt)
          (by
            intro i a hi ha
            exact hhigh i a (by omega) ha)
        simpa [lower_bound_loop, hpos, hmid, hlt] using hrec
      · have hrec := ih first (len / 2) (by omega) (by omega) hlow
          (by
            intro i a hi ha
            by_cases hieq : i = first + len / 2
            · subst hieq
              rw [hmid] at ha
              rw [← Option.some.inj ha]
              exact hlt
            · intro hcon
              exact hlt (lt_trans (sorted_getElem?_lt xs hs _ i _ a (by omega) hmid ha) hcon))
        simpa [lower_bound_loop, hpos, hmid, hlt] using hrec
    · have hlen0 : len = 0 := by omega
      subst hlen0
      exact ⟨by simpa [lower_bound_loop] using hlen, by simpa [lower_bound_loop] using hlow,
        by simpa [lower_bound_loop] using hhigh⟩

/-- The result of `std::lower_bound` on a strictly ascending list is its partition point
for `· < value`. -/
theorem std_lower_bound_spec (xs : List T) (value : T) (hs : xs.Sorted (· < ·)) :
    std_lower_bound xs value ≤ xs.length ∧
    (∀ i a, i < std_lower_bound xs value → xs[i]? = some a → a < value) ∧
    (∀ i a, std_lower_bound xs value ≤ i → xs[i]? = some a → value ≤ a) := by
  obtain ⟨h1, h2, h3⟩ := lower_bound_loop_spec xs value hs xs.length 0 xs.length
    (le_refl _) (by omega) (by intro i a hi; omega)
    (by
      intro i a hi ha
      have := (List.getElem?_eq_some.mp ha).1
      omega)
  exact ⟨h1, h2, fun i a hi ha => not_lt.mp (h3 i a hi ha)⟩

end BoundsLemmas

/-- On a segment of fewer than `2 ^ 32` pairwise distinct values, none of them null, the
dictionary has as many entries as the segment has values. -/
theorem DictionarySegment.new_dictionary_length_of_nodup {T : Type} [LinearOrder T]
    (s : ValueSegment T) (d : DictionarySegment T)
    (h : DictionarySegment.new s = .ok d) (hsize : s._values.length < 2 ^ 32)
    (hnull : ∀ i, i < s._values.length → s.is_null i = .ok false) (hnodup : s._values.Nodup) :
    d._dictionary.length = s._values.length := by
  have hsorted := DictionarySegment.new_dictionary_sorted s d h
  have hperm : d._dictionary.Perm s._values := by
    rw [List.perm_ext_iff_of_nodup hsorted.nodup hnodup]
    intro x
    rw [DictionarySegment.new_dictionary_mem s d h x, s.size_eq_length hsize,
      List.mem_iff_getElem?]
    constructor
    · rintro ⟨i, -, -, hx⟩
      exact ⟨i, hx⟩
    · rintro ⟨i, hx⟩
      have hi : i < s._values.length := (List.getElem?_eq_some.mp hx).1
      exact ⟨i, hi, hnull i hi, hx⟩
  exact hperm.length_eq

theorem ValueSegment.is_null_of_not_nullable {T : Type} (s : ValueSegment T)
    (h : s._segment_is_nullable = false) (i : Nat) : s.is_null i = .ok false := by
  simp [ValueSegment.is_null, ValueSegment.is_nullable, h]

theorem ValueSegment.is_null_of_flags_false {T : Type} (s : ValueSegment T)
    (h : ∀ flag ∈ s._is_null_values, flag = false) (i : Nat)
    (hi : i < s._is_null_values.length) : s.is_null i = .ok false := by
  have hflag : s._is_null_values[i] = false := h _ (List.getElem_mem hi)
  unfold ValueSegment.is_null
  split_ifs
  · simp [List.getElem?_eq_getElem hi, hflag]
  · rfl

/-- On a segment of at least one and fewer than `2 ^ 32` pairwise distinct values, none of
them null, the constructor returns; the dictionary has one entry for each value and the
width of the attribute vector is chosen from the number of values. -/
theorem DictionarySegment.new_of_distinct {T : Type} [LinearOrder T] (s : ValueSegment T)
    (hpos : 1 ≤ s._values.length) (hsize : s._values.length < 2 ^ 32)
    (hnull : ∀ i, i < s._values.length → s.is_null i = .ok false) (hnodup : s._values.Nodup) :
    ∃ d, DictionarySegment.new s = .ok d ∧
      d._is_nullable = s._segment_is_nullable ∧
      d._dictionary.length = s._values.length ∧
      d._attribute_vector._values.length = s._values.length ∧
      d._attribute_vector.bytes =
        (if s._values.length ≤ 2 ^ 8 then 1 else if s._values.length ≤ 2 ^ 16 then 2 else 4) := by
  have hs := s.size_eq_length hsize
  have hflags : s._segment_is_nullable = true → s.size ≤ s._is_null_values.length := by
    intro hn
    by_contra hcon
    have hlt : s._is_null_values.length < s._values.length := by omega
    have h := hnull _ hlt
    simp [ValueSegment.is_null, ValueSegment.is_nullable, hn] at h
  obtain ⟨d, hd⟩ := DictionarySegment.new_succeeds s hflags
    ⟨0, by omega, hnull 0 (by omega)⟩
  have hD := DictionarySegment.new_dictionary_length_of_nodup s d hd hsize hnull hnodup
  obtain ⟨hlen, hw⟩ := DictionarySegment.new_attribute_vector s d hd
  obtain ⟨m, li, -, -, hn, -⟩ := DictionarySegment.new_spec s d hd
  exact ⟨d, hd, hn, hD, by rw [hlen, hs], by rw [hw, hD]⟩

/-! ## The dictionary segment built from a value segment -/

section Claims

variable {T : Type} [LinearOrder T]

/-- C1 (round trip of dictionary encoding) does not hold of the constructor. On the
nullable segment with values `2, 1` and no null, the ids are handed out in the order of
first occurrence (`2 ↦ 1`, `1 ↦ 2`) while the dictionary is in ascending order `[1, 2]`,
so position 0 reads back `1` and position 1 reads back `2`. -/
theorem C1_round_trip_broken_by_insertion_order :
    ∃ d : DictionarySegment Int,
      DictionarySegment.new (⟨[2, 1], [false, false], true⟩ : ValueSegment Int) = .ok d ∧
      d.dictionary = [1, 2] ∧
      d.get_typed_value 0 = .ok (some 1) ∧ d.get_typed_value 1 = .ok (some 2) :=
  ⟨⟨[1, 2], ⟨1, [1, 2]⟩, true⟩, rfl, rfl, rfl, rfl⟩

/-- C2 (value-id assignment) does not hold of the constructor. On the non-nullable
segment with values `2, 1` the id stored at position 0 is `0`, the rank of first
occurrence, and not `1`, the index of `2` in the dictionary `[1, 2]`; the dictionary
entry at the stored id is `1`. -/
theorem C2_value_id_is_insertion_rank :
    ∃ d : DictionarySegment Int,
      DictionarySegment.new (⟨[2, 1], [false, false], false⟩ : ValueSegment Int) = .ok d ∧
      d.dictionary = [1, 2] ∧
      d.attribute_vector.get 0 = .ok 0 ∧ d.attribute_vector.get 1 = .ok 1 ∧
      d.dictionary[0]? = some 1 :=
  ⟨⟨[1, 2], ⟨1, [0, 1]⟩, false⟩, rfl, rfl, rfl, rfl, rfl⟩

/-- C3 (bit-width law) does not hold of the constructor. On the nullable segment holding
the 256 distinct values `0, ..., 255` and no null, the attribute vector is one byte wide,
although `D + 1 = 257` value ids do not fit in one byte: the width is chosen from the
number of dictionary entries alone. -/
theorem C3_nullable_width_ignores_null_id :
    ∃ d : DictionarySegment Int,
      DictionarySegment.new
        (⟨(List.range 256).map Int.ofNat, List.replicate 256 false, true⟩ : ValueSegment Int)
        = .ok d ∧
      d._is_nullable = true ∧ d.dictionary.length = 256 ∧ d.attribute_vector.width = 1 ∧
      ¬ (d.dictionary.length + 1 ≤ 2 ^ (8 * d.attribute_vector.width)) := by
  have hlen : ((List.range 256).map Int.ofNat).length = 256 :=
    (List.length_map _ _).trans (List.length_range 256)
  obtain ⟨d, hd, hn, hD, -, hw⟩ := DictionarySegment.new_of_distinct
    (⟨(List.range 256).map Int.ofNat, List.replicate 256 false, true⟩ : ValueSegment Int)
    (le_of_eq_of_le rfl (le_of_le_of_eq (by norm_num) hlen.symm))
    (lt_of_eq_of_lt hlen (by norm_num))
    (fun i hi => ValueSegment.is_null_of_flags_false _
      (fun flag hflag => List.eq_of_mem_replicate hflag) i
      (lt_of_lt_of_eq (lt_of_lt_of_eq hi hlen) (List.length_replicate 256 false).symm))
    ((List.nodup_range 256).map Int.ofNat_injective)
  rw [hlen] at hD hw
  have hw1 : d._attribute_vector.bytes = 1 := by simpa using hw
  refine ⟨d, hd, hn, hD, hw1, ?_⟩
  simp only [DictionarySegment.dictionary, DictionarySegment.attribute_vector,
    FixedWidthIntegerVector.width, hD, hw1]
  norm_num

/-- The dictionary built from a value segment of fewer than `2 ^ 32` values of a totally
ordered type is strictly ascending, hence free of duplicates; its elements are exactly the
non-null values of the segment, and `unique_values_count()` is their number. -/
theorem DictionarySegment.new_dictionary_content (s : ValueSegment T) (d : DictionarySegment T)
    (hsize : s._values.length < 2 ^ 32) (h : DictionarySegment.new s = .ok d) :
    d.dictionary.Sorted (· < ·) ∧ d.dictionary.Nodup ∧
    (∀ x, x ∈ d.dictionary ↔ ∃ i, s.is_null i = .ok false ∧ s.values[i]? = some x) ∧
    (∀ S : Finset T,
      (∀ x, x ∈ S ↔ ∃ i, s.is_null i = .ok false ∧ s.values[i]? = some x) →
      d.unique_values_count = S.card) := by
  have hsorted := DictionarySegment.new_dictionary_sorted s d h
  have hmem : ∀ x, x ∈ d.dictionary ↔
      ∃ i, s.is_null i = .ok false ∧ s.values[i]? = some x := by
    intro x
    show x ∈ d._dictionary ↔ _
    rw [DictionarySegment.new_dictionary_mem s d h x, s.size_eq_length hsize]
    constructor
    · rintro ⟨i, -, h1, h2⟩
      exact ⟨i, h1, h2⟩
    · rintro ⟨i, h1, h2⟩
      exact ⟨i, (List.getElem?_eq_some.mp h2).1, h1, h2⟩
  refine ⟨hsorted, hsorted.nodup, hmem, ?_⟩
  intro S hS
  have hlen := (DictionarySegment.new_dictionary_length s d h).2
  have hlt := s.size_lt
  have hfin : d._dictionary.toFinset = S := by
    ext x
    rw [List.mem_toFinset, hS x]
    exact hmem x
  unfold DictionarySegment.unique_values_count
  rw [Nat.mod_eq_of_lt (by omega), ← hfin, List.toFinset_card_of_nodup hsorted.nodup]

/-- C5 (construction from a source without a non-null value) does not hold of the
constructor: on every value segment that is empty, or nullable with only nulls, the
constructor throws the `std::logic_error` of the `Assert` in `get_attribute_vector`,
because `vector_size - 1` wraps around to the largest `size_t`. -/
theorem C5_construction_without_values_throws (s : ValueSegment T)
    (hflags : s._is_null_values.length = s._values.length)
    (hnull : s._values = [] ∨
      (s._segment_is_nullable = true ∧ ∀ flag ∈ s._is_null_values, flag = true)) :
    DictionarySegment.new s = .error .logic_error := by
  apply DictionarySegment.new_fails
  intro i hi
  have hi' : i < s._values.length := lt_of_lt_of_le hi s.size_le_length
  rcases hnull with hempty | ⟨hn, hall⟩
  · rw [hempty] at hi'
    simp at hi'
  · have hlt : i < s._is_null_values.length := by omega
    have hflag : s._is_null_values[i] = true := hall _ (List.getElem_mem hlt)
    simp [ValueSegment.is_null, ValueSegment.is_nullable, hn, List.getElem?_eq_getElem hlt,
      hflag]

/-- Witness of C5: the empty non-nullable segment. -/
theorem C5_construction_without_values_throws_witness :
    (⟨[], [], false⟩ : ValueSegment Int)._is_null_values.length
      = (⟨[], [], false⟩ : ValueSegment Int)._values.length ∧
    DictionarySegment.new (⟨[], [], false⟩ : ValueSegment Int) = .error .logic_error :=
  ⟨rfl, C5_construction_without_values_throws ⟨[], [], false⟩ rfl (Or.inl rfl)⟩

end Claims

theorem ValueSegment.size_of_length {T : Type} (s : ValueSegment T) (n : Nat)
    (h : s._values.length = n) : s.size = n % 2 ^ 32 := by
  unfold ValueSegment.size
  rw [h]

theorem DictionarySegment.new_dictionary_length_lt {T : Type} [LinearOrder T]
    (s : ValueSegment T) (d : DictionarySegment T) (h : DictionarySegment.new s = .ok d) :
    d._dictionary.length < 2 ^ 32 :=
  lt_of_le_of_lt (DictionarySegment.new_dictionary_length s d h).2 s.size_lt

section BoundClaims

variable {T : Type} [LinearOrder T]

/-- On every dictionary segment of a totally ordered type built by the constructor and
every probe `x`, `lower_bound(x)` is `INVALID_VALUE_ID` exactly when every dictionary
element is below `x`; otherwise it is the index, in dictionary coordinates, of an element
that is at least `x`, and every element at a smaller index is below `x`. -/
theorem DictionarySegment.lower_bound_spec (s : ValueSegment T) (d : DictionarySegment T) (x : T)
    (h : DictionarySegment.new s = .ok d) :
    (d.lower_bound x = INVALID_VALUE_ID ↔ ∀ y ∈ d.dictionary, y < x) ∧
    ((∃ y ∈ d.dictionary, x ≤ y) →
      ∃ y, d.dictionary[d.lower_bound x]? = some y ∧ x ≤ y ∧
        ∀ j z, j < d.lower_bound x → d.dictionary[j]? = some z → z < x) := by
  have hsorted := DictionarySegment.new_dictionary_sorted s d h
  have hlen := DictionarySegment.new_dictionary_length_lt s d h
  obtain ⟨hr, hlow, hhigh⟩ := std_lower_bound_spec d._dictionary x hsorted
  unfold DictionarySegment.lower_bound DictionarySegment.dictionary
  by_cases hend : std_lower_bound d._dictionary x = d._dictionary.length
  · have hall : ∀ y ∈ d._dictionary, y < x := by
      intro y hy
      obtain ⟨i, hi⟩ := List.mem_iff_getElem?.mp hy
      have hlt : i < d._dictionary.length := (List.getElem?_eq_some.mp hi).1
      exact hlow i y (by omega) hi
    rw [if_pos hend]
    refine ⟨⟨fun _ => hall, fun _ => rfl⟩, ?_⟩
    rintro ⟨y, hy, hxy⟩
    exact absurd (hall y hy) (not_lt.mpr hxy)
  · have hlt : std_lower_bound d._dictionary x < d._dictionary.length := by omega
    have hmod : std_lower_bound d._dictionary x % 2 ^ 32 = std_lower_bound d._dictionary x :=
      Nat.mod_eq_of_lt (by omega)
    have hget := List.getElem?_eq_getElem hlt
    have hge := hhigh _ _ (le_refl _) hget
    rw [if_neg hend, hmod]
    refine ⟨⟨?_, ?_⟩, ?_⟩
    · intro hinv
      unfold INVALID_VALUE_ID at hinv
      omega
    · intro hall
      exact absurd (hall _ (List.getElem_mem hlt)) (not_lt.mpr hge)
    · intro _
      exact ⟨_, hget, hge, fun j z hj hz => hlow j z hj hz⟩

end BoundClaims

section ReadClaims

variable {T : Type} [LinearOrder T]

omit [LinearOrder T] in
/-- C9 (value_of_value_id): on a nullable segment the value id `0` is rejected; every
other value id `v` with `v - (nullable ? 1 : 0)` inside the dictionary yields the
dictionary entry at that index, so that on a nullable segment id `1` yields the first,
smallest, entry. -/
theorem C9_value_of_value_id (d : DictionarySegment T) (v : Nat) :
    (d._is_nullable = true → d.value_of_value_id 0 = .error .logic_error) ∧
    (¬ (d._is_nullable = true ∧ v = 0) →
      ∀ x, d.dictionary[v - (if d._is_nullable then 1 else 0)]? = some x →
        d.value_of_value_id v = .ok x) ∧
    (d._is_nullable = true → ∀ x, d.dictionary[0]? = some x →
      d.value_of_value_id 1 = .ok x) := by
  refine ⟨?_, ?_, ?_⟩
  · intro hn
    simp [DictionarySegment.value_of_value_id, hn, null_value_id]
  · intro hv x hx
    have hcond : (d._is_nullable && v == null_value_id) = false := by
      cases hn : d._is_nullable
      · simp
      · have : v ≠ 0 := fun h0 => hv ⟨hn, h0⟩
        simp [null_value_id, this]
    unfold DictionarySegment.value_of_value_id
    rw [hcond]
    simp [hx]
  · intro hn x hx
    simp [DictionarySegment.value_of_value_id, hn, null_value_id, hx]

/-- Witness of C9: the ids of the nullable dictionary segment with dictionary `[5, 9]`. -/
theorem C9_value_of_value_id_witness :
    (⟨[5, 9], ⟨1, [1, 2, 0]⟩, true⟩ : DictionarySegment Int).value_of_value_id 0
      = .error .logic_error ∧
    (⟨[5, 9], ⟨1, [1, 2, 0]⟩, true⟩ : DictionarySegment Int).value_of_value_id 2 = .ok 9 ∧
    (⟨[5, 9], ⟨1, [1, 2, 0]⟩, true⟩ : DictionarySegment Int).value_of_value_id 1 = .ok 5 :=
  ⟨(C9_value_of_value_id (⟨[5, 9], ⟨1, [1, 2, 0]⟩, true⟩ : DictionarySegment Int) 2).1 rfl,
    (C9_value_of_value_id (⟨[5, 9], ⟨1, [1, 2, 0]⟩, true⟩ : DictionarySegment Int) 2).2.1
      (by decide) 9 rfl,
    (C9_value_of_value_id (⟨[5, 9], ⟨1, [1, 2, 0]⟩, true⟩ : DictionarySegment Int) 2).2.2
      rfl 5 rfl⟩

end ReadClaims

theorem int32_range_segment_length (n : Nat) : (int32_range_segment n)._values.length = n := by
  simp [int32_range_segment]

theorem int32_range_segment_not_nullable (n : Nat) :
    (int32_range_segment n)._segment_is_nullable = false := rfl

theorem int32_range_segment_nodup (n : Nat) : (int32_range_segment n)._values.Nodup := by
  unfold int32_range_segment
  refine (List.nodup_range n).map ?_
  intro a b hab
  simp only [sub_left_inj, Nat.cast_inj] at hab
  exact hab

/-- C10 as stated does not hold at `n = 2 ^ 32`: the segment that holds every `int32_t`
value once is non-nullable and its `2 ^ 32` values are pairwise distinct, but `size()`
converts this length to the `ChunkOffset` `0`, the constructor reads no value and
throws. -/
theorem C10_fails_at_two_pow_32 :
    all_int32_segment._segment_is_nullable = false ∧
    all_int32_segment._values.Nodup ∧
    all_int32_segment._values.length = 2 ^ 32 ∧
    DictionarySegment.new all_int32_segment = .error .logic_error := by
  have hlen : all_int32_segment._values.length = 2 ^ 32 := int32_range_segment_length _
  have hsize : all_int32_segment.size = 0 := by
    rw [ValueSegment.size_of_length _ _ hlen]
    norm_num
  refine ⟨int32_range_segment_not_nullable _, int32_range_segment_nodup _, hlen, ?_⟩
  apply DictionarySegment.new_fails
  intro i hi
  rw [hsize] at hi
  exact absurd hi (Nat.not_lt_zero i)

/-- C10, amended (memory estimate with width promotion): for a non-nullable `int32_t`
segment of `n` pairwise distinct values with `1 ≤ n < 2 ^ 32`, the constructor returns a
dictionary segment with `estimate_memory_usage() = n * 4 + n * w`, where `w` is `1` for
`n ≤ 2 ^ 8`, `2` for `2 ^ 8 < n ≤ 2 ^ 16` and `4` above. -/
theorem C10_memory_estimate (s : ValueSegment Int) (hnn : s._segment_is_nullable = false)
    (hnodup : s._values.Nodup) (h1 : 1 ≤ s._values.length) (h2 : s._values.length < 2 ^ 32) :
    ∃ d, DictionarySegment.new s = .ok d ∧
      d.estimate_memory_usage 4 = s._values.length * 4 + s._values.length *
        (if s._values.length ≤ 2 ^ 8 then 1 else if s._values.length ≤ 2 ^ 16 then 2 else 4) := by
  obtain ⟨d, hd, -, hD, hav, hw⟩ := DictionarySegment.new_of_distinct s h1 h2
    (fun i _ => s.is_null_of_not_nullable hnn i) hnodup
  refine ⟨d, hd, ?_⟩
  simp only [DictionarySegment.estimate_memory_usage, DictionarySegment.dictionary,
    DictionarySegment.attribute_vector, FixedWidthIntegerVector.width,
    FixedWidthIntegerVector.size, hD, hav, hw]
  split_ifs <;> omega

/-- Witness of C10, amended: three distinct values. -/
theorem C10_memory_estimate_witness :
    ∃ d, DictionarySegment.new (⟨[3, 1, 2], [false, false, false], false⟩ : ValueSegment Int)
        = .ok d ∧
      d.estimate_memory_usage 4 = 3 * 4 + 3 * 1 :=
  C10_memory_estimate ⟨[3, 1, 2], [false, false, false], false⟩ rfl (by decide)
    (by decide) (by decide)

/-! ## The value ids -/

section IdLemmas

variable {T : Type} [LinearOrder T]

theorem dict_map_insert_of_not_mem (m : List (T × Nat)) (k : T) (v : Nat)
    (hk : k ∉ m.map Prod.fst) :
    (dict_map_insert m k v).2 = true ∧ (dict_map_insert m k v).1.length = m.length + 1 := by
  induction m with
  | nil => simp [dict_map_insert]
  | cons e rest ih =>
    obtain ⟨k', v'⟩ := e
    simp only [List.map_cons, List.mem_cons, not_or] at hk
    by_cases h1 : k < k'
    · simp [dict_map_insert, h1]
    · have h2 : k' < k := lt_of_le_of_ne (not_lt.mp h1) (Ne.symm hk.1)
      have := ih hk.2
      simp [dict_map_insert, h1, h2, this]

theorem dict_map_find_insert_self (m : List (T × Nat)) (k : T) (v : Nat)
    (hk : k ∉ m.map Prod.fst) : dict_map_find (dict_map_insert m k v).1 k = some v := by
  induction m with
  | nil => simp [dict_map_insert, dict_map_find]
  | cons e rest ih =>
    obtain ⟨k', v'⟩ := e
    simp only [List.map_cons, List.mem_cons, not_or] at hk
    by_cases h1 : k < k'
    · simp [dict_map_insert, h1, dict_map_find]
    · have h2 : k' < k := lt_of_le_of_ne (not_lt.mp h1) (Ne.symm hk.1)
      simp [dict_map_insert, h1, h2, dict_map_find, ih hk.2]

theorem dict_map_find_insert_ne (m : List (T × Nat)) (k k' : T) (v : Nat) (hne : k' ≠ k) :
    dict_map_find (dict_map_insert m k v).1 k' = dict_map_find m k' := by
  induction m with
  | nil =>
    have h : k < k' ∨ k' < k := lt_or_gt_of_ne (Ne.symm hne)
    simp [dict_map_insert, dict_map_find, h]
  | cons e rest ih =>
    obtain ⟨k0, v0⟩ := e
    by_cases h1 : k < k0
    · have h : k < k' ∨ k' < k := lt_or_gt_of_ne (Ne.symm hne)
      simp [dict_map_insert, h1, dict_map_find, h]
    · by_cases h2 : k0 < k
      · simp only [dict_map_insert, h1, h2, if_true, if_false, dict_map_find, ih]
      · simp [dict_map_insert, h1, h2]

end IdLemmas

section IdClaims

variable {T : Type} [LinearOrder T]

end IdClaims

section RankLemmas

variable {T : Type} [LinearOrder T]

theorem collect_step_rank_invariant (s : ValueSegment T) (n j : Nat)
    (st st' : List (T × Nat) × Nat) (hnull : s.is_null j = .ok false)
    (hnodup : s._values.Nodup) (hinv : CollectInv s j st) (hrank : RankInv s n j st)
    (hstep : collect_step s j st = .ok st') : RankInv s n (j + 1) st' := by
  obtain ⟨hli, hfinds⟩ := hrank
  unfold collect_step at hstep
  simp only [hnull] at hstep
  cases hval : s.values[j]? with
  | none => simp [hval] at hstep
  | some value =>
    simp only [hval] at hstep
    have hval' : s._values[j]? = some value := hval
    have hj : j < s._values.length := (List.getElem?_eq_some.mp hval').1
    have hdistinct : ∀ i x, i < j → s._values[i]? = some x → x ≠ value := by
      intro i x hi hx hxv
      subst hxv
      have hi' : i < s._values.length := (List.getElem?_eq_some.mp hx).1
      have := List.getElem?_inj hi' hnodup (hx.trans hval'.symm)
      omega
    have hk : value ∉ st.1.map Prod.fst := by
      intro hmem
      obtain ⟨i, hi, -, hx⟩ := (hinv.2.1 value).mp hmem
      exact hdistinct i value hi hx rfl
    have hfind := (dict_map_find_eq_none st.1 value).mpr hk
    obtain ⟨hins, -⟩ := dict_map_insert_of_not_mem st.1 value st.2 hk
    simp only [hfind, if_true, hins, Except.ok.injEq] at hstep
    subst hstep
    refine ⟨by simp only; omega, ?_⟩
    intro i x hi hx
    by_cases hij : i = j
    · subst hij
      rw [hval'] at hx
      simp only [Option.some.injEq] at hx
      subst hx
      simp only
      rw [dict_map_find_insert_self _ _ _ hk, hli]
    · simp only
      rw [dict_map_find_insert_ne _ _ _ _ (hdistinct i x (by omega) hx)]
      exact hfinds i x (by omega) hx

theorem collect_loop_rank_invariant (s : ValueSegment T) (n count : Nat)
    (st : List (T × Nat) × Nat) (hnull : ∀ i, i < count → s.is_null i = .ok false)
    (hnodup : s._values.Nodup)
    (h : for_loop (collect_step s) 0 count ([], n) = .ok st) : RankInv s n count st := by
  have hboth := for_loop_invariant (collect_step s)
    (fun j st => CollectInv s j st ∧ RankInv s n j st) count
    (by
      intro i st st' hi hinv hstep
      exact ⟨collect_step_invariant s i st st' hinv.1 hstep,
        collect_step_rank_invariant s n i st st' (hnull i hi) hnodup hinv.1 hinv.2 hstep⟩)
    count 0 _ st (by omega)
    (by
      refine ⟨⟨by simp, ?_, by simp⟩, ⟨by simp, ?_⟩⟩
      · intro x
        simp
      · intro i x hi
        omega)
    h
  exact hboth.2

/-- On a segment of fewer than `2 ^ 32` pairwise distinct values, none of them null, the
attribute vector of the constructed segment holds at position `i` the id
`(nullable ? 1 : 0) + i`, narrowed to the width of the vector. -/
theorem DictionarySegment.new_ids_of_distinct (s : ValueSegment T) (d : DictionarySegment T)
    (h : DictionarySegment.new s = .ok d) (hsize : s._values.length < 2 ^ 32)
    (hnull : ∀ i, i < s._values.length → s.is_null i = .ok false) (hnodup : s._values.Nodup)
    (i : Nat) (hi : i < s._values.length) :
    d._attribute_vector._values[i]? =
      some (((if s._segment_is_nullable then 1 else 0) + i)
        % 2 ^ (8 * d._attribute_vector.bytes)) := by
  have hs := s.size_eq_length hsize
  obtain ⟨m, last_index, av, h1, h2, h3, h4, h5⟩ := DictionarySegment.new_eq_ok s d h
  have hinv := collect_loop_invariant s s.size _ _ h1
  have hrank := collect_loop_rank_invariant s _ s.size _ (by rw [hs]; exact hnull) hnodup h1
  have hlen : m.length ≤ s.size := hinv.2.2
  have hpos : 1 ≤ m.length := by
    by_contra hcon
    have h0 : m.length = 0 := by omega
    rw [h0, get_attribute_vector_zero] at h2
    simp at h2
  have hlt := s.size_lt
  rw [get_attribute_vector_pos _ _ hpos (by omega)] at h2
  simp only [Except.ok.injEq] at h2
  subst h2
  obtain ⟨hw, -, -, hvals⟩ := encode_loop_invariant s m _ _ _ h3
  have hx := List.getElem?_eq_getElem hi
  have hfind := hrank.2 i _ (by omega) hx
  rw [hvals i _ (by omega) (hnull i hi) hx, hw]
  simp only [dict_map_index, hfind, Option.getD_some, ValueSegment.is_nullable]

end RankLemmas

theorem nullable_range_segment_length (n : Nat) :
    (nullable_range_segment n)._values.length = n := by
  simp [nullable_range_segment]

theorem nullable_range_segment_nodup (n : Nat) : (nullable_range_segment n)._values.Nodup :=
  (List.nodup_range n).map Int.ofNat_injective

theorem nullable_range_segment_is_null (n i : Nat) (hi : i < n) :
    (nullable_range_segment n).is_null i = .ok false :=
  ValueSegment.is_null_of_flags_false _ (fun _ hflag => List.eq_of_mem_replicate hflag) i
    (by simpa [nullable_range_segment] using hi)

theorem nullable_range_segment_value (n i : Nat) (hi : i < n) :
    (nullable_range_segment n)._values[i]? = some (Int.ofNat i) := by
  simp [nullable_range_segment, List.getElem?_range hi]

/-- The dictionary segment built from `nullable_range_segment n`, for `1 ≤ n < 2 ^ 32`:
its width is chosen from `n`, and position `i` holds the id `1 + i` narrowed to that
width. -/
theorem nullable_range_segment_encoded (n : Nat) (h1 : 1 ≤ n) (h2 : n < 2 ^ 32) :
    ∃ d, DictionarySegment.new (nullable_range_segment n) = .ok d ∧
      d._is_nullable = true ∧
      d._attribute_vector.bytes = (if n ≤ 2 ^ 8 then 1 else if n ≤ 2 ^ 16 then 2 else 4) ∧
      ∀ i, i < n → d._attribute_vector._values[i]? =
        some ((1 + i) % 2 ^ (8 * d._attribute_vector.bytes)) := by
  have hlen := nullable_range_segment_length n
  have hnull : ∀ i, i < (nullable_range_segment n)._values.length →
      (nullable_range_segment n).is_null i = .ok false := by
    intro i hi
    exact nullable_range_segment_is_null n i (by omega)
  obtain ⟨d, hd, hn, -, -, hw⟩ := DictionarySegment.new_of_distinct (nullable_range_segment n)
    (by omega) (by omega) hnull (nullable_range_segment_nodup n)
  rw [hlen] at hw
  refine ⟨d, hd, hn, hw, ?_⟩
  intro i hi
  have := DictionarySegment.new_ids_of_distinct (nullable_range_segment n) d hd (by omega)
    hnull (nullable_range_segment_nodup n) i (by omega)
  simpa [nullable_range_segment] using this

/-- C12 (lossless narrowing) does not hold of the constructor. On the nullable segment
holding the 256 distinct values `0, ..., 255` and no null, the vector is one byte wide;
the value `255` at position 255 is not null and has the id `256`, which `set` narrows to
`0`: `get(255)` returns the null value id and `get_typed_value(255)` is absent. -/
theorem C12_value_id_truncated_on_nullable_segment :
    ∃ d : DictionarySegment Int,
      DictionarySegment.new (nullable_range_segment 256) = .ok d ∧
      d.attribute_vector.width = 1 ∧
      (nullable_range_segment 256).is_null 255 = .ok false ∧
      (nullable_range_segment 256)._values[255]? = some 255 ∧
      d.attribute_vector.get 254 = .ok 255 ∧
      d.attribute_vector.get 255 = .ok 0 ∧
      d.get_typed_value 255 = .ok none := by
  obtain ⟨d, hd, -, hw, hids⟩ := nullable_range_segment_encoded 256 (by norm_num) (by norm_num)
  have hw1 : d._attribute_vector.bytes = 1 := by simpa using hw
  have h254 : d._attribute_vector._values[254]? = some 255 := by
    rw [hids 254 (by norm_num), hw1]
    norm_num
  have h255 : d._attribute_vector._values[255]? = some 0 := by
    rw [hids 255 (by norm_num), hw1]
    norm_num
  have hget : d.attribute_vector.get 255 = .ok 0 := by
    simp [DictionarySegment.attribute_vector, FixedWidthIntegerVector.get, h255]
  refine ⟨d, hd, hw1, nullable_range_segment_is_null 256 255 (by norm_num),
    nullable_range_segment_value 256 255 (by norm_num), ?_, hget, ?_⟩
  · simp [DictionarySegment.attribute_vector, FixedWidthIntegerVector.get, h254]
  · simp [DictionarySegment.get_typed_value, hget, null_value_id]

/-! ## ValueSegment: append and reads -/

section AppendLemmas

variable {T : Type}

theorem ValueSegment.append_of_error (type_cast : AllTypeVariant → Except Failure T)
    (s : ValueSegment T) (value : AllTypeVariant) (e : Failure)
    (h : (s.append type_cast value).2 = .error e) : (s.append type_cast value).1 = s := by
  unfold ValueSegment.append at h ⊢
  split_ifs with h1 h2
  · cases hc : type_cast (.int 0) with
    | error e' => rfl
    | ok dummy =>
      rw [if_pos h1, if_pos h2, hc] at h
      simp at h
  · rfl
  · cases hc : type_cast value with
    | error e' => rfl
    | ok v =>
      rw [if_neg h1, hc] at h
      simp at h

theorem ValueSegment.append_of_ok (type_cast : AllTypeVariant → Except Failure T)
    (s : ValueSegment T) (value : AllTypeVariant) (u : Unit)
    (h : (s.append type_cast value).2 = .ok u) :
    ∃ x, (s.append type_cast value).1 =
        ⟨s._values ++ [x], s._is_null_values ++ [variant_is_null value],
          s._segment_is_nullable⟩ ∧
      (variant_is_null value = false → type_cast value = .ok x) ∧
      (variant_is_null value = true → s._segment_is_nullable = true) := by
  unfold ValueSegment.append at h ⊢
  by_cases h1 : variant_is_null value = true
  · by_cases h2 : s._segment_is_nullable = true
    · cases hc : type_cast (.int 0) with
      | error e' =>
        rw [if_pos h1, if_pos h2, hc] at h
        simp at h
      | ok dummy =>
        refine ⟨dummy, ?_, ?_, fun _ => h2⟩
        · rw [if_pos h1, if_pos h2, h1]
        · intro hcon
          rw [h1] at hcon
          simp at hcon
    · rw [if_pos h1, if_neg h2] at h
      simp at h
  · cases hc : type_cast value with
    | error e' =>
      rw [if_neg h1, hc] at h
      simp at h
    | ok v =>
      have h1' : variant_is_null value = false := by simpa using h1
      refine ⟨v, ?_, fun _ => rfl, ?_⟩
      · rw [if_neg h1, h1']
      · intro hcon
        exact absurd hcon h1

theorem ValueSegment.append_all_lengths (type_cast : AllTypeVariant → Except Failure T)
    (values : List AllTypeVariant) :
    ∀ s : ValueSegment T,
      (ValueSegment.append_all type_cast s values).1._values.length
        = s._values.length + (ValueSegment.append_all type_cast s values).2 ∧
      (ValueSegment.append_all type_cast s values).1._is_null_values.length
        = s._is_null_values.length + (ValueSegment.append_all type_cast s values).2 := by
  induction values with
  | nil =>
    intro s
    simp [ValueSegment.append_all]
  | cons value values ih =>
    intro s
    cases hr : (s.append type_cast value).2 with
    | error e =>
      have hs := ValueSegment.append_of_error type_cast s value e hr
      have := ih (s.append type_cast value).1
      simp only [ValueSegment.append_all, hr]
      rw [hs] at this ⊢
      exact this
    | ok u =>
      obtain ⟨x, hs, -, -⟩ := ValueSegment.append_of_ok type_cast s value u hr
      have := ih (s.append type_cast value).1
      simp only [ValueSegment.append_all, hr]
      rw [hs] at this ⊢
      simp only [List.length_append, List.length_singleton] at this
      omega

theorem ValueSegment.append_all_count_replicate (n : Nat) :
    ∀ s : ValueSegment Int,
      (ValueSegment.append_all (type_cast_model .int) s
        (List.replicate n (AllTypeVariant.int 7))).2 = n := by
  induction n with
  | zero =>
    intro s
    rfl
  | succ n ih =>
    intro s
    have hr : (s.append (type_cast_model .int) (.int 7)).2 = .ok () := rfl
    simp only [List.replicate_succ, ValueSegment.append_all, hr]
    rw [ih]

theorem ValueSegment.append_all_size_replicate (n : Nat) :
    (ValueSegment.append_all (type_cast_model .int) (ValueSegment.new false)
      (List.replicate n (AllTypeVariant.int 7))).2 = n ∧
    (ValueSegment.append_all (type_cast_model .int) (ValueSegment.new false)
      (List.replicate n (AllTypeVariant.int 7))).1.size = n % 2 ^ 32 := by
  have hcount := ValueSegment.append_all_count_replicate n (ValueSegment.new false)
  have hlen := (ValueSegment.append_all_lengths (type_cast_model .int)
    (List.replicate n (AllTypeVariant.int 7)) (ValueSegment.new false)).1
  have e1 : (ValueSegment.new false : ValueSegment Int)._values.length = 0 := rfl
  rw [e1, Nat.zero_add, hcount] at hlen
  refine ⟨hcount, ?_⟩
  unfold ValueSegment.size
  rw [hlen]

/-- C13 as stated does not hold: after `2 ^ 32` appends of `7` to a new `int` segment, all
of which return, `size()` is `0`. -/
theorem C13_size_is_zero_after_two_pow_32_appends :
    (ValueSegment.append_all (type_cast_model .int) (ValueSegment.new false)
      (List.replicate (2 ^ 32) (AllTypeVariant.int 7))).2 = 2 ^ 32 ∧
    (ValueSegment.append_all (type_cast_model .int) (ValueSegment.new false)
      (List.replicate (2 ^ 32) (AllTypeVariant.int 7))).1.size = 0 :=
  ⟨(ValueSegment.append_all_size_replicate (2 ^ 32)).1,
    (ValueSegment.append_all_size_replicate (2 ^ 32)).2.trans (by norm_num)⟩

/-- C13, amended (value-segment length invariant): after any sequence of `append` calls on
a new value segment, whether they return or throw, the values and the null flags have the
same length, which is the number of calls that returned; `size()` is that number modulo
`2 ^ 32`, so it is that number as long as fewer than `2 ^ 32` calls have returned. -/
theorem C13_value_segment_length_invariant (type_cast : AllTypeVariant → Except Failure T)
    (nullable : Bool) (values : List AllTypeVariant) :
    (ValueSegment.append_all type_cast (ValueSegment.new nullable) values).1._values.length
      = (ValueSegment.append_all type_cast
          (ValueSegment.new nullable) values).1._is_null_values.length ∧
    (ValueSegment.append_all type_cast (ValueSegment.new nullable) values).1._values.length
      = (ValueSegment.append_all type_cast (ValueSegment.new nullable) values).2 ∧
    (ValueSegment.append_all type_cast (ValueSegment.new nullable) values).1.size
      = (ValueSegment.append_all type_cast (ValueSegment.new nullable) values).2 % 2 ^ 32 ∧
    ((ValueSegment.append_all type_cast (ValueSegment.new nullable) values).2 < 2 ^ 32 →
      (ValueSegment.append_all type_cast (ValueSegment.new nullable) values).1.size
        = (ValueSegment.append_all type_cast (ValueSegment.new nullable) values).2) := by
  obtain ⟨h1, h2⟩ := ValueSegment.append_all_lengths type_cast values
    (ValueSegment.new nullable)
  have e1 : (ValueSegment.new nullable : ValueSegment T)._values.length = 0 := rfl
  have e2 : (ValueSegment.new nullable : ValueSegment T)._is_null_values.length = 0 := rfl
  rw [e1, Nat.zero_add] at h1
  rw [e2, Nat.zero_add] at h2
  refine ⟨by rw [h1, h2], h1, ?_, ?_⟩
  · unfold ValueSegment.size
    rw [h1]
  · intro hlt
    unfold ValueSegment.size
    rw [h1, Nat.mod_eq_of_lt hlt]

/-- Witness of C13, amended: on a non-nullable `int` segment, an append of `7`, a rejected
append of null, a rejected append of a string and an append of `9`. -/
theorem C13_value_segment_length_invariant_witness :
    ValueSegment.append_all (type_cast_model .int) (ValueSegment.new false)
        [.int 7, .NULL_VALUE, .string "a", .int 9]
      = ((⟨[7, 9], [false, false], false⟩ : ValueSegment Int), 2) ∧
    (ValueSegment.append_all (type_cast_model .int) (ValueSegment.new false)
        [.int 7, .NULL_VALUE, .string "a", .int 9]).2 < 2 ^ 32 ∧
    (ValueSegment.append_all (type_cast_model .int) (ValueSegment.new false)
        [.int 7, .NULL_VALUE, .string "a", .int 9]).1.size
      = (ValueSegment.append_all (type_cast_model .int) (ValueSegment.new false)
        [.int 7, .NULL_VALUE, .string "a", .int 9]).2 :=
  ⟨rfl, by decide, (C13_value_segment_length_invariant (type_cast_model .int) false
    [.int 7, .NULL_VALUE, .string "a", .int 9]).2.2.2 (by decide)⟩

end AppendLemmas

section ReadLemmas

variable {T : Type}

theorem variant_is_null_of_cell (to_variant : T → AllTypeVariant)
    (hnotnull : ∀ v, variant_is_null (to_variant v) = false) (c : Option T) :
    variant_is_null (variant_of_cell to_variant c) = c.isNone := by
  cases c with
  | none => rfl
  | some v => simpa [variant_of_cell] using hnotnull v

/-- The segment that a sequence of returning `append` calls builds from cells that are
null or hold a `T`: a null flag for each cell, a value for each cell, the value of the
cell where it holds one. -/
theorem ValueSegment.append_list_cells (type_cast : AllTypeVariant → Except Failure T)
    (to_variant : T → AllTypeVariant) (hcast : ∀ v, type_cast (to_variant v) = .ok v)
    (hnotnull : ∀ v, variant_is_null (to_variant v) = false) (cells : List (Option T)) :
    ∀ s s' : ValueSegment T,
      ValueSegment.append_list type_cast s (cells.map (variant_of_cell to_variant)) = .ok s' →
      s'._segment_is_nullable = s._segment_is_nullable ∧
      s'._is_null_values = s._is_null_values ++ cells.map Option.isNone ∧
      (∃ filled, s'._values = s._values ++ filled ∧ filled.length = cells.length ∧
        ∀ (i : Nat) (v : T), cells[i]? = some (some v) → filled[i]? = some v) ∧
      (none ∈ cells → s._segment_is_nullable = true) := by
  induction cells with
  | nil =>
    intro s s' h
    simp only [List.map_nil, ValueSegment.append_list, Except.ok.injEq] at h
    subst h
    exact ⟨rfl, by simp, ⟨[], by simp, rfl, by simp⟩, by simp⟩
  | cons c cells ih =>
    intro s s' h
    simp only [List.map_cons, ValueSegment.append_list] at h
    cases hr : (s.append type_cast (variant_of_cell to_variant c)).2 with
    | error e => simp [hr] at h
    | ok u =>
      simp only [hr] at h
      obtain ⟨x, hs1, hx, hnull⟩ := ValueSegment.append_of_ok type_cast s _ u hr
      rw [variant_is_null_of_cell to_variant hnotnull c] at hs1 hx hnull
      rw [hs1] at h
      obtain ⟨hn, hflags, ⟨filled, hvalues, hlen, hfilled⟩, hnone⟩ := ih _ s' h
      simp only at hn hflags hvalues hnone
      refine ⟨hn, ?_, ⟨x :: filled, ?_, ?_, ?_⟩, ?_⟩
      · rw [hflags]
        simp
      · rw [hvalues]
        simp
      · simp [hlen]
      · intro i v hi
        cases i with
        | zero =>
          simp only [List.getElem?_cons_zero, Option.some.injEq] at hi
          subst hi
          have := hx rfl
          rw [variant_of_cell, hcast] at this
          simp only [Except.ok.injEq] at this
          simp [this]
        | succ i =>
          simp only [List.getElem?_cons_succ] at hi ⊢
          exact hfilled i v hi
      · intro hmem
        rcases List.mem_cons.mp hmem with hc | hc
        · subst hc
          exact hnull rfl
        · exact hnone hc

/-- C15 (value-segment reads reflect appends): on the segment built from a new value
segment by returning `append` calls for cells `a_0, ..., a_(n-1)`, each null or holding a
`T`, position `i` reads back cell `a_i`: a null cell is null, `get_typed_value` is absent,
`operator[]` is the null variant and `get` throws; a cell holding `v` is not null, and
`get_typed_value`, `operator[]` and `get` return `v`. -/
theorem C15_reads_reflect_appends (type_cast : AllTypeVariant → Except Failure T)
    (to_variant : T → AllTypeVariant) (hcast : ∀ v, type_cast (to_variant v) = .ok v)
    (hnotnull : ∀ v, variant_is_null (to_variant v) = false)
    (nullable : Bool) (cells : List (Option T)) (s : ValueSegment T)
    (hs : ValueSegment.append_list type_cast (ValueSegment.new nullable)
      (cells.map (variant_of_cell to_variant)) = .ok s) (i : Nat) :
    (cells[i]? = some none →
      s.is_null i = .ok true ∧ s.get_typed_value i = .ok none ∧
      s.operator_index to_variant i = .ok .NULL_VALUE ∧ s.get i = .error .logic_error) ∧
    (∀ v, cells[i]? = some (some v) →
      s.is_null i = .ok false ∧ s.get_typed_value i = .ok (some v) ∧
      s.operator_index to_variant i = .ok (to_variant v) ∧ s.get i = .ok v) := by
  obtain ⟨hn, hflags, ⟨filled, hvalues, hlen, hfilled⟩, hnone⟩ :=
    ValueSegment.append_list_cells type_cast to_variant hcast hnotnull cells _ s hs
  simp only [ValueSegment.new, List.nil_append] at hn hflags hvalues hnone
  have hflag : ∀ c, cells[i]? = some c → s._is_null_values[i]? = some c.isNone := by
    intro c hc
    rw [hflags, List.getElem?_map, hc]
    rfl
  refine ⟨?_, ?_⟩
  · intro hc
    have hnl : s._segment_is_nullable = true := by
      rw [hn]
      exact hnone (List.getElem?_mem hc)
    have hnull : s.is_null i = .ok true := by
      simp [ValueSegment.is_null, ValueSegment.is_nullable, hnl, hflag none hc]
    exact ⟨hnull, by simp [ValueSegment.get_typed_value, hnull],
      by simp [ValueSegment.operator_index, hnull], by simp [ValueSegment.get, hnull]⟩
  · intro v hc
    have hnull : s.is_null i = .ok false := by
      unfold ValueSegment.is_null
      split_ifs
      · simp [hflag (some v) hc]
      · rfl
    have hval : s._values[i]? = some v := by
      rw [hvalues]
      exact hfilled i v hc
    have hget : s.get i = .ok v := by
      simp [ValueSegment.get, hnull, hval]
    exact ⟨hnull, by simp [ValueSegment.get_typed_value, hnull, hget],
      by simp [ValueSegment.operator_index, hnull, hget], hget⟩

/-- Witness of C15: the cells `5, null, 9` appended to a nullable `int` segment. -/
theorem C15_reads_reflect_appends_witness :
    ValueSegment.append_list (type_cast_model .int) (ValueSegment.new true)
        ([some 5, none, some 9].map (variant_of_cell AllTypeVariant.int))
      = .ok (⟨[5, 0, 9], [false, true, false], true⟩ : ValueSegment Int) ∧
    (⟨[5, 0, 9], [false, true, false], true⟩ : ValueSegment Int).get_typed_value 2
      = .ok (some 9) ∧
    (⟨[5, 0, 9], [false, true, false], true⟩ : ValueSegment Int).get 1
      = .error .logic_error := by
  have h : ValueSegment.append_list (type_cast_model .int) (ValueSegment.new true)
        ([some 5, none, some 9].map (variant_of_cell AllTypeVariant.int))
      = .ok (⟨[5, 0, 9], [false, true, false], true⟩ : ValueSegment Int) := rfl
  exact ⟨h,
    ((C15_reads_reflect_appends (type_cast_model .int) AllTypeVariant.int (fun _ => rfl)
      (fun _ => rfl) true [some 5, none, some 9] _ h 2).2 9 rfl).2.1,
    ((C15_reads_reflect_appends (type_cast_model .int) AllTypeVariant.int (fun _ => rfl)
      (fun _ => rfl) true [some 5, none, some 9] _ h 1).1 rfl).2.2.2⟩

end ReadLemmas

/-! ## Chunk and Table -/

section ChunkLemmas

variable (type_cast : (t : DataType) → AllTypeVariant → Except Failure t.carrier)

theorem append_columns_length (segments : List AbstractSegment) :
    ∀ values : List AllTypeVariant,
      (append_columns type_cast segments values).1.length = segments.length := by
  induction segments with
  | nil =>
    intro values
    simp [append_columns]
  | cons segment segments ih =>
    intro values
    cases values with
    | nil => simp [append_columns]
    | cons value values =>
      cases segment with
      | value_segment t s =>
        cases hr : (s.append (type_cast t) value).2 with
        | error e => simp [append_columns, hr]
        | ok u => simp [append_columns, hr, ih values]
      | other size => simp [append_columns, ih values]

theorem append_columns_other (segments : List AbstractSegment) :
    ∀ (values : List AllTypeVariant) (i size : Nat),
      segments[i]? = some (.other size) →
      (append_columns type_cast segments values).1[i]? = some (.other size) := by
  induction segments with
  | nil =>
    intro values i size h
    simp at h
  | cons segment segments ih =>
    intro values i size h
    cases values with
    | nil => simpa [append_columns] using h
    | cons value values =>
      cases segment with
      | value_segment t s =>
        cases i with
        | zero => simp at h
        | succ i =>
          simp only [List.getElem?_cons_succ] at h
          cases hr : (s.append (type_cast t) value).2 with
          | error e => simpa [append_columns, hr] using h
          | ok u => simpa [append_columns, hr] using ih values i size h
      | other size' =>
        cases i with
        | zero => simpa [append_columns] using h
        | succ i =>
          simp only [List.getElem?_cons_succ] at h
          simpa [append_columns] using ih values i size h

theorem append_columns_error (segments : List AbstractSegment) :
    ∀ (values : List AllTypeVariant) (e : Failure),
      values.length = segments.length →
      (append_columns type_cast segments values).2 = .error e →
      ∃ (i : Nat) (t : DataType) (s : ValueSegment t.carrier) (v : AllTypeVariant),
        segments[i]? = some (.value_segment t s) ∧ values[i]? = some v ∧
        (s.append (type_cast t) v).2 = .error e := by
  induction segments with
  | nil =>
    intro values e _ h
    simp [append_columns] at h
  | cons segment segments ih =>
    intro values e hlen h
    cases values with
    | nil => simp at hlen
    | cons value values =>
      have hlen' : values.length = segments.length := by simpa using hlen
      cases segment with
      | value_segment t s =>
        cases hr : (s.append (type_cast t) value).2 with
        | error e' =>
          simp only [append_columns, hr, Except.error.injEq] at h
          subst h
          exact ⟨0, t, s, value, by simp, by simp, hr⟩
        | ok u =>
          simp only [append_columns, hr] at h
          obtain ⟨i, t', s', v, h1, h2, h3⟩ := ih values e hlen' h
          exact ⟨i + 1, t', s', v, by simpa using h1, by simpa using h2, h3⟩
      | other size =>
        simp only [append_columns] at h
        obtain ⟨i, t', s', v, h1, h2, h3⟩ := ih values e hlen' h
        exact ⟨i + 1, t', s', v, by simpa using h1, by simpa using h2, h3⟩

/-- C20 as stated does not hold: on the chunk whose only segment is not a value segment,
`Chunk::append` of one value returns and leaves the chunk as it was. -/
theorem C20_append_returns_on_other_segment :
    ([AllTypeVariant.int 1].length = (⟨[.other 3]⟩ : Chunk)._segments.length) ∧
    (Chunk.append type_cast_model ⟨[.other 3]⟩ [.int 1]).2 = .ok () ∧
    (Chunk.append type_cast_model ⟨[.other 3]⟩ [.int 1]).1._segments = [.other 3] :=
  ⟨rfl, rfl, rfl⟩

/-- C20, amended: `Chunk::append` passes over a segment that is not a value segment. For
every chunk and every value list with one value for each segment, each segment that is
not a value segment is left as it was, and the call throws only if the `append` to one of
the value segments throws. -/
theorem C20_append_passes_over_other_segments (c : Chunk) (values : List AllTypeVariant)
    (hlen : values.length = c._segments.length) :
    (∀ (i size : Nat), c._segments[i]? = some (.other size) →
      (c.append type_cast values).1._segments[i]? = some (.other size)) ∧
    (∀ e, (c.append type_cast values).2 = .error e →
      ∃ (i : Nat) (t : DataType) (s : ValueSegment t.carrier) (v : AllTypeVariant),
        c._segments[i]? = some (.value_segment t s) ∧ values[i]? = some v ∧
        (s.append (type_cast t) v).2 = .error e) := by
  unfold Chunk.append
  rw [if_pos hlen]
  exact ⟨fun i size h => append_columns_other type_cast c._segments values i size h,
    fun e h => append_columns_error type_cast c._segments values e hlen h⟩

/-- Witness of C20, amended: a chunk of an `int` value segment and another segment. -/
theorem C20_append_passes_over_other_segments_witness :
    (Chunk.append type_cast_model
      ⟨[.value_segment .int ⟨[], [], false⟩, .other 3]⟩ [.int 1, .int 2]).1._segments[1]?
      = some (.other 3) :=
  (C20_append_passes_over_other_segments type_cast_model
    ⟨[.value_segment .int ⟨[], [], false⟩, .other 3]⟩ [.int 1, .int 2] rfl).1 1 3 rfl

end ChunkLemmas

section TableClaims

variable (type_cast : (t : DataType) → AllTypeVariant → Except Failure t.carrier)

/-- C19 as stated does not hold: on the table with target chunk size 2 and two
non-nullable `int` columns, the append of the row `(1, null)` throws at the second
column, after `1` has been appended to the first one: `row_count()` is `1` after the
call and `0` before it. -/
theorem C19_failed_append_keeps_partial_row :
    (Table.with_columns 2 [("a", .int, false), ("b", .int, false)]).row_count = 0 ∧
    ((Table.with_columns 2 [("a", .int, false), ("b", .int, false)]).append type_cast_model
      [.int 1, .NULL_VALUE]).2 = .error .logic_error ∧
    ((Table.with_columns 2 [("a", .int, false), ("b", .int, false)]).append type_cast_model
      [.int 1, .NULL_VALUE]).1.row_count = 1 ∧
    ((Table.with_columns 2 [("a", .int, false), ("b", .int, false)]).append type_cast_model
      [.int 1, .NULL_VALUE]).1._chunks =
      [⟨[.value_segment .int ⟨[1], [false], false⟩, .value_segment .int ⟨[], [], false⟩]⟩] :=
  ⟨rfl, rfl, rfl, rfl⟩

/-- C19, amended: an `append` that throws because the number of values differs from the
number of columns leaves the table as it was; every `append`, whether it returns or
throws, leaves the column names, types and nullability, the target chunk size and every
chunk before the last one as they were. -/
theorem C19_failed_append (t : Table) (values : List AllTypeVariant) :
    (values.length ≠ t._column_names.length →
      t.append type_cast values = (t, .error .logic_error)) ∧
    (t.append type_cast values).1._column_names = t._column_names ∧
    (t.append type_cast values).1._column_types = t._column_types ∧
    (t.append type_cast values).1._column_nullable = t._column_nullable ∧
    (t.append type_cast values).1._target_chunk_size = t._target_chunk_size ∧
    (t.append type_cast values).1._chunks.take (t._chunks.length - 1) = t._chunks.dropLast := by
  have key1 : ∀ (l : List Chunk) (x : Chunk), (l ++ [x]).take (l.length - 1) = l.dropLast := by
    intro l x
    rw [List.take_append_of_le_length (by omega), List.dropLast_eq_take]
  have key2 : ∀ (l : List Chunk) (x : Chunk),
      (l.dropLast ++ [x]).take (l.length - 1) = l.dropLast := by
    intro l x
    rw [List.take_append_of_le_length (by simp), List.take_of_length_le (by simp)]
  unfold Table.append
  split_ifs with hlen hroll
  · refine ⟨fun h => absurd hlen h, rfl, rfl, rfl, rfl, ?_⟩
    have hnew : (Table.append_to_last_chunk type_cast t.create_new_chunk values).1._chunks
        = t._chunks ++ [(t.create_new_chunk.last_chunk.append type_cast values).1] := by
      simp only [Table.append_to_last_chunk, Table.create_new_chunk, List.dropLast_concat]
    rw [hnew]
    exact key1 _ _
  · exact ⟨fun h => absurd hlen h, rfl, rfl, rfl, rfl, key2 _ _⟩
  · exact ⟨fun _ => rfl, rfl, rfl, rfl, rfl, List.dropLast_eq_take _ |>.symm⟩

/-- Witness of C19, amended: one value for a table of two columns. -/
theorem C19_failed_append_witness :
    [AllTypeVariant.int 1].length
      ≠ (Table.with_columns 2 [("a", .int, false), ("b", .int, false)])._column_names.length ∧
    (Table.with_columns 2 [("a", .int, false), ("b", .int, false)]).append type_cast_model
      [.int 1] =
      (Table.with_columns 2 [("a", .int, false), ("b", .int, false)], .error .logic_error) :=
  ⟨by decide, (C19_failed_append type_cast_model
    (Table.with_columns 2 [("a", .int, false), ("b", .int, false)]) [.int 1]).1 (by decide)⟩

end TableClaims

section ReachableLemmas

variable (type_cast : (t : DataType) → AllTypeVariant → Except Failure t.carrier)

theorem dropLast_append_getLastD {α : Type} (l : List α) :
    ∀ d : α, l ≠ [] → l.dropLast ++ [l.getLastD d] = l := by
  induction l with
  | nil =>
    intro d h
    exact absurd rfl h
  | cons a l ih =>
    intro d _
    cases l with
    | nil => rfl
    | cons b l =>
      have := ih a (by simp)
      rw [List.getLastD_cons, List.dropLast_cons₂, List.cons_append, this]

theorem Table.chunks_eq (t : Table) (h : t._chunks ≠ []) :
    t._chunks.dropLast ++ [t.last_chunk] = t._chunks :=
  dropLast_append_getLastD t._chunks Chunk.new h

theorem Table.last_chunk_concat (t : Table) (chunks : List Chunk) (chunk : Chunk)
    (h : t._chunks = chunks ++ [chunk]) : t.last_chunk = chunk := by
  unfold Table.last_chunk
  rw [h, List.getLastD_concat]

theorem ValueSegment.append_size_le {T : Type} (type_cast : AllTypeVariant → Except Failure T)
    (s : ValueSegment T) (value : AllTypeVariant) :
    (s.append type_cast value).1.size ≤ s.size + 1 := by
  cases hr : (s.append type_cast value).2 with
  | error e =>
    rw [ValueSegment.append_of_error type_cast s value e hr]
    omega
  | ok u =>
    obtain ⟨x, hs, -, -⟩ := ValueSegment.append_of_ok type_cast s value u hr
    rw [hs]
    unfold ValueSegment.size
    simp only [List.length_append, List.length_singleton]
    omega

theorem Chunk.size_of_empty_segments (segments : List AbstractSegment)
    (h : ∀ segment ∈ segments, segment.size = 0) : (⟨segments⟩ : Chunk).size = 0 := by
  unfold Chunk.size
  split_ifs
  · rfl
  · cases segments with
    | nil => rfl
    | cons segment segments => simpa using h segment (by simp)

theorem Chunk.size_add_segment (c : Chunk) (segment : AbstractSegment)
    (hlen : c._segments.length + 1 < 2 ^ 16) (hsize : segment.size = 0) :
    (c.add_segment segment).size = c.size := by
  obtain ⟨segments⟩ := c
  cases segments with
  | nil =>
    simp [Chunk.add_segment, Chunk.size, Chunk.column_count, hsize]
  | cons s0 rest =>
    simp only [List.length_cons] at hlen
    have h1 : (rest.length + 1) % 65536 ≠ 0 := by omega
    have h2 : (rest.length + 1 + 1) % 65536 ≠ 0 := by omega
    simp [Chunk.add_segment, Chunk.size, Chunk.column_count, h1, h2]

theorem Chunk.append_segments_length (c : Chunk) (values : List AllTypeVariant) :
    (c.append type_cast values).1._segments.length = c._segments.length := by
  unfold Chunk.append
  split_ifs
  · exact append_columns_length type_cast c._segments values
  · rfl

theorem Chunk.append_adds_at_most_one_row (c : Chunk) (values : List AllTypeVariant) :
    (c.append type_cast values).1.size ≤ c.size + 1 := by
  have hlen := Chunk.append_segments_length type_cast c values
  unfold Chunk.append at hlen ⊢
  split_ifs at hlen ⊢ with h
  · obtain ⟨segments⟩ := c
    cases segments with
    | nil => simp [append_columns, Chunk.size, Chunk.column_count]
    | cons segment segments =>
      cases values with
      | nil => simp at h
      | cons value values =>
        simp only [Chunk.size, Chunk.column_count, hlen]
        split_ifs
        · omega
        · cases segment with
          | value_segment t s =>
            have := ValueSegment.append_size_le (type_cast t) s value
            cases hr : (s.append (type_cast t) value).2 with
            | error e => simpa [append_columns, hr, AbstractSegment.size] using this
            | ok u => simpa [append_columns, hr, AbstractSegment.size] using this
          | other size => simp [append_columns]
  · exact Nat.le_succ _

theorem Table.create_new_chunk_chunks (t : Table) :
    ∃ chunk, t.create_new_chunk._chunks = t._chunks ++ [chunk] ∧ chunk.size = 0 ∧
      (t._column_types.length = t._column_names.length →
        t._column_nullable.length = t._column_names.length →
        chunk._segments.length = t._column_names.length) := by
  refine ⟨_, rfl, ?_, ?_⟩
  · apply Chunk.size_of_empty_segments
    intro segment hmem
    have hmem' := List.mem_of_mem_take hmem
    rw [List.mem_iff_getElem?] at hmem'
    obtain ⟨i, hi⟩ := hmem'
    rw [List.getElem?_zipWith] at hi
    cases h1 : t._column_types[i]? with
    | none => simp [h1] at hi
    | some type =>
      cases h2 : t._column_nullable[i]? with
      | none => simp [h1, h2] at hi
      | some nullable =>
        simp only [h1, h2, Option.some.injEq] at hi
        rw [← hi]
        rfl
  · intro h1 h2
    simp [h1, h2]

/-- The invariant of the reachable tables with a target chunk size of at least one: the
column vectors have one length, which every chunk has as its number of segments; and,
with fewer than `2 ^ 16` columns, every chunk except the last has the target size and the
last chunk has at most that size. -/
theorem Table.Reachable.invariant (c : Nat) (hc : 1 ≤ c) (t : Table)
    (h : Table.Reachable type_cast c t) :
    t._target_chunk_size = c ∧ t._chunks ≠ [] ∧
    t._column_types.length = t._column_names.length ∧
    t._column_nullable.length = t._column_names.length ∧
    (∀ chunk ∈ t._chunks, chunk._segments.length = t._column_names.length) ∧
    (t._column_names.length < 2 ^ 16 →
      (∀ chunk ∈ t._chunks.dropLast, chunk.size = c) ∧ t.last_chunk.size ≤ c) := by
  induction h with
  | new =>
    refine ⟨rfl, by simp [Table.new, Table.create_new_chunk], rfl, rfl, ?_, ?_⟩
    · intro chunk hmem
      simp only [Table.new, Table.create_new_chunk, List.nil_append, List.mem_singleton] at hmem
      subst hmem
      rfl
    · intro _
      refine ⟨?_, ?_⟩
      · intro chunk hmem
        simp [Table.new, Table.create_new_chunk] at hmem
      · have : (Table.new c).last_chunk.size = 0 := rfl
        omega
  | add_column t name type nullable _ ih =>
    obtain ⟨htarget, hne, htypes, hnullable, hsegments, hsizes⟩ := ih
    by_cases h0 : t.row_count = 0
    · have hpost : (t.add_column name type nullable).1 =
          Table.add_column_definition
            { t with _chunks := t._chunks.map (fun chunk =>
                chunk.add_segment (.value_segment type (ValueSegment.new nullable))) }
            name type nullable := by
        unfold Table.add_column
        rw [if_pos h0]
      rw [hpost]
      refine ⟨htarget, by simpa [Table.add_column_definition] using hne,
        by simp [Table.add_column_definition, htypes],
        by simp [Table.add_column_definition, hnullable], ?_, ?_⟩
      · intro chunk hmem
        simp only [Table.add_column_definition, List.mem_map] at hmem
        obtain ⟨chunk0, hmem0, rfl⟩ := hmem
        simp [Table.add_column_definition, Chunk.add_segment, hsegments chunk0 hmem0]
      · intro hcols
        simp only [Table.add_column_definition, List.length_append, List.length_singleton]
          at hcols
        obtain ⟨hfull, hlast⟩ := hsizes (by omega)
        have hsize : ∀ chunk ∈ t._chunks,
            (chunk.add_segment (.value_segment type (ValueSegment.new nullable))).size
              = chunk.size := by
          intro chunk hmem
          exact Chunk.size_add_segment chunk _ (by rw [hsegments chunk hmem]; omega) rfl
        have hchunks := Table.chunks_eq t hne
        refine ⟨?_, ?_⟩
        · intro chunk hmem
          simp only [Table.add_column_definition] at hmem
          rw [← List.map_dropLast, List.mem_map] at hmem
          obtain ⟨chunk0, hmem0, rfl⟩ := hmem
          rw [hsize chunk0 (List.dropLast_subset _ hmem0)]
          exact hfull chunk0 hmem0
        · have hlast' : (Table.add_column_definition
              { t with _chunks := t._chunks.map (fun chunk =>
                  chunk.add_segment (.value_segment type (ValueSegment.new nullable))) }
              name type nullable).last_chunk
              = t.last_chunk.add_segment (.value_segment type (ValueSegment.new nullable)) := by
            apply Table.last_chunk_concat _ (t._chunks.dropLast.map (fun chunk =>
              chunk.add_segment (.value_segment type (ValueSegment.new nullable))))
            simp only [Table.add_column_definition]
            have hmap := congrArg (List.map (fun chunk : Chunk =>
              chunk.add_segment (.value_segment type (ValueSegment.new nullable)))) hchunks.symm
            rw [List.map_append] at hmap
            exact hmap
          rw [hlast', hsize _ (by rw [← hchunks]; simp)]
          exact hlast
    · have hpost : (t.add_column name type nullable).1 = t := by
        unfold Table.add_column
        rw [if_neg h0]
      rw [hpost]
      exact ⟨htarget, hne, htypes, hnullable, hsegments, hsizes⟩
  | append t values _ ih =>
    obtain ⟨htarget, hne, htypes, hnullable, hsegments, hsizes⟩ := ih
    have hchunks := Table.chunks_eq t hne
    unfold Table.append
    split_ifs with hlen hroll
    · obtain ⟨chunk, hnew, hzero, hnewlen⟩ := Table.create_new_chunk_chunks t
      have hlast1 := Table.last_chunk_concat t.create_new_chunk _ _ hnew
      have hpost : (Table.append_to_last_chunk type_cast t.create_new_chunk values).1._chunks
          = t._chunks ++ [(chunk.append type_cast values).1] := by
        simp only [Table.append_to_last_chunk, hlast1, hnew, List.dropLast_concat]
      refine ⟨htarget, by rw [hpost]; simp, htypes, hnullable, ?_, ?_⟩
      · intro chunk' hmem
        rw [hpost, List.mem_append, List.mem_singleton] at hmem
        rcases hmem with hmem | rfl
        · exact hsegments chunk' hmem
        · rw [Chunk.append_segments_length]
          exact hnewlen htypes hnullable
      · intro hcols
        obtain ⟨hfull, hlast⟩ := hsizes hcols
        have hlast' := Table.last_chunk_concat
          (Table.append_to_last_chunk type_cast t.create_new_chunk values).1 _ _ hpost
        refine ⟨?_, ?_⟩
        · intro chunk' hmem
          rw [hpost, List.dropLast_concat, ← hchunks, List.mem_append,
            List.mem_singleton] at hmem
          rcases hmem with hmem | rfl
          · exact hfull chunk' hmem
          · rw [htarget] at hroll
            omega
        · rw [hlast']
          have := Chunk.append_adds_at_most_one_row type_cast chunk values
          omega
    · have hpost : (Table.append_to_last_chunk type_cast t values).1._chunks
          = t._chunks.dropLast ++ [(t.last_chunk.append type_cast values).1] := rfl
      refine ⟨htarget, by rw [hpost]; simp, htypes, hnullable, ?_, ?_⟩
      · intro chunk' hmem
        rw [hpost, List.mem_append, List.mem_singleton] at hmem
        rcases hmem with hmem | rfl
        · exact hsegments chunk' (List.dropLast_subset _ hmem)
        · rw [Chunk.append_segments_length]
          exact hsegments _ (by rw [← hchunks]; simp)
      · intro hcols
        obtain ⟨hfull, hlast⟩ := hsizes hcols
        have hlast' := Table.last_chunk_concat
          (Table.append_to_last_chunk type_cast t values).1 _ _ hpost
        refine ⟨?_, ?_⟩
        · intro chunk' hmem
          rw [hpost, List.dropLast_concat] at hmem
          exact hfull chunk' hmem
        · rw [hlast']
          have := Chunk.append_adds_at_most_one_row type_cast t.last_chunk values
          rw [htarget] at hroll
          omega
    · exact ⟨htarget, hne, htypes, hnullable, hsegments, hsizes⟩

/-- C16 as stated does not hold for the target chunk size `0`: after `add_column` and two
`append` calls the table has three chunks, of sizes `0`, `1` and `1`, so the second
chunk, which is not the last, does not have the target size. -/
theorem C16_fails_for_target_chunk_size_zero :
    Table.Reachable type_cast_model 0
      ((((Table.new 0).add_column "a" .int false).1.append type_cast_model [.int 1]).1.append
        type_cast_model [.int 2]).1 ∧
    ((((Table.new 0).add_column "a" .int false).1.append type_cast_model [.int 1]).1.append
        type_cast_model [.int 2]).1._chunks.map Chunk.size = [0, 1, 1] :=
  ⟨.append _ _ (.append _ _ (.add_column _ _ _ _ .new)), rfl⟩

/-- C16, amended (full-chunk invariant): in every table reachable from
`Table(target_chunk_size)` with `target_chunk_size ≥ 1` by `add_column` and `append`
calls, and with fewer than `2 ^ 16` columns, every chunk except the last has `size()`
equal to `target_chunk_size`. -/
theorem C16_full_chunk_invariant (c : Nat) (hc : 1 ≤ c) (t : Table)
    (h : Table.Reachable type_cast c t) (hcols : t._column_names.length < 2 ^ 16) :
    ∀ chunk ∈ t._chunks.dropLast, chunk.size = t._target_chunk_size := by
  obtain ⟨htarget, -, -, -, -, hsizes⟩ := Table.Reachable.invariant type_cast c hc t h
  rw [htarget]
  exact (hsizes hcols).1

/-- Witness of C16, amended: scenario S6, three rows in a table of target chunk size 2. -/
theorem C16_full_chunk_invariant_witness :
    Table.Reachable type_cast_model 2
      (((((Table.new 2).add_column "a" .int false).1.append type_cast_model
        [.int 1]).1.append type_cast_model [.int 2]).1.append type_cast_model
        [.int 3]).1 ∧
    (((((Table.new 2).add_column "a" .int false).1.append type_cast_model
        [.int 1]).1.append type_cast_model [.int 2]).1.append type_cast_model
        [.int 3]).1._chunks.length = 2 ∧
    ∀ chunk ∈ (((((Table.new 2).add_column "a" .int false).1.append type_cast_model
        [.int 1]).1.append type_cast_model [.int 2]).1.append type_cast_model
        [.int 3]).1._chunks.dropLast,
      chunk.size = 2 :=
  ⟨.append _ _ (.append _ _ (.append _ _ (.add_column _ _ _ _ .new))), rfl,
    C16_full_chunk_invariant type_cast_model 2 (by decide) _
      (.append _ _ (.append _ _ (.append _ _ (.add_column _ _ _ _ .new)))) (by decide)⟩

end ReachableLemmas

section RowCount

variable (type_cast : (t : DataType) → AllTypeVariant → Except Failure t.carrier)

theorem append_columns_rows (segments : List AbstractSegment) :
    ∀ (values : List AllTypeVariant) (r : Nat) (u : Unit),
      (∀ segment ∈ segments, ∃ (t : DataType) (s : ValueSegment t.carrier),
        segment = .value_segment t s ∧ s._values.length = r) →
      (append_columns type_cast segments values).2 = .ok u →
      ∀ segment ∈ (append_columns type_cast segments values).1,
        ∃ (t : DataType) (s : ValueSegment t.carrier),
          segment = .value_segment t s ∧ s._values.length = r + 1 := by
  induction segments with
  | nil =>
    intro values r u _ _ segment hmem
    simp [append_columns] at hmem
  | cons segment0 segments ih =>
    intro values r u hrows hok
    obtain ⟨t, s, rfl, hs⟩ := hrows segment0 (by simp)
    cases values with
    | nil => simp [append_columns] at hok
    | cons value values =>
      cases hr : (s.append (type_cast t) value).2 with
      | error e => simp [append_columns, hr] at hok
      | ok u0 =>
        simp only [append_columns, hr] at hok ⊢
        intro segment hmem
        rcases List.mem_cons.mp hmem with rfl | hmem
        · obtain ⟨x, hx, -, -⟩ := ValueSegment.append_of_ok (type_cast t) s value u0 hr
          refine ⟨t, _, rfl, ?_⟩
          rw [hx]
          simp [hs]
        · exact ih values r u (fun segment hm => hrows segment (by simp [hm])) hok segment hmem

theorem Chunk.append_has_rows (c : Chunk) (values : List AllTypeVariant) (k r : Nat)
    (u : Unit) (h : c.HasRows k r) (hok : (c.append type_cast values).2 = .ok u) :
    (c.append type_cast values).1.HasRows k (r + 1) := by
  unfold Chunk.append at hok ⊢
  split_ifs at hok ⊢ with hlen
  · exact ⟨by rw [append_columns_length]; exact h.1,
      append_columns_rows type_cast c._segments values r u h.2 hok⟩

theorem Chunk.size_of_has_rows (c : Chunk) (k r : Nat) (h : c.HasRows k r) (hk : 1 ≤ k)
    (hk16 : k < 2 ^ 16) (hr : r < 2 ^ 32) : c.size = r := by
  obtain ⟨segments⟩ := c
  obtain ⟨hlen, hrows⟩ := h
  cases segments with
  | nil =>
    simp only [List.length_nil] at hlen
    omega
  | cons segment segments =>
    obtain ⟨t, s, rfl, hs⟩ := hrows segment (by simp)
    simp only [List.length_cons] at hlen
    have h1 : (segments.length + 1) % 65536 ≠ 0 := by omega
    simp only [Chunk.size, Chunk.column_count, List.length_cons]
    rw [if_neg (by norm_num; exact h1)]
    simp only [List.getElem?_cons_zero, AbstractSegment.size, ValueSegment.size, hs]
    omega

theorem Chunk.size_of_no_rows (c : Chunk) (k : Nat) (h : c.HasRows k 0) : c.size = 0 := by
  obtain ⟨segments⟩ := c
  apply Chunk.size_of_empty_segments
  intro segment hmem
  obtain ⟨t, s, rfl, hs⟩ := h.2 segment hmem
  simp [AbstractSegment.size, ValueSegment.size, hs]

theorem Table.create_new_chunk_has_rows (t : Table) (k : Nat)
    (hnames : t._column_names.length = k) (htypes : t._column_types.length = k)
    (hnullable : t._column_nullable.length = k) :
    ∃ chunk : Chunk, t.create_new_chunk = { t with _chunks := t._chunks ++ [chunk] } ∧
      chunk.HasRows k 0 := by
  refine ⟨_, rfl, ?_, ?_⟩
  · simp [hnames, htypes, hnullable]
  · intro segment hmem
    have hmem' := List.mem_of_mem_take hmem
    rw [List.mem_iff_getElem?] at hmem'
    obtain ⟨i, hi⟩ := hmem'
    rw [List.getElem?_zipWith] at hi
    cases h1 : t._column_types[i]? with
    | none => simp [h1] at hi
    | some type =>
      cases h2 : t._column_nullable[i]? with
      | none => simp [h1, h2] at hi
      | some nullable =>
        simp only [h1, h2, Option.some.injEq] at hi
        exact ⟨type, ValueSegment.new nullable, hi.symm, rfl⟩

/-- A table made by the constructor and `add_column` calls holds no rows, and has one
column for each call. -/
theorem Table.with_columns_invariant (c : Nat) (columns : List (String × DataType × Bool)) :
    Table.RowsInv c columns.length (Table.with_columns c columns) 0 := by
  have hgen : ∀ (columns : List (String × DataType × Bool)) (t : Table) (k : Nat),
      Table.RowsInv c k t 0 →
      Table.RowsInv c (k + columns.length)
        (columns.foldl (fun t column => (t.add_column column.1 column.2.1 column.2.2).1) t)
        0 := by
    intro columns
    induction columns with
    | nil =>
      intro t k h
      exact h
    | cons column columns ih =>
      intro t k h
      rw [List.foldl_cons, List.length_cons, show k + (columns.length + 1)
        = (k + 1) + columns.length by omega]
      apply ih
      obtain ⟨htarget, hnames, htypes, hnullable, full, last, r, hchunks, hfull, hlast, hr,
        hn, hne⟩ := h
      have hr0 : r = 0 := by omega
      subst hr0
      have hfull0 : full = [] := by
        by_contra hcon
        have := hne hcon
        omega
      subst hfull0
      rw [List.nil_append] at hchunks
      have hrows : t.row_count = 0 := by
        have hl : t.last_chunk = last := Table.last_chunk_concat t [] last (by simpa using hchunks)
        unfold Table.row_count
        rw [hl, Chunk.size_of_no_rows last k hlast, hchunks]
        simp [size_t_pred]
      unfold Table.add_column
      rw [if_pos hrows]
      refine ⟨htarget, by simp [Table.add_column_definition, hnames],
        by simp [Table.add_column_definition, htypes],
        by simp [Table.add_column_definition, hnullable],
        [], last.add_segment (.value_segment column.2.1 (ValueSegment.new column.2.2)), 0,
        by simp [Table.add_column_definition, hchunks], by simp, ?_, Nat.zero_le _, by simp,
        by simp⟩
      refine ⟨by simp [Chunk.add_segment, hlast.1], ?_⟩
      intro segment hmem
      simp only [Chunk.add_segment, List.mem_append, List.mem_singleton] at hmem
      rcases hmem with hmem | rfl
      · exact hlast.2 segment hmem
      · exact ⟨_, _, rfl, rfl⟩
  have h0 : Table.RowsInv c 0 (Table.new c) 0 :=
    ⟨rfl, rfl, rfl, rfl, [], ⟨[]⟩, 0, rfl, by simp, ⟨rfl, by simp⟩, Nat.zero_le _, by simp,
      by simp⟩
  have := hgen columns (Table.new c) 0 h0
  rw [Nat.zero_add] at this
  exact this

/-- A successful `append` adds one row and keeps the shape of the table. -/
theorem Table.append_invariant (c k : Nat) (hc : 1 ≤ c) (hc32 : c < 2 ^ 32) (hk : 1 ≤ k)
    (hk16 : k < 2 ^ 16) (t : Table) (n : Nat) (values : List AllTypeVariant) (u : Unit)
    (h : Table.RowsInv c k t n) (hok : (t.append type_cast values).2 = .ok u) :
    Table.RowsInv c k (t.append type_cast values).1 (n + 1) := by
  obtain ⟨htarget, hnames, htypes, hnullable, full, last, r, hchunks, hfull, hlast, hr,
    hn, hne⟩ := h
  have hl : t.last_chunk = last := Table.last_chunk_concat t full last hchunks
  have hsize : t.last_chunk.size = r := by
    rw [hl]
    exact Chunk.size_of_has_rows last k r hlast hk hk16 (by omega)
  unfold Table.append at hok ⊢
  split_ifs at hok ⊢ with hlen hroll
  · obtain ⟨chunk, hnew, hchunk⟩ :=
      Table.create_new_chunk_has_rows t k hnames htypes hnullable
    have hl1 : t.create_new_chunk.last_chunk = chunk :=
      Table.last_chunk_concat _ t._chunks chunk (by rw [hnew])
    have hok1 : (chunk.append type_cast values).2 = .ok u := by
      simpa [Table.append_to_last_chunk, hl1] using hok
    have hrows := Chunk.append_has_rows type_cast chunk values k 0 u hchunk hok1
    have hrc : r = c := by
      rw [htarget, hsize] at hroll
      omega
    subst hrc
    refine ⟨by rw [← htarget]; simp [Table.append_to_last_chunk, hnew],
      by rw [← hnames]; simp [Table.append_to_last_chunk, hnew],
      by rw [← htypes]; simp [Table.append_to_last_chunk, hnew],
      by rw [← hnullable]; simp [Table.append_to_last_chunk, hnew],
      full ++ [last], (chunk.append type_cast values).1, 1, ?_, ?_, hrows, hc, ?_,
      fun _ => Nat.le_refl 1⟩
    · simp only [Table.append_to_last_chunk, hl1]
      rw [hnew]
      simp only [List.dropLast_concat, hchunks]
    · intro chunk0 hmem
      rcases List.mem_append.mp hmem with hmem | hmem
      · exact hfull chunk0 hmem
      · rw [List.mem_singleton.mp hmem]
        exact hlast
    · rw [hn, List.length_append, List.length_singleton, Nat.add_mul]
      omega
  · have hok1 : (last.append type_cast values).2 = .ok u := by
      simpa [Table.append_to_last_chunk, hl] using hok
    have hrows := Chunk.append_has_rows type_cast last values k r u hlast hok1
    rw [htarget, hsize] at hroll
    refine ⟨htarget, hnames, htypes, hnullable, full, (last.append type_cast values).1, r + 1,
      ?_, hfull, hrows, by omega, by omega, fun _ => by omega⟩
    simp only [Table.append_to_last_chunk, hl]
    rw [hchunks, List.dropLast_concat]

theorem Table.append_rows_invariant (c k : Nat) (hc : 1 ≤ c) (hc32 : c < 2 ^ 32)
    (hk : 1 ≤ k) (hk16 : k < 2 ^ 16) (rows : List (List AllTypeVariant)) :
    ∀ (t t1 : Table) (n : Nat), Table.RowsInv c k t n →
      t.append_rows type_cast rows = .ok t1 → Table.RowsInv c k t1 (n + rows.length) := by
  induction rows with
  | nil =>
    intro t t1 n h hok
    simp only [Table.append_rows, Except.ok.injEq] at hok
    subst hok
    exact h
  | cons values rows ih =>
    intro t t1 n h hok
    cases hr : (t.append type_cast values).2 with
    | error e => simp [Table.append_rows, hr] at hok
    | ok u =>
      simp only [Table.append_rows, hr] at hok
      have := ih _ t1 (n + 1)
        (Table.append_invariant type_cast c k hc hc32 hk hk16 t n values u h hr) hok
      rw [List.length_cons, show n + (rows.length + 1) = n + 1 + rows.length by omega]
      exact this

/-- C17, amended (chunk rollover and row count): for a target chunk size `c ≥ 1` and a
table with at least one column, made by the constructor and `add_column` calls, after `n`
`append` calls that all return, no call that throws among them, and with
`ceil(n / c) < 2 ^ 32`, `row_count()` is `n`, `chunk_count()` is `max(1, ceil(n / c))`,
every chunk except the last has size `c`, and the last chunk has size
`n - (chunk_count() - 1) * c`. The target chunk size is a `ChunkOffset` and the columns
are counted in a `ColumnCount`. -/
theorem C17_chunk_rollover_and_row_count (c : Nat) (hc : 1 ≤ c) (hc32 : c < 2 ^ 32)
    (columns : List (String × DataType × Bool)) (hcolumns : columns ≠ [])
    (hcolumns16 : columns.length < 2 ^ 16) (rows : List (List AllTypeVariant))
    (hchunks32 : (rows.length + c - 1) / c < 2 ^ 32) (t : Table)
    (hok : (Table.with_columns c columns).append_rows type_cast rows = .ok t) :
    t.row_count = rows.length ∧
    t.chunk_count = max 1 ((rows.length + c - 1) / c) ∧
    (∀ chunk ∈ t._chunks.dropLast, chunk.size = c) ∧
    t.last_chunk.size = rows.length - (t.chunk_count - 1) * c := by
  have hk : 1 ≤ columns.length := by
    cases columns with
    | nil => exact absurd rfl hcolumns
    | cons column columns => simp
  have hinv := Table.append_rows_invariant type_cast c columns.length hc hc32 hk hcolumns16
    rows _ t 0 (Table.with_columns_invariant c columns) hok
  rw [Nat.zero_add] at hinv
  obtain ⟨htarget, -, -, -, full, last, r, hchunks, hfull, hlast, hr, hn, hne⟩ := hinv
  have hl : t.last_chunk = last := Table.last_chunk_concat t full last hchunks
  have hsize : last.size = r :=
    Chunk.size_of_has_rows last _ r hlast hk hcolumns16 (by omega)
  have hceil : max 1 ((rows.length + c - 1) / c) = full.length + 1 := by
    by_cases hf : full = []
    · subst hf
      simp only [List.length_nil, Nat.zero_mul, Nat.zero_add] at hn ⊢
      by_cases hr0 : r = 0
      · have : (rows.length + c - 1) / c = 0 := Nat.div_eq_of_lt (by omega)
        rw [this]
        rfl
      · have : (rows.length + c - 1) / c = 1 :=
          Nat.div_eq_of_lt_le (by omega) (by omega)
        rw [this]
        rfl
    · have hr1 := hne hf
      have h1 : rows.length + c - 1 = (r + c - 1) + c * full.length := by
        rw [hn, Nat.mul_comm]
        omega
      have h2 : (r + c - 1) / c = 1 := Nat.div_eq_of_lt_le (by omega) (by omega)
      rw [h1, Nat.add_mul_div_left _ _ (by omega : 0 < c), h2]
      omega
  have hcount : full.length + 1 < 2 ^ 32 := by
    by_cases hf : full = []
    · subst hf
      norm_num
    · have hmax : (rows.length + c - 1) / c ≤ max 1 ((rows.length + c - 1) / c) :=
        le_max_right _ _
      have hge : 2 ≤ full.length + 1 := by
        cases full with
        | nil => exact absurd rfl hf
        | cons chunk full => simp
      have : max 1 ((rows.length + c - 1) / c) = (rows.length + c - 1) / c := by
        rcases max_choice 1 ((rows.length + c - 1) / c) with h | h
        · omega
        · exact h
      omega
  have hchunk_count : t.chunk_count = full.length + 1 := by
    unfold Table.chunk_count
    rw [hchunks, List.length_append, List.length_singleton]
    omega
  have hbound : full.length * c + r < 2 ^ 64 := by
    have h1 : full.length * c ≤ (2 ^ 32 - 2) * (2 ^ 32 - 1) :=
      Nat.mul_le_mul (by omega) (by omega)
    norm_num at h1 ⊢
    omega
  refine ⟨?_, ?_, ?_, ?_⟩
  · unfold Table.row_count
    rw [hl, hsize, hchunks, htarget, List.length_append, List.length_singleton]
    have : size_t_pred (full.length + 1) = full.length := by simp [size_t_pred]
    rw [this, hn]
    exact Nat.mod_eq_of_lt hbound
  · rw [hchunk_count, hceil]
  · intro chunk hmem
    rw [hchunks, List.dropLast_concat] at hmem
    exact Chunk.size_of_has_rows chunk _ c (hfull chunk hmem) hk hcolumns16 hc32
  · rw [hl, hsize, hchunk_count, hn]
    simp

/-- Witness of C17, amended: scenario S6, three rows appended to a table with one `int` column and
target chunk size 2 give two chunks, of sizes 2 and 1. -/
theorem C17_chunk_rollover_and_row_count_witness :
    (Table.with_columns 2 [("a", DataType.int, false)]).append_rows type_cast_model
      [[.int 1], [.int 2], [.int 3]]
      = .ok ⟨[⟨[.value_segment .int ⟨[1, 2], [false, false], false⟩]⟩,
          ⟨[.value_segment .int ⟨[3], [false], false⟩]⟩], ["a"], [.int], [false], 2⟩ ∧
    (⟨[⟨[.value_segment .int ⟨[1, 2], [false, false], false⟩]⟩,
        ⟨[.value_segment .int ⟨[3], [false], false⟩]⟩], ["a"], [.int], [false], 2⟩
      : Table).row_count = 3 ∧
    (⟨[⟨[.value_segment .int ⟨[1, 2], [false, false], false⟩]⟩,
        ⟨[.value_segment .int ⟨[3], [false], false⟩]⟩], ["a"], [.int], [false], 2⟩
      : Table).chunk_count = 2 := by
  have h : (Table.with_columns 2 [("a", DataType.int, false)]).append_rows type_cast_model
      [[.int 1], [.int 2], [.int 3]]
      = .ok ⟨[⟨[.value_segment .int ⟨[1, 2], [false, false], false⟩]⟩,
          ⟨[.value_segment .int ⟨[3], [false], false⟩]⟩], ["a"], [.int], [false], 2⟩ := rfl
  have h1 := C17_chunk_rollover_and_row_count type_cast_model 2 (by decide) (by decide)
    [("a", DataType.int, false)] (by simp) (by decide) [[.int 1], [.int 2], [.int 3]]
    (by decide) _ h
  exact ⟨h, h1.1, h1.2.1⟩

end RowCount

/-! ## RowID -/

section RowIDClaims

/-- C21 as stated does not hold: the row id with chunk id `0` and the invalid chunk offset
is null for `is_null()`, and is not `NULL_ROW_ID`. -/
theorem C21_is_null_of_other_chunk_id :
    (⟨0, INVALID_CHUNK_OFFSET⟩ : RowID).is_null = true ∧
    (⟨0, INVALID_CHUNK_OFFSET⟩ : RowID).operator_eq NULL_ROW_ID = false ∧
    (⟨0, INVALID_CHUNK_OFFSET⟩ : RowID) ≠ NULL_ROW_ID := by
  refine ⟨by decide, by decide, by decide⟩

/-- C21, amended (null row id): `r.is_null()` holds if and only if the chunk offset of `r`
is `INVALID_CHUNK_OFFSET`; so it holds of every `r` with `r == NULL_ROW_ID`. -/
theorem C21_is_null_compares_chunk_offset (r : RowID) :
    (r.is_null = true ↔ r.chunk_offset = INVALID_CHUNK_OFFSET) ∧
    (r.operator_eq NULL_ROW_ID = true → r.is_null = true) := by
  refine ⟨by simp [RowID.is_null], ?_⟩
  intro h
  simp only [RowID.operator_eq, NULL_ROW_ID, beq_iff_eq, Prod.mk.injEq] at h
  simp [RowID.is_null, h.2]

/-- Witness of C21, amended: `NULL_ROW_ID` itself. -/
theorem C21_is_null_compares_chunk_offset_witness :
    NULL_ROW_ID.operator_eq NULL_ROW_ID = true ∧ NULL_ROW_ID.is_null = true :=
  ⟨by decide, (C21_is_null_compares_chunk_offset NULL_ROW_ID).2 (by decide)⟩

end RowIDClaims

/-! ## Attribute vector -/

section AttributeVectorClaims

/-- C22 (attribute vector set/get): a vector constructed with width `w` and size `n` has
that size and width; and on every vector of width `w` and size `n`, for every index
`i < n` and every value id `v < 2 ^ (8 * w)`, `set(i, v)` returns, after which `get(i)` is
`v`, `get(j)` is as before for every `j ≠ i`, `size()` is `n` and `width()` is `w`. This
holds for every width, so for `1`, `2` and `4`. -/
theorem C22_attribute_vector_set_get (w n : Nat) (v : FixedWidthIntegerVector)
    (hwidth : v.width = w) (hsize : v.size = n) (i value_id : Nat) (hi : i < n)
    (hv : value_id < 2 ^ (8 * w)) :
    (FixedWidthIntegerVector.new w n).size = n ∧
    (FixedWidthIntegerVector.new w n).width = w ∧
    ∃ v1, v.set i value_id = .ok v1 ∧ v1.get i = .ok value_id ∧
      (∀ j, j ≠ i → v1.get j = v.get j) ∧ v1.size = n ∧ v1.width = w := by
  unfold FixedWidthIntegerVector.width at hwidth
  unfold FixedWidthIntegerVector.size at hsize
  have hlt : i < v._values.length := by omega
  refine ⟨by simp [FixedWidthIntegerVector.new, FixedWidthIntegerVector.size],
    rfl, _, FixedWidthIntegerVector.set_of_lt v i value_id hlt, ?_, ?_, ?_, hwidth⟩
  · rw [hwidth, Nat.mod_eq_of_lt hv]
    simp [FixedWidthIntegerVector.get, hlt]
  · intro j hj
    simp only [FixedWidthIntegerVector.get]
    rw [List.getElem?_set_ne (Ne.symm hj)]
  · simp [FixedWidthIntegerVector.size, hsize]

/-- Witness of C22: the test `BasicOperations` at index 2 of the one-byte vector. -/
theorem C22_attribute_vector_set_get_witness :
    ∃ v1, (FixedWidthIntegerVector.new 1 4).set 2 2 = .ok v1 ∧ v1.get 2 = .ok 2 ∧
      (∀ j, j ≠ 2 → v1.get j = (FixedWidthIntegerVector.new 1 4).get j) ∧
      v1.size = 4 ∧ v1.width = 1 :=
  (C22_attribute_vector_set_get 1 4 (FixedWidthIntegerVector.new 1 4) rfl rfl 2 2
    (by decide) (by decide)).2.2

end AttributeVectorClaims

/-! ## Reads of a dictionary segment built from a non-nullable segment -/

section NullIdClaims

/-- C25 (no nulls from a non-nullable source) does not hold of the code. On the
non-nullable segment holding the one value `7`, the value has the id `0`, which
`get_typed_value` takes for the null value id without looking at `_is_nullable`:
`get_typed_value(0)` is absent, `get(0)` throws and `operator[](0)` is the null variant. -/
theorem C25_value_id_zero_reads_as_null :
    ∃ d : DictionarySegment Int,
      DictionarySegment.new (⟨[7], [false], false⟩ : ValueSegment Int) = .ok d ∧
      d._is_nullable = false ∧
      d.dictionary = [7] ∧
      d.attribute_vector.get 0 = .ok 0 ∧
      d.value_of_value_id 0 = .ok 7 ∧
      d.get_typed_value 0 = .ok none ∧
      d.get 0 = .error .logic_error ∧
      d.operator_index AllTypeVariant.int 0 = .ok .NULL_VALUE :=
  ⟨⟨[7], ⟨1, [0]⟩, false⟩, rfl, rfl, rfl, rfl, rfl, rfl, rfl, rfl⟩

/-- C26 (the encoding is injective on values) does not hold of the constructor in its
second part. On the nullable segment holding the 256 distinct values `0, ..., 255` and no
null, position 255 is not null and the vector holds the null value id there: the id `256`
of the value `255` does not fit the one-byte vector. -/
theorem C26_null_value_id_at_non_null_position :
    ∃ d : DictionarySegment Int,
      DictionarySegment.new (nullable_range_segment 256) = .ok d ∧
      d._is_nullable = true ∧
      (nullable_range_segment 256).is_null 255 = .ok false ∧
      d.attribute_vector.get 255 = .ok null_value_id := by
  obtain ⟨d, hd, hn, hw, hids⟩ := nullable_range_segment_encoded 256 (by norm_num) (by norm_num)
  have hw1 : d._attribute_vector.bytes = 1 := by simpa using hw
  have h255 : d._attribute_vector._values[255]? = some 0 := by
    rw [hids 255 (by norm_num), hw1]
    norm_num
  refine ⟨d, hd, hn, nullable_range_segment_is_null 256 255 (by norm_num), ?_⟩
  simp [DictionarySegment.attribute_vector, FixedWidthIntegerVector.get, h255, null_value_id]

end NullIdClaims

/-! ## Schema and chunk consistency -/

section SchemaClaims

variable (type_cast : (t : DataType) → AllTypeVariant → Except Failure t.carrier)

/-- Every reachable table, for any target chunk size, has column vectors of one length,
at least one chunk, and as many segments in every chunk as it has columns. -/
theorem Table.Reachable.schema_invariant (c : Nat) (t : Table)
    (h : Table.Reachable type_cast c t) :
    t._chunks ≠ [] ∧
    t._column_types.length = t._column_names.length ∧
    t._column_nullable.length = t._column_names.length ∧
    (∀ chunk ∈ t._chunks, chunk._segments.length = t._column_names.length) := by
  induction h with
  | new =>
    refine ⟨by simp [Table.new, Table.create_new_chunk], rfl, rfl, ?_⟩
    intro chunk hmem
    simp only [Table.new, Table.create_new_chunk, List.nil_append, List.mem_singleton] at hmem
    subst hmem
    rfl
  | add_column t name type nullable _ ih =>
    obtain ⟨hne, htypes, hnullable, hsegments⟩ := ih
    unfold Table.add_column
    split_ifs with h0
    · refine ⟨by simpa [Table.add_column_definition] using hne,
        by simp [Table.add_column_definition, htypes],
        by simp [Table.add_column_definition, hnullable], ?_⟩
      intro chunk hmem
      simp only [Table.add_column_definition, List.mem_map] at hmem
      obtain ⟨chunk0, hmem0, rfl⟩ := hmem
      simp [Table.add_column_definition, Chunk.add_segment, hsegments chunk0 hmem0]
    · exact ⟨hne, htypes, hnullable, hsegments⟩
  | append t values _ ih =>
    obtain ⟨hne, htypes, hnullable, hsegments⟩ := ih
    have hchunks := Table.chunks_eq t hne
    unfold Table.append
    split_ifs with hlen hroll
    · obtain ⟨chunk, hnew, -, hnewlen⟩ := Table.create_new_chunk_chunks t
      have hlast1 := Table.last_chunk_concat t.create_new_chunk _ _ hnew
      have hpost : (Table.append_to_last_chunk type_cast t.create_new_chunk values).1._chunks
          = t._chunks ++ [(chunk.append type_cast values).1] := by
        simp only [Table.append_to_last_chunk, hlast1, hnew, List.dropLast_concat]
      refine ⟨by rw [hpost]; simp, htypes, hnullable, ?_⟩
      intro chunk0 hmem
      rw [hpost, List.mem_append, List.mem_singleton] at hmem
      rcases hmem with hmem | rfl
      · exact hsegments chunk0 hmem
      · rw [Chunk.append_segments_length]
        exact hnewlen htypes hnullable
    · have hpost : (Table.append_to_last_chunk type_cast t values).1._chunks
          = t._chunks.dropLast ++ [(t.last_chunk.append type_cast values).1] := rfl
      refine ⟨by rw [hpost]; simp, htypes, hnullable, ?_⟩
      intro chunk0 hmem
      rw [hpost, List.mem_append, List.mem_singleton] at hmem
      rcases hmem with hmem | rfl
      · exact hsegments chunk0 (List.dropLast_subset _ hmem)
      · rw [Chunk.append_segments_length]
        exact hsegments _ (by rw [← hchunks]; simp)
    · exact ⟨hne, htypes, hnullable, hsegments⟩

/-- C23 (schema/chunk consistency): in every table reachable from the constructor by
`add_column` and `append` calls, whether they return or throw, with fewer than `2 ^ 16`
columns (the range of `ColumnCount`), the column names, types and nullability have the
same length, `chunk_count()` is at least one chunk, and every chunk has `column_count()`
equal to that of the table. -/
theorem C23_schema_chunk_consistency (target_chunk_size : Nat) (t : Table)
    (h : Table.Reachable type_cast target_chunk_size t)
    (hcolumns : t._column_names.length < 2 ^ 16) :
    t._column_names.length = t._column_types.length ∧
    t._column_types.length = t._column_nullable.length ∧
    1 ≤ t._chunks.length ∧
    (∀ chunk ∈ t._chunks,
      chunk.column_count = t.column_count ∧ chunk.column_count = t._column_names.length) := by
  obtain ⟨hne, htypes, hnullable, hsegments⟩ :=
    Table.Reachable.schema_invariant type_cast target_chunk_size t h
  refine ⟨htypes.symm, by rw [htypes, hnullable], ?_, ?_⟩
  · cases hchunks : t._chunks with
    | nil => exact absurd hchunks hne
    | cons chunk chunks => simp
  · intro chunk hmem
    unfold Chunk.column_count Table.column_count
    rw [hsegments chunk hmem]
    exact ⟨rfl, Nat.mod_eq_of_lt hcolumns⟩

/-- Witness of C23: a table of two columns and target chunk size 1 after two appends, the
second of which opens a chunk. -/
theorem C23_schema_chunk_consistency_witness :
    (((Table.with_columns 1 [("a", .int, false), ("b", .string, true)]).append
      type_cast_model [.int 1, .NULL_VALUE]).1.append
      type_cast_model [.int 2, .string "x"]).1._chunks.length = 2 ∧
    ∀ chunk ∈ (((Table.with_columns 1 [("a", .int, false), ("b", .string, true)]).append
      type_cast_model [.int 1, .NULL_VALUE]).1.append
      type_cast_model [.int 2, .string "x"]).1._chunks,
      chunk.column_count = 2 :=
  ⟨rfl, fun chunk hmem => ((C23_schema_chunk_consistency type_cast_model 1 _
    (.append _ _ (.append _ _ (.add_column _ "b" .string true
      (.add_column _ "a" .int false .new)))) (by decide)).2.2.2 chunk hmem).2⟩

end SchemaClaims

/-! ## Alignment of the segments of a chunk -/

section AlignmentClaims

variable (type_cast : (t : DataType) → AllTypeVariant → Except Failure t.carrier)

end AlignmentClaims

/-! ## Segments whose values `operator<` orders totally

The constructor and the binary searches use `operator<` only. On a segment over `U` whose
values are the images, under a map `f` that preserves and reflects `<`, of values of a
totally ordered type, they do what they do on the segment of those values. -/

section OrderEmbedding

variable {T U : Type} [LT T] [∀ a b : T, Decidable (a < b)] [LT U]
  [∀ a b : U, Decidable (a < b)] (f : T → U) (hf : ∀ a b, f a < f b ↔ a < b)

include hf

theorem dict_map_find_map (m : List (T × Nat)) (k : T) :
    dict_map_find (m.map (Prod.map f id)) (f k) = dict_map_find m k := by
  induction m with
  | nil => rfl
  | cons entry rest ih =>
    obtain ⟨k1, v⟩ := entry
    by_cases h : k1 < k ∨ k < k1
    · have h1 : f k1 < f k ∨ f k < f k1 := by simpa [hf] using h
      simp only [List.map_cons, Prod.map, id, dict_map_find, if_pos h, if_pos h1]
      exact ih
    · have h1 : ¬ (f k1 < f k ∨ f k < f k1) := by simpa [hf] using h
      simp only [List.map_cons, Prod.map, id, dict_map_find, if_neg h, if_neg h1]

theorem dict_map_insert_map (m : List (T × Nat)) (k : T) (v : Nat) :
    dict_map_insert (m.map (Prod.map f id)) (f k) v
      = ((dict_map_insert m k v).1.map (Prod.map f id), (dict_map_insert m k v).2) := by
  induction m with
  | nil => rfl
  | cons entry rest ih =>
    obtain ⟨k1, v1⟩ := entry
    by_cases h : k < k1
    · have h1 : f k < f k1 := (hf k k1).mpr h
      simp only [List.map_cons, Prod.map, id, dict_map_insert, if_pos h, if_pos h1]
    · have h1 : ¬ f k < f k1 := fun hc => h ((hf k k1).mp hc)
      by_cases h2 : k1 < k
      · have h3 : f k1 < f k := (hf k1 k).mpr h2
        simp only [List.map_cons, Prod.map, id, dict_map_insert, if_neg h, if_neg h1, if_pos h2,
          if_pos h3]
        rw [ih]
      · have h3 : ¬ f k1 < f k := fun hc => h2 ((hf k1 k).mp hc)
        simp only [List.map_cons, Prod.map, id, dict_map_insert, if_neg h, if_neg h1, if_neg h2,
          if_neg h3]

theorem collect_step_map (s : ValueSegment T) (index : Nat) (st : List (T × Nat) × Nat) :
    collect_step (s.map f) index (st.1.map (Prod.map f id), st.2)
      = (collect_step s index st).map (fun st => (st.1.map (Prod.map f id), st.2)) := by
  have hnull : (s.map f).is_null index = s.is_null index := rfl
  have hvalues : (s.map f).values[index]? = (s.values[index]?).map f := by
    simp [ValueSegment.map, ValueSegment.values]
  unfold collect_step
  rw [hnull, hvalues]
  cases s.is_null index with
  | error e => rfl
  | ok flag =>
    cases flag with
    | true => rfl
    | false =>
      cases s.values[index]? with
      | none => rfl
      | some value =>
        simp only [Option.map_some']
        rw [dict_map_find_map f hf, dict_map_insert_map f hf]
        by_cases h1 : dict_map_find st.1 value = none
        · by_cases h2 : (dict_map_insert st.1 value st.2).2 = true
          · simp only [if_pos h1, if_pos h2]
            rfl
          · simp only [if_pos h1, if_neg h2]
            rfl
        · simp only [if_neg h1]
          rfl

theorem encode_step_map (s : ValueSegment T) (m : List (T × Nat)) (index : Nat)
    (attribute_vector : FixedWidthIntegerVector) :
    encode_step (s.map f) (m.map (Prod.map f id)) index attribute_vector
      = encode_step s m index attribute_vector := by
  have hnull : (s.map f).is_null index = s.is_null index := rfl
  have hvalues : (s.map f).values[index]? = (s.values[index]?).map f := by
    simp [ValueSegment.map, ValueSegment.values]
  unfold encode_step
  rw [hnull, hvalues]
  cases s.is_null index with
  | error e => rfl
  | ok flag =>
    cases flag with
    | true => rfl
    | false =>
      cases s.values[index]? with
      | none => rfl
      | some value =>
        simp only [Option.map_some', dict_map_index]
        rw [dict_map_find_map f hf]

omit hf in
theorem for_loop_map {σ τ ε : Type} (body : Nat → σ → Except ε σ)
    (body1 : Nat → τ → Except ε τ) (φ : σ → τ)
    (h : ∀ i st, body1 i (φ st) = (body i st).map φ) :
    ∀ (count index : Nat) (st : σ),
      for_loop body1 index count (φ st) = (for_loop body index count st).map φ := by
  intro count
  induction count with
  | zero =>
    intro index st
    rfl
  | succ count ih =>
    intro index st
    simp only [for_loop]
    rw [h index st]
    cases body index st with
    | error e => rfl
    | ok st1 => exact ih (index + 1) st1

/-- The constructor on the segment of the images is the image of the constructor. -/
theorem DictionarySegment.new_map (s : ValueSegment T) :
    DictionarySegment.new (s.map f) = (DictionarySegment.new s).map (DictionarySegment.map f) := by
  have hsize : (s.map f).size = s.size := by
    simp [ValueSegment.map, ValueSegment.size]
  have hnullable : (s.map f).is_nullable = s.is_nullable := rfl
  have hcollect := for_loop_map (collect_step s) (collect_step (s.map f))
    (fun st => (st.1.map (Prod.map f id), st.2)) (collect_step_map f hf s) s.size 0
    ([], if s.is_nullable then 1 else 0)
  simp only [List.map_nil] at hcollect
  unfold DictionarySegment.new
  rw [hsize, hnullable, hcollect]
  cases for_loop (collect_step s) 0 s.size ([], if s.is_nullable then 1 else 0) with
  | error e => rfl
  | ok st =>
    obtain ⟨dict_map, last_index⟩ := st
    simp only [Except.map, List.length_map]
    cases get_attribute_vector dict_map.length s.size with
    | error e => rfl
    | ok attribute_vector =>
      simp only []
      have hencode : for_loop (encode_step (s.map f) (dict_map.map (Prod.map f id))) 0 s.size
          attribute_vector = for_loop (encode_step s dict_map) 0 s.size attribute_vector := by
        have := for_loop_map (encode_step s dict_map)
          (encode_step (s.map f) (dict_map.map (Prod.map f id))) id
          (by
            intro i av
            rw [id, encode_step_map f hf]
            cases encode_step s dict_map i av <;> rfl)
          s.size 0 attribute_vector
        rw [id] at this
        rw [this]
        cases for_loop (encode_step s dict_map) 0 s.size attribute_vector <;> rfl
      rw [hencode]
      cases for_loop (encode_step s dict_map) 0 s.size attribute_vector with
      | error e => rfl
      | ok attribute_vector1 =>
        simp only [DictionarySegment.map, List.map_map]
        congr 2

theorem lower_bound_loop_map (xs : List T) (value : T) :
    ∀ fuel first len : Nat,
      lower_bound_loop (xs.map f) (f value) fuel first len
        = lower_bound_loop xs value fuel first len := by
  intro fuel
  induction fuel with
  | zero =>
    intro first len
    rfl
  | succ fuel ih =>
    intro first len
    simp only [lower_bound_loop, List.getElem?_map]
    by_cases hlen : 0 < len
    · simp only [if_pos hlen]
      cases xs[first + len / 2]? with
      | none => rfl
      | some middle =>
        simp only [Option.map_some']
        by_cases h : middle < value
        · rw [if_pos h, if_pos ((hf middle value).mpr h)]
          exact ih _ _
        · rw [if_neg h, if_neg (fun hc => h ((hf middle value).mp hc))]
          exact ih _ _
    · simp only [if_neg hlen]

theorem DictionarySegment.lower_bound_map (d : DictionarySegment T) (value : T) :
    (d.map f).lower_bound (f value) = d.lower_bound value := by
  have h : std_lower_bound (d._dictionary.map f) (f value)
      = std_lower_bound d._dictionary value := by
    unfold std_lower_bound
    rw [List.length_map]
    exact lower_bound_loop_map f hf d._dictionary value _ _ _
  unfold DictionarySegment.lower_bound DictionarySegment.map
  simp only [h, List.length_map]

end OrderEmbedding

/-! ## Dictionary content and lower bound, for values that `operator<` orders totally -/

theorem FloatValue.number_lt_number (a b : ℚ) :
    FloatValue.number a < FloatValue.number b ↔ a < b := by
  show decide (a < b) = true ↔ a < b
  exact decide_eq_true_iff

theorem FloatValue.number_le_number (a b : ℚ) :
    FloatValue.number a ≤ FloatValue.number b ↔ a ≤ b := by
  show decide (a ≤ b) = true ↔ a ≤ b
  exact decide_eq_true_iff

theorem overlong_segment_size (n : Nat) : (overlong_segment n).size = (n + 1) % 2 ^ 32 := by
  simp [overlong_segment, ValueSegment.size]

theorem overlong_segment_first (n : Nat) (h : 1 ≤ n) :
    (overlong_segment n)._values[0]? = some 0 := by
  cases n with
  | zero => omega
  | succ n => simp [overlong_segment, List.replicate_succ]

theorem overlong_segment_last (n : Nat) : (overlong_segment n)._values[n]? = some 1 := by
  simp [overlong_segment, List.getElem?_append_right]

/-- The dictionary of the segment of `n` zeros and a one, for `n` a positive multiple of
`2 ^ 32`: `size()` is `1`, construction returns, and the dictionary lacks the value `1`. -/
theorem overlong_segment_dictionary (n : Nat) (h1 : 1 ≤ n) (hsize : (n + 1) % 2 ^ 32 = 1) :
    ∃ d : DictionarySegment Int, DictionarySegment.new (overlong_segment n) = .ok d ∧
      (1 : Int) ∉ d.dictionary := by
  have hs : (overlong_segment n).size = 1 := (overlong_segment_size n).trans hsize
  have hnull : ∀ i, (overlong_segment n).is_null i = .ok false :=
    ValueSegment.is_null_of_not_nullable _ rfl
  obtain ⟨d, hd⟩ := DictionarySegment.new_succeeds (overlong_segment n)
    (fun hn => by cases hn) ⟨0, by omega, hnull 0⟩
  refine ⟨d, hd, ?_⟩
  intro hmem
  obtain ⟨i, hi, -, hv⟩ := (DictionarySegment.new_dictionary_mem _ d hd 1).mp hmem
  have hi0 : i = 0 := by omega
  subst hi0
  rw [overlong_segment_first n h1] at hv
  cases hv

section OrderedClaims

variable {T U : Type} [LinearOrder T] [LT U] [∀ a b : U, Decidable (a < b)]

/-- C4 as stated does not hold, at two inputs. On the `float` segment holding `1.0`, NaN
and `2.0`, the constructor returns and the dictionary is `1.0, 2.0`: NaN, the non-null
value at position 1, is not in it, since `find` takes NaN for a key equivalent to `1.0`
(the map holds the one node `1.0`, and neither `1.0 < NaN` nor `NaN < 1.0`). On the `int`
segment holding `2 ^ 32` zeros and then a one, `size()` is `1`, the constructor reads
position 0 only, and the dictionary lacks the non-null value `1` at position `2 ^ 32`. -/
theorem C4_dictionary_misses_values :
    (∃ d : DictionarySegment FloatValue,
      DictionarySegment.new
        (⟨[.number 1, .nan, .number 2], [false, false, false], false⟩ : ValueSegment FloatValue)
        = .ok d ∧
      d.dictionary = [.number 1, .number 2] ∧
      (⟨[.number 1, .nan, .number 2], [false, false, false], false⟩ :
        ValueSegment FloatValue).is_null 1 = .ok false ∧
      (⟨[.number 1, .nan, .number 2], [false, false, false], false⟩ :
        ValueSegment FloatValue).values[1]? = some .nan ∧
      FloatValue.nan ∉ d.dictionary) ∧
    (∃ d : DictionarySegment Int,
      DictionarySegment.new (overlong_segment (2 ^ 32)) = .ok d ∧
      (overlong_segment (2 ^ 32)).is_null (2 ^ 32) = .ok false ∧
      (overlong_segment (2 ^ 32)).values[2 ^ 32]? = some 1 ∧
      (1 : Int) ∉ d.dictionary) := by
  refine ⟨⟨⟨[.number 1, .number 2], ⟨1, [0, 0, 1]⟩, false⟩, rfl, rfl, rfl, rfl, by decide⟩, ?_⟩
  obtain ⟨d, hd, hmem⟩ := overlong_segment_dictionary (2 ^ 32) (by norm_num) (by norm_num)
  exact ⟨d, hd, ValueSegment.is_null_of_not_nullable _ rfl _,
    overlong_segment_last (2 ^ 32), hmem⟩

/-- C4, amended (dictionary content): for every value segment of fewer than `2 ^ 32`
values whose values `operator<` orders totally, the dictionary is strictly ascending,
hence free of duplicates, its elements are exactly the non-null values of the segment,
and `unique_values_count()` is the number of distinct non-null values. The values are
given as the images of values of a totally ordered type `T` under a map `f` that
preserves and reflects `<`: the identity for an `int`, `long` or `string` segment,
`FloatValue.number` for a `float` or `double` segment without NaN. -/
theorem C4_dictionary_content (f : T → U) (hf : ∀ a b, f a < f b ↔ a < b)
    (s : ValueSegment T) (d : DictionarySegment U)
    (hsize : s._values.length < 2 ^ 32) (h : DictionarySegment.new (s.map f) = .ok d) :
    d.dictionary.Sorted (· < ·) ∧ d.dictionary.Nodup ∧
    (∀ x, x ∈ d.dictionary ↔
      ∃ i, (s.map f).is_null i = .ok false ∧ (s.map f).values[i]? = some x) ∧
    (∀ S : Finset U,
      (∀ x, x ∈ S ↔ ∃ i, (s.map f).is_null i = .ok false ∧ (s.map f).values[i]? = some x) →
      d.unique_values_count = S.card) := by
  classical
  rw [DictionarySegment.new_map f hf] at h
  cases hs : DictionarySegment.new s with
  | error e =>
    rw [hs] at h
    cases h
  | ok d0 =>
    rw [hs] at h
    have hd : d = d0.map f := by
      simp only [Except.map, Except.ok.injEq] at h
      exact h.symm
    subst hd
    obtain ⟨hsorted, hnodup, hmem, -⟩ :=
      DictionarySegment.new_dictionary_content s d0 hsize hs
    have hinj : Function.Injective f := by
      intro a b hab
      by_contra hne
      rcases lt_or_gt_of_ne hne with hlt | hgt
      · have := (hf a b).mpr hlt
        rw [hab] at this
        exact lt_irrefl b ((hf b b).mp this)
      · have := (hf b a).mpr hgt
        rw [hab] at this
        exact lt_irrefl b ((hf b b).mp this)
    have hmem1 : ∀ x, x ∈ (d0.map f).dictionary ↔
        ∃ i, (s.map f).is_null i = .ok false ∧ (s.map f).values[i]? = some x := by
      intro x
      show x ∈ d0._dictionary.map f ↔
        ∃ i, s.is_null i = .ok false ∧ (s._values.map f)[i]? = some x
      rw [List.mem_map]
      constructor
      · rintro ⟨a, ha, rfl⟩
        obtain ⟨i, h1, h2⟩ := (hmem a).mp ha
        refine ⟨i, h1, ?_⟩
        rw [List.getElem?_map]
        have h3 : s._values[i]? = some a := h2
        rw [h3]
        rfl
      · rintro ⟨i, h1, h2⟩
        rw [List.getElem?_map] at h2
        cases h3 : s._values[i]? with
        | none =>
          rw [h3] at h2
          cases h2
        | some a =>
          rw [h3] at h2
          simp only [Option.map_some', Option.some.injEq] at h2
          exact ⟨a, (hmem a).mpr ⟨i, h1, h3⟩, h2⟩
    have hnodup1 : (d0.map f).dictionary.Nodup := hnodup.map hinj
    refine ⟨?_, hnodup1, hmem1, ?_⟩
    · show List.Pairwise (· < ·) (d0._dictionary.map f)
      rw [List.pairwise_map]
      exact List.Pairwise.imp (fun hab => (hf _ _).mpr hab) hsorted
    · intro S hS
      have hlen := (DictionarySegment.new_dictionary_length s d0 hs).2
      have hlt := s.size_lt
      have hfin : (d0.map f).dictionary.toFinset = S := by
        ext x
        rw [List.mem_toFinset, hS x]
        exact hmem1 x
      have hcard : (d0.map f).dictionary.length = S.card := by
        rw [← hfin, List.toFinset_card_of_nodup hnodup1]
      have hlen1 : (d0.map f)._dictionary.length = d0._dictionary.length :=
        List.length_map _ _
      unfold DictionarySegment.unique_values_count
      rw [Nat.mod_eq_of_lt (by omega)]
      exact hcard

/-- Witness of C4, amended: the `float` segment holding `2.0, 1.0, 2.0`. -/
theorem C4_dictionary_content_witness :
    DictionarySegment.new
      ((⟨[2, 1, 2], [false, false, false], false⟩ : ValueSegment ℚ).map FloatValue.number)
      = .ok ⟨[.number 1, .number 2], ⟨1, [0, 1, 0]⟩, false⟩ ∧
    (⟨[.number 1, .number 2], ⟨1, [0, 1, 0]⟩, false⟩ :
      DictionarySegment FloatValue).dictionary.Sorted (· < ·) := by
  have h : DictionarySegment.new
      ((⟨[2, 1, 2], [false, false, false], false⟩ : ValueSegment ℚ).map FloatValue.number)
      = .ok ⟨[.number 1, .number 2], ⟨1, [0, 1, 0]⟩, false⟩ := rfl
  exact ⟨h, (C4_dictionary_content FloatValue.number FloatValue.number_lt_number
    ⟨[2, 1, 2], [false, false, false], false⟩ _ (by decide) h).1⟩

/-- C6 as stated does not hold: on the `float` dictionary segment whose dictionary is
`1.0`, the probe NaN makes `std::lower_bound` return the first position (`1.0 < NaN` is
false), so `lower_bound(NaN)` is `0` and not `INVALID_VALUE_ID`, although no dictionary
element is `>= NaN`. -/
theorem C6_lower_bound_of_nan :
    ∃ d : DictionarySegment FloatValue,
      DictionarySegment.new (⟨[.number 1], [false], false⟩ : ValueSegment FloatValue) = .ok d ∧
      d.dictionary = [.number 1] ∧
      d.lower_bound .nan = 0 ∧
      d.lower_bound .nan ≠ INVALID_VALUE_ID ∧
      ¬ ∃ y ∈ d.dictionary, FloatValue.nan ≤ y :=
  ⟨⟨[.number 1], ⟨1, [0]⟩, false⟩, rfl, rfl, rfl, by decide, by decide⟩

/-- C6, amended (lower_bound law): on every dictionary segment built by the constructor
and every probe `x`, where `operator<` orders the values and the probe totally,
`lower_bound(x)` is `INVALID_VALUE_ID` exactly when no dictionary element is `>= x`, that
is when every element is below `x`; otherwise it is the smallest index, in dictionary
coordinates, of an element that is `>= x`. The values and the probe are given as images
of a totally ordered type under a map `f` that preserves and reflects `<` and `<=`: the
identity for `int`, `long` and `string`, `FloatValue.number` for `float` and `double`
values other than NaN. -/
theorem C6_lower_bound_law [LE U] (f : T → U) (hf : ∀ a b, f a < f b ↔ a < b)
    (hle : ∀ a b, f a ≤ f b ↔ a ≤ b) (s : ValueSegment T) (d : DictionarySegment U) (x : T)
    (h : DictionarySegment.new (s.map f) = .ok d) :
    (d.lower_bound (f x) = INVALID_VALUE_ID ↔ ¬ ∃ y ∈ d.dictionary, f x ≤ y) ∧
    (d.lower_bound (f x) = INVALID_VALUE_ID ↔ ∀ y ∈ d.dictionary, y < f x) ∧
    ((∃ y ∈ d.dictionary, f x ≤ y) →
      ∃ y, d.dictionary[d.lower_bound (f x)]? = some y ∧ f x ≤ y ∧
        ∀ j z, j < d.lower_bound (f x) → d.dictionary[j]? = some z → z < f x) := by
  rw [DictionarySegment.new_map f hf] at h
  cases hs : DictionarySegment.new s with
  | error e =>
    rw [hs] at h
    cases h
  | ok d0 =>
    rw [hs] at h
    have hd : d = d0.map f := by
      simp only [Except.map, Except.ok.injEq] at h
      exact h.symm
    subst hd
    obtain ⟨hinv, hfound⟩ := DictionarySegment.lower_bound_spec s d0 x hs
    rw [DictionarySegment.lower_bound_map f hf]
    have hdict : (d0.map f).dictionary = d0.dictionary.map f := rfl
    rw [hdict]
    have hall : (∀ y ∈ d0.dictionary.map f, y < f x) ↔ ∀ y ∈ d0.dictionary, y < x := by
      constructor
      · intro hy a ha
        exact (hf a x).mp (hy (f a) (List.mem_map_of_mem f ha))
      · intro hy y hmem
        obtain ⟨a, ha, rfl⟩ := List.mem_map.mp hmem
        exact (hf a x).mpr (hy a ha)
    have hex : (∃ y ∈ d0.dictionary.map f, f x ≤ y) ↔ ∃ y ∈ d0.dictionary, x ≤ y := by
      constructor
      · rintro ⟨y, hmem, hy⟩
        obtain ⟨a, ha, rfl⟩ := List.mem_map.mp hmem
        exact ⟨a, ha, (hle x a).mp hy⟩
      · rintro ⟨a, ha, hy⟩
        exact ⟨f a, List.mem_map_of_mem f ha, (hle x a).mpr hy⟩
    refine ⟨?_, ?_, ?_⟩
    · rw [hinv, hex]
      constructor
      · rintro hy ⟨a, ha, hxa⟩
        exact absurd (hy a ha) (not_lt.mpr hxa)
      · intro hy a ha
        by_contra hcon
        exact hy ⟨a, ha, not_lt.mp hcon⟩
    · rw [hinv, hall]
    · intro hsome
      obtain ⟨a, hget, hxa, hbelow⟩ := hfound (hex.mp hsome)
      refine ⟨f a, ?_, (hle x a).mpr hxa, ?_⟩
      · rw [List.getElem?_map, hget]
        rfl
      · intro j z hj hz
        rw [List.getElem?_map] at hz
        cases hb : d0.dictionary[j]? with
        | none =>
          rw [hb] at hz
          cases hz
        | some b =>
          rw [hb] at hz
          simp only [Option.map_some', Option.some.injEq] at hz
          rw [← hz]
          exact (hf b x).mpr (hbelow j b hj hb)

/-- Witness of C6, amended: scenario S2, the segment `0, 2, 4, 6, 8, 10` probed with `5`,
as a `float` segment. -/
theorem C6_lower_bound_law_witness :
    DictionarySegment.new
      ((⟨[0, 2, 4, 6, 8, 10], [false, false, false, false, false, false], false⟩ :
        ValueSegment ℚ).map FloatValue.number)
      = .ok ⟨[.number 0, .number 2, .number 4, .number 6, .number 8, .number 10],
          ⟨1, [0, 1, 2, 3, 4, 5]⟩, false⟩ ∧
    (⟨[.number 0, .number 2, .number 4, .number 6, .number 8, .number 10],
        ⟨1, [0, 1, 2, 3, 4, 5]⟩, false⟩ : DictionarySegment FloatValue).lower_bound
        (.number 5) = 3 ∧
    ((⟨[.number 0, .number 2, .number 4, .number 6, .number 8, .number 10],
        ⟨1, [0, 1, 2, 3, 4, 5]⟩, false⟩ : DictionarySegment FloatValue).lower_bound
        (.number 5) = INVALID_VALUE_ID ↔
      ∀ y ∈ (⟨[.number 0, .number 2, .number 4, .number 6, .number 8, .number 10],
        ⟨1, [0, 1, 2, 3, 4, 5]⟩, false⟩ : DictionarySegment FloatValue).dictionary,
        y < .number 5) := by
  have h : DictionarySegment.new
      ((⟨[0, 2, 4, 6, 8, 10], [false, false, false, false, false, false], false⟩ :
        ValueSegment ℚ).map FloatValue.number)
      = .ok ⟨[.number 0, .number 2, .number 4, .number 6, .number 8, .number 10],
          ⟨1, [0, 1, 2, 3, 4, 5]⟩, false⟩ := rfl
  exact ⟨h, rfl, (C6_lower_bound_law FloatValue.number FloatValue.number_lt_number
    FloatValue.number_le_number _ _ 5 h).2.1⟩

end OrderedClaims

/-! ## add_column -/

section AddColumnClaims

theorem wide_table_row_count (n : Nat) : (wide_table n).row_count = 0 := by
  have hsize : (wide_table n).last_chunk.size = 0 := by
    apply Chunk.size_of_empty_segments
    intro segment hmem
    rw [List.eq_of_mem_replicate hmem]
    rfl
  unfold Table.row_count
  rw [hsize]
  simp [wide_table, size_t_pred]

theorem wide_table_column_count (n : Nat) : (wide_table n).column_count = n % 2 ^ 16 := by
  simp [wide_table, Table.column_count]

theorem wide_table_add_column (n : Nat) :
    (wide_table n).add_column "a" .int false = (wide_table (n + 1), .ok ()) := by
  unfold Table.add_column
  rw [if_pos (wide_table_row_count n)]
  simp [wide_table, Table.add_column_definition, Chunk.add_segment, List.replicate_succ']

/-- The table of `n` columns is the one `n` calls of `add_column` make. -/
theorem wide_table_eq_with_columns (n : Nat) :
    Table.with_columns 1 (List.replicate n ("a", DataType.int, false)) = wide_table n := by
  induction n with
  | zero => rfl
  | succ n ih =>
    unfold Table.with_columns at ih ⊢
    rw [List.replicate_succ', List.foldl_append, ih]
    simp only [List.foldl_cons, List.foldl_nil]
    rw [wide_table_add_column]

/-- C18 as stated does not hold: on the table made by 65535 calls of `add_column`, which
holds no row, `add_column` returns and `column_count()` goes from `65535` to `0`. -/
theorem C18_column_count_wraps :
    Table.with_columns 1 (List.replicate 65535 ("a", DataType.int, false))
      = wide_table 65535 ∧
    (wide_table 65535).column_count = 65535 ∧
    ((wide_table 65535).add_column "a" .int false).2 = .ok () ∧
    ((wide_table 65535).add_column "a" .int false).1.column_count = 0 := by
  refine ⟨wide_table_eq_with_columns 65535,
    (wide_table_column_count 65535).trans (by norm_num), ?_, ?_⟩
  · rw [wide_table_add_column]
  · rw [wide_table_add_column]
    exact (wide_table_column_count (65535 + 1)).trans (by norm_num)

/-- C18, amended (add_column is rejected on non-empty tables): `add_column` throws exactly
when `row_count()` is not `0`, and then leaves the table as it was; when it returns on a
table whose three column vectors have the same length, below `2 ^ 16`, `column_count()`
is the previous count plus one modulo `2 ^ 16`, so it has grown by one if the table had
fewer than `65535` columns, and `column_name`, `column_type` and `column_nullable` of the
id of the added column, the previous `column_count()`, return the arguments. -/
theorem C18_add_column (t : Table) (name : String) (type : DataType) (nullable : Bool) :
    ((t.add_column name type nullable).2 = .error .logic_error ↔ t.row_count ≠ 0) ∧
    ((t.add_column name type nullable).2 = .ok () ↔ t.row_count = 0) ∧
    (t.row_count ≠ 0 → (t.add_column name type nullable).1 = t) ∧
    (t.row_count = 0 → t._column_types.length = t._column_names.length →
      t._column_nullable.length = t._column_names.length →
      t._column_names.length < 2 ^ 16 →
      (t.add_column name type nullable).1.column_count = (t.column_count + 1) % 2 ^ 16 ∧
      (t._column_names.length + 1 < 2 ^ 16 →
        (t.add_column name type nullable).1.column_count = t.column_count + 1) ∧
      (t.add_column name type nullable).1.column_name t.column_count = .ok name ∧
      (t.add_column name type nullable).1.column_type t.column_count = .ok type ∧
      (t.add_column name type nullable).1.column_nullable t.column_count = .ok nullable) := by
  by_cases h0 : t.row_count = 0
  · have hpost : t.add_column name type nullable =
        (Table.add_column_definition
          { t with _chunks := t._chunks.map (fun chunk =>
              chunk.add_segment (.value_segment type (ValueSegment.new nullable))) }
          name type nullable, .ok ()) := by
      unfold Table.add_column
      rw [if_pos h0]
    refine ⟨?_, ?_, fun h => absurd h0 h, ?_⟩
    · rw [hpost]
      simp [h0]
    · rw [hpost]
      simp [h0]
    · intro _ htypes hnullable hlt
      have hcc : t.column_count = t._column_names.length := Nat.mod_eq_of_lt hlt
      rw [hpost, hcc]
      refine ⟨?_, ?_, ?_, ?_, ?_⟩
      · simp only [Table.column_count, Table.add_column_definition, List.length_append,
          List.length_singleton]
      · intro hlt1
        simp only [Table.column_count, Table.add_column_definition, List.length_append,
          List.length_singleton]
        exact Nat.mod_eq_of_lt hlt1
      · simp [Table.column_name, Table.add_column_definition]
      · simp [Table.column_type, Table.add_column_definition, ← htypes]
      · simp [Table.column_nullable, Table.add_column_definition, ← hnullable]
  · have hpost : t.add_column name type nullable = (t, .error .logic_error) := by
      unfold Table.add_column
      rw [if_neg h0]
    refine ⟨?_, ?_, fun _ => by rw [hpost], fun h => absurd h h0⟩
    · rw [hpost]
      simp [h0]
    · rw [hpost]
      simp [h0]

/-- Witness of C18, amended: a first column added to a new table. -/
theorem C18_add_column_witness :
    (Table.new 2).row_count = 0 ∧
    ((Table.new 2).add_column "a" .int false).1.column_count = (Table.new 2).column_count + 1 ∧
    ((Table.new 2).add_column "a" .int false).1.column_name (Table.new 2).column_count
      = .ok "a" := by
  have h := (C18_add_column (Table.new 2) "a" .int false).2.2.2 rfl rfl rfl (by decide)
  exact ⟨rfl, h.2.1 (by decide), h.2.2.1⟩

end AddColumnClaims

/-! ## Row count after failed appends and beyond the range of `ChunkID` -/

section RowCountLimits

theorem stack_table_last_chunk (n : Nat) (h : 1 ≤ n) :
    (stack_table n).last_chunk = ⟨[.value_segment .int ⟨[0], [false], false⟩]⟩ := by
  cases n with
  | zero => omega
  | succ n =>
    unfold Table.last_chunk
    simp only [stack_table]
    rw [List.replicate_succ', List.getLastD_concat]

theorem stack_table_append (n : Nat) (h : 1 ≤ n) :
    (stack_table n).append type_cast_model [.int 0] = (stack_table (n + 1), .ok ()) := by
  have hlen : [AllTypeVariant.int 0].length = (stack_table n)._column_names.length := rfl
  have hroll : (stack_table n)._target_chunk_size ≤ (stack_table n).last_chunk.size := by
    rw [stack_table_last_chunk n h]
    exact Nat.le_refl 1
  unfold Table.append
  rw [if_pos hlen, if_pos hroll]
  have hnew : (stack_table n).create_new_chunk
      = ⟨List.replicate n ⟨[.value_segment .int ⟨[0], [false], false⟩]⟩
          ++ [⟨[.value_segment .int (ValueSegment.new false)]⟩],
        ["a"], [.int], [false], 1⟩ := rfl
  rw [hnew]
  simp only [Table.append_to_last_chunk, Table.last_chunk, List.getLastD_concat,
    List.dropLast_concat]
  rw [stack_table, List.replicate_succ']
  rfl

theorem stack_table_append_rows (m : Nat) :
    ∀ n, 1 ≤ n →
      (stack_table n).append_rows type_cast_model (List.replicate m [.int 0])
        = .ok (stack_table (n + m)) := by
  induction m with
  | zero =>
    intro n _
    rfl
  | succ m ih =>
    intro n h
    simp only [List.replicate_succ, Table.append_rows]
    rw [stack_table_append n h]
    simp only []
    rw [ih (n + 1) (by omega), Nat.add_assoc, Nat.add_comm 1 m]

/-- The table after `n ≥ 1` appends of the row `(0)` to the table of one non-nullable
`int` column and target chunk size `1`: every append returns, and there are `n` chunks. -/
theorem stack_table_eq_append_rows (n : Nat) (h : 1 ≤ n) :
    (Table.with_columns 1 [("a", DataType.int, false)]).append_rows type_cast_model
      (List.replicate n [.int 0]) = .ok (stack_table n) := by
  cases n with
  | zero => omega
  | succ m =>
    have hfirst : (Table.with_columns 1 [("a", DataType.int, false)]).append type_cast_model
        [.int 0] = (stack_table 1, .ok ()) := rfl
    simp only [List.replicate_succ, Table.append_rows]
    rw [hfirst]
    simp only []
    rw [stack_table_append_rows m 1 (Nat.le_refl 1), Nat.add_comm 1 m]

theorem stack_table_chunk_count (n : Nat) : (stack_table n).chunk_count = n % 2 ^ 32 := by
  simp [stack_table, Table.chunk_count]

/-- C17 as stated does not hold, at two inputs. On the table of two non-nullable `int`
columns and target chunk size 2, the append of `(1, null)` throws and leaves `1` in the
first column; after the two appends that follow, which return (`n = 2`), `row_count()`
is `3` and `chunk_count()` is `2`. On the table of one `int` column and target chunk size
1, after `2 ^ 32` appends, which all return, there are `2 ^ 32` chunks and
`chunk_count()` is `0`. -/
theorem C17_counts_after_failed_append_and_beyond_chunk_id :
    (((Table.with_columns 2 [("a", .int, false), ("b", .int, false)]).append type_cast_model
        [.int 1, .NULL_VALUE]).2 = .error .logic_error ∧
      Table.append_rows type_cast_model
        ((Table.with_columns 2 [("a", .int, false), ("b", .int, false)]).append
          type_cast_model [.int 1, .NULL_VALUE]).1
        [[.int 1, .int 1], [.int 2, .int 2]]
        = .ok ⟨[⟨[.value_segment .int ⟨[1, 1], [false, false], false⟩,
                .value_segment .int ⟨[1], [false], false⟩]⟩,
              ⟨[.value_segment .int ⟨[2], [false], false⟩,
                .value_segment .int ⟨[2], [false], false⟩]⟩],
            ["a", "b"], [.int, .int], [false, false], 2⟩ ∧
      (⟨[⟨[.value_segment .int ⟨[1, 1], [false, false], false⟩,
            .value_segment .int ⟨[1], [false], false⟩]⟩,
          ⟨[.value_segment .int ⟨[2], [false], false⟩,
            .value_segment .int ⟨[2], [false], false⟩]⟩],
        ["a", "b"], [.int, .int], [false, false], 2⟩ : Table).row_count = 3 ∧
      (⟨[⟨[.value_segment .int ⟨[1, 1], [false, false], false⟩,
            .value_segment .int ⟨[1], [false], false⟩]⟩,
          ⟨[.value_segment .int ⟨[2], [false], false⟩,
            .value_segment .int ⟨[2], [false], false⟩]⟩],
        ["a", "b"], [.int, .int], [false, false], 2⟩ : Table).chunk_count = 2) ∧
    ((Table.with_columns 1 [("a", DataType.int, false)]).append_rows type_cast_model
        (List.replicate (2 ^ 32) [.int 0]) = .ok (stack_table (2 ^ 32)) ∧
      (stack_table (2 ^ 32)).chunk_count = 0) :=
  ⟨⟨rfl, rfl, rfl, rfl⟩, stack_table_eq_append_rows (2 ^ 32) (by norm_num),
    (stack_table_chunk_count (2 ^ 32)).trans (by norm_num)⟩

end RowCountLimits

end opossum
